import Mathlib

/-!
# ArduboyVeritazz: framebuffer, rasteriser and frame scheduler

A shallow embedding of `src/src/ArduboyVeritazz.cpp`.

* The frame buffer `sBuffer` is a map from byte index to byte value.  Index
  `i < WIDTH * HEIGHT / 8` is the `i`-th byte of `sBuffer`; larger indices stand
  for the memory that follows the array, so that a store through an index the
  source computes past the end of the array stays visible in the model.
* `int` / `int16_t` values are `Int`; conversions to `uint8_t` are written
  out as `% 256`.  Sums and differences of coordinates are computed without
  wrap-around (they are exact for `int16_t` operands in a 32 bit `int`).
* In `fillTriangle` every store to an `int16_t` local converts with `i16`, and
  a run ends in one of three ways: it returns, it divides by zero, or a loop
  never ends.
* Every store to a `uint8_t` lvalue truncates to eight bits.
* Loops are functions recursive in the number of remaining iterations.
-/

namespace ArduboyVeritazz

/-! ## Constants and helpers of the absent header -/

/-- Modelled from the spec: `ArduboyVeritazz.h` is absent; `WIDTH` is the
display width in pixels, 128. -/
def WIDTH : Nat := 128

/-- Modelled from the spec: `ArduboyVeritazz.h` is absent; `HEIGHT` is the
display height in pixels, 64 (a multiple of 8). -/
def HEIGHT : Nat := 64

/-- Modelled from the spec: `ArduboyVeritazz.h` is absent; `BLACK` is the
"off" colour, the pixel value 0. -/
def BLACK : Nat := 0

/-- Modelled from the spec: `ArduboyVeritazz.h` is absent; `WHITE` is the
"on" colour, the pixel value 1. -/
def WHITE : Nat := 1

/-- The avr-libc bit-value helper `_BV(n)`, that is `1 << n`. -/
def _BV (n : Nat) : Nat := 1 <<< n

/-- The conversion `(uint8_t)z` of an `int`. -/
def u8 (z : Int) : Nat := (z % 256).toNat

/-- The low eight bits of `~m`.  A byte `b` combined as `b & ~m` and stored
back to a `uint8_t` is `b &&& not8 m`. -/
def not8 (m : Nat) : Nat := 255 ^^^ (m % 256)

/-- The frame buffer seen as memory: byte index to byte value. -/
abbrev Buffer := Nat → Nat

/-- The read-modify-write `sBuffer[i] = g(sBuffer[i])` of one element. -/
def modify (sBuffer : Buffer) (i : Nat) (g : Nat → Nat) : Buffer :=
  fun j => if j = i then g (sBuffer i) else sBuffer j

/-- The compound assignment `sBuffer[i] |= m` on a `uint8_t` element. -/
def orAt (sBuffer : Buffer) (i m : Nat) : Buffer :=
  modify sBuffer i fun b => (b ||| m) % 256

/-- The compound assignment `sBuffer[i] &= ~m` on a `uint8_t` element. -/
def andNotAt (sBuffer : Buffer) (i m : Nat) : Buffer :=
  modify sBuffer i fun b => b &&& not8 m

/-- The compound assignment `sBuffer[i] ^= m` on a `uint8_t` element. -/
def xorAt (sBuffer : Buffer) (i m : Nat) : Buffer :=
  modify sBuffer i fun b => (b ^^^ m) % 256

/-- Every element of the buffer is a `uint8_t`. -/
def IsBytes (sBuffer : Buffer) : Prop := ∀ i, sBuffer i < 256

/-! ## Pixels -/

/-- `ArduboyVeritazz::drawPixel`.  `safe` tells whether `PIXEL_SAFE_MODE` is
defined (the header that would define it is absent). -/
def drawPixel (safe : Bool) (x y : Int) (color : Nat) (sBuffer : Buffer) : Buffer :=
  if safe = true ∧ (x < 0 ∨ x > (WIDTH : Int) - 1 ∨ y < 0 ∨ y > (HEIGHT : Int) - 1) then
    sBuffer
  else
    let row := u8 y / 8
    if color ≠ 0 then
      orAt sBuffer (row * WIDTH + u8 x) (_BV (u8 y % 8))
    else
      andNotAt sBuffer (row * WIDTH + u8 x) (_BV (u8 y % 8))

/-- `ArduboyVeritazz::getPixel`; both arguments are `uint8_t`. -/
def getPixel (sBuffer : Buffer) (x y : Nat) : Nat :=
  let row := y / 8
  let bit_position := y % 8
  (sBuffer (row * WIDTH + x) &&& _BV bit_position) >>> bit_position

/-! ## Fast lines, rectangles, screen fill -/

/-- The compound assignment `sBuffer[i] &= m` for a `uint8_t` mask `m`. -/
def andAt (sBuffer : Buffer) (i m : Nat) : Buffer :=
  modify sBuffer i fun b => b &&& m

/-- The loop `for (a = ...; a < ...; a++) drawPixel(x, a, color)` of
`drawFastVLine`, with the number of iterations still to run as first
argument. -/
def drawFastVLineLoop (safe : Bool) (x : Int) (color : Nat) :
    Nat → Int → Buffer → Buffer
  | 0, _, sBuffer => sBuffer
  | n + 1, a, sBuffer =>
      drawFastVLineLoop safe x color n (a + 1) (drawPixel safe x a color sBuffer)

/-- `ArduboyVeritazz::drawFastVLine`; `h` is a `uint8_t`. -/
def drawFastVLine (safe : Bool) (x y : Int) (h : Nat) (color : Nat)
    (sBuffer : Buffer) : Buffer :=
  let yEnd : Int := y + h
  drawFastVLineLoop safe x color (min yEnd (HEIGHT : Int) - max 0 y).toNat (max 0 y) sBuffer

/-- The loop `while (w--) { *pBuf++ |= mask; }` of `drawFastHLine`. -/
def hlineOr (mask : Nat) : Nat → Nat → Buffer → Buffer
  | 0, _, sBuffer => sBuffer
  | w + 1, pBuf, sBuffer => hlineOr mask w (pBuf + 1) (orAt sBuffer pBuf mask)

/-- The loop `while (w--) { *pBuf++ &= mask; }` of `drawFastHLine`. -/
def hlineAnd (mask : Nat) : Nat → Nat → Buffer → Buffer
  | 0, _, sBuffer => sBuffer
  | w + 1, pBuf, sBuffer => hlineAnd mask w (pBuf + 1) (andAt sBuffer pBuf mask)

/-- `ArduboyVeritazz::drawFastHLine`.  `w` is a `uint8_t`: both `w += x` and
`w = (WIDTH - x)` store an `int` into it and so reduce it modulo 256, and
the test `w <= 0` can only succeed for `w = 0`. -/
def drawFastHLine (x y : Int) (w : Nat) (color : Nat) (sBuffer : Buffer) : Buffer :=
  if y < 0 ∨ y ≥ (HEIGHT : Int) then sBuffer
  else
    let w1 : Nat := if x < 0 then u8 ((w : Int) + x) else w
    let x1 : Int := if x < 0 then 0 else x
    let w2 : Nat := if x1 + (w1 : Int) > (WIDTH : Int) then u8 ((WIDTH : Int) - x1) else w1
    if w2 ≤ 0 then sBuffer
    else
      let pBuf : Nat := ((y / 8) * (WIDTH : Int) + x1).toNat
      let mask : Nat := (1 <<< (y % 8).toNat) % 256
      if color = WHITE then hlineOr mask w2 pBuf sBuffer
      else if color = BLACK then hlineAnd (not8 mask) w2 pBuf sBuffer
      else sBuffer

/-- The loop `for (int16_t i = x; i < x + w; i++) drawFastVLine(i, y, h, color)`
of `fillRect`. -/
def fillRectLoop (safe : Bool) (y : Int) (h : Nat) (color : Nat) :
    Nat → Int → Buffer → Buffer
  | 0, _, sBuffer => sBuffer
  | n + 1, i, sBuffer =>
      fillRectLoop safe y h color n (i + 1) (drawFastVLine safe i y h color sBuffer)

/-- `ArduboyVeritazz::fillRect`; `w` and `h` are `uint8_t`. -/
def fillRect (safe : Bool) (x y : Int) (w h : Nat) (color : Nat)
    (sBuffer : Buffer) : Buffer :=
  fillRectLoop safe y h color w x sBuffer

/-- The C library call `memset(sBuffer, c, n)`. -/
def memset (sBuffer : Buffer) (c n : Nat) : Buffer :=
  fun j => if j < n then c else sBuffer j

/-- `ArduboyVeritazz::fillScreen`, the portable `HOST_TEST` branch. -/
def fillScreen (color : Nat) (sBuffer : Buffer) : Buffer :=
  let color1 := if color ≠ 0 then 0xFF else color
  memset sBuffer color1 (WIDTH * HEIGHT / 8)

/-- `ArduboyVeritazz::clear`. -/
def clear (sBuffer : Buffer) : Buffer :=
  fillScreen BLACK sBuffer

/-! ## Lines -/

/-- The loop `for (; x0 <= x1; x0++)` of `drawLine`, with the number of
iterations still to run as first argument. -/
def drawLineLoop (safe steep : Bool) (dx dy ystep : Int) (color : Nat) :
    Nat → Int → Int → Int → Buffer → Buffer
  | 0, _, _, _, sBuffer => sBuffer
  | n + 1, x0, y0, err, sBuffer =>
      let sBuffer1 :=
        if steep then drawPixel safe y0 x0 color sBuffer
        else drawPixel safe x0 y0 color sBuffer
      let err1 := err - dy
      if err1 < 0 then
        drawLineLoop safe steep dx dy ystep color n (x0 + 1) (y0 + ystep) (err1 + dx) sBuffer1
      else
        drawLineLoop safe steep dx dy ystep color n (x0 + 1) y0 err1 sBuffer1

/-- `ArduboyVeritazz::drawLine`. -/
def drawLine (safe : Bool) (x0 y0 x1 y1 : Int) (color : Nat) (sBuffer : Buffer) : Buffer :=
  let steep : Bool := decide ((y1 - y0).natAbs > (x1 - x0).natAbs)
  let a0 : Int := if steep then y0 else x0
  let b0 : Int := if steep then x0 else y0
  let a1 : Int := if steep then y1 else x1
  let b1 : Int := if steep then x1 else y1
  let xs : Int := if a0 > a1 then a1 else a0
  let xe : Int := if a0 > a1 then a0 else a1
  let ys : Int := if a0 > a1 then b1 else b0
  let ye : Int := if a0 > a1 then b0 else b1
  let dx : Int := xe - xs
  let dy : Int := (ye - ys).natAbs
  let err : Int := Int.tdiv dx 2
  let ystep : Int := if ys < ye then 1 else -1
  drawLineLoop safe steep dx dy ystep color (xe - xs + 1).toNat xs ys err sBuffer

/-! ## Bitmaps -/

/-- The program-memory read `pgm_read_byte(bitmap + i)`; the result is a
`uint8_t`. -/
def pgm_read_byte (bitmap : Nat → Nat) (i : Nat) : Nat := bitmap i % 256

/-- The three compositing modes of `drawBitmap`: `|=` for `WHITE`, `&= ~` for
`BLACK`, `^=` for any other colour. -/
def blit (color : Nat) (sBuffer : Buffer) (i v : Nat) : Buffer :=
  if color = WHITE then orAt sBuffer i v
  else if color = BLACK then andNotAt sBuffer i v
  else xorAt sBuffer i v

/-- The body of the inner loop of `drawBitmap` below its `break` test: the
stores made for bitmap row-group `a` and column `iCol`. -/
def drawBitmapCell (x : Int) (bitmap : Nat → Nat) (w : Nat) (color : Nat)
    (yOffset : Nat) (a : Nat) (bRow : Int) (iCol : Nat) (sBuffer : Buffer) : Buffer :=
  if (iCol : Int) + x ≥ 0 then
    let sBuffer1 :=
      if bRow ≥ 0 then
        blit color sBuffer (bRow * (WIDTH : Int) + x + iCol).toNat
          (pgm_read_byte bitmap (a * w + iCol) <<< yOffset)
      else sBuffer
    if yOffset ≠ 0 ∧ bRow < (HEIGHT : Int) / 8 - 1 ∧ bRow > -2 then
      blit color sBuffer1 ((bRow + 1) * (WIDTH : Int) + x + iCol).toNat
        (pgm_read_byte bitmap (a * w + iCol) >>> (8 - yOffset))
    else sBuffer1
  else sBuffer

/-- The inner loop `for (int iCol = 0; iCol < w; iCol++)` of `drawBitmap`,
with the number of iterations still to run as first argument. -/
def drawBitmapCols (x : Int) (bitmap : Nat → Nat) (w : Nat) (color : Nat)
    (yOffset : Nat) (a : Nat) (bRow : Int) : Nat → Nat → Buffer → Buffer
  | 0, _, sBuffer => sBuffer
  | n + 1, iCol, sBuffer =>
      if (iCol : Int) + x > (WIDTH : Int) - 1 then sBuffer
      else
        drawBitmapCols x bitmap w color yOffset a bRow n (iCol + 1)
          (drawBitmapCell x bitmap w color yOffset a bRow iCol sBuffer)

/-- The outer loop `for (int a = 0; a < rows; a++)` of `drawBitmap`, with
the number of iterations still to run as first argument. -/
def drawBitmapRows (x : Int) (bitmap : Nat → Nat) (w : Nat) (color : Nat)
    (yOffset : Nat) (sRow : Int) : Nat → Nat → Buffer → Buffer
  | 0, _, sBuffer => sBuffer
  | n + 1, a, sBuffer =>
      let bRow : Int := sRow + a
      if bRow > (HEIGHT : Int) / 8 - 1 then sBuffer
      else
        let sBuffer1 :=
          if bRow > -2 then drawBitmapCols x bitmap w color yOffset a bRow w 0 sBuffer
          else sBuffer
        drawBitmapRows x bitmap w color yOffset sRow n (a + 1) sBuffer1

/-- `ArduboyVeritazz::drawBitmap`; `w` and `h` are `uint8_t`, `y / 8` is the
truncating division of C. -/
def drawBitmap (x y : Int) (bitmap : Nat → Nat) (w h : Nat) (color : Nat)
    (sBuffer : Buffer) : Buffer :=
  if x + (w : Int) < 0 ∨ x > (WIDTH : Int) - 1 ∨ y + (h : Int) < 0 ∨ y > (HEIGHT : Int) - 1 then
    sBuffer
  else
    let yOffset0 : Nat := y.natAbs % 8
    let sRow0 : Int := Int.tdiv y 8
    let sRow : Int := if y < 0 then sRow0 - 1 else sRow0
    let yOffset : Nat := if y < 0 then 8 - yOffset0 else yOffset0
    let rows0 : Nat := h / 8
    let rows : Nat := if h % 8 ≠ 0 then rows0 + 1 else rows0
    drawBitmapRows x bitmap w color yOffset sRow rows 0 sBuffer

/-! ## Frame management -/

/-- Bit widths of the unsigned scheduler fields; their declarations are in
the absent header. -/
structure Widths where
  /-- Width of `frameCount`. -/
  frameCount : Nat
  /-- Width of `eachFrameMillis`. -/
  eachFrameMillis : Nat
  /-- Width of `lastFrameDurationMs`. -/
  lastFrameDurationMs : Nat

/-- The scheduler fields of an `ArduboyVeritazz` object.  The two time stamps
hold readings of `millis()` and are not wrapped. -/
structure Frame where
  /-- Configured rate, a `uint8_t`. -/
  frameRate : Nat
  /-- Number of frames whose post-render bookkeeping was done. -/
  frameCount : Nat
  /-- Frame interval in milliseconds. -/
  eachFrameMillis : Nat
  /-- Clock reading at which the last permitted frame started. -/
  lastFrameStart : Int
  /-- Clock reading before which no frame is permitted. -/
  nextFrameStart : Int
  /-- Whether a frame was started and its bookkeeping is owed. -/
  post_render : Bool
  /-- Duration recorded for the last frame. -/
  lastFrameDurationMs : Nat
deriving DecidableEq, Repr

/-- `ArduboyVeritazz::setFrameRate`; `rate` is a `uint8_t`. -/
def setFrameRate (W : Widths) (rate : Nat) (s : Frame) : Frame :=
  { s with frameRate := rate, eachFrameMillis := (1000 / rate) % 2 ^ W.eachFrameMillis }

/-- The constructor `ArduboyVeritazz::ArduboyVeritazz`.  It leaves
`lastFrameStart` and `lastFrameDurationMs` unset; their initial contents are
the arguments `lastFrameStart0` and `lastFrameDurationMs0`. -/
def construct (W : Widths) (lastFrameStart0 : Int) (lastFrameDurationMs0 : Nat) : Frame :=
  let s0 : Frame :=
    { frameRate := 0, frameCount := 0, eachFrameMillis := 0,
      lastFrameStart := lastFrameStart0, nextFrameStart := 0,
      post_render := false, lastFrameDurationMs := lastFrameDurationMs0 }
  let s1 := setFrameRate W 60 s0
  { s1 with frameCount := 0, nextFrameStart := 0, post_render := false }

/-- `ArduboyVeritazz::nextFrame` with `now` the value returned by `millis()`.
The call of `idle()` changes no field and is left out. -/
def nextFrame (W : Widths) (now : Int) (s : Frame) : Bool × Frame :=
  let s1 : Frame :=
    if s.post_render then
      { s with
        lastFrameDurationMs := ((now - s.lastFrameStart) % 2 ^ W.lastFrameDurationMs).toNat,
        frameCount := (s.frameCount + 1) % 2 ^ W.frameCount,
        post_render := false }
    else s
  if now < s1.nextFrameStart then
    (false, s1)
  else
    let nextFrameStart1 : Int := s1.lastFrameStart + s1.eachFrameMillis
    let nextFrameStart2 : Int := if nextFrameStart1 < now then now else nextFrameStart1
    (true, { s1 with nextFrameStart := nextFrameStart2, lastFrameStart := now,
                     post_render := true })

/-- The count, 0 or 1, a boolean stands for when permitted polls are counted. -/
def owed (b : Bool) : Nat := if b then 1 else 0

/-- A run of the host loop: `nextFrame` is polled once at each clock reading
of the list, in order; the result is the list of return values and the final
state. -/
def pollAll (W : Widths) : List Int → Frame → List Bool × Frame
  | [], s => ([], s)
  | now :: rest, s =>
      let r := nextFrame W now s
      let rr := pollAll W rest r.2
      (r.1 :: rr.1, rr.2)

/-- The clock readings of the polls that returned permitted. -/
def permittedStarts (W : Widths) : List Int → Frame → List Int
  | [], _ => []
  | now :: rest, s =>
      let r := nextFrame W now s
      if r.1 then now :: permittedStarts W rest r.2 else permittedStarts W rest r.2

/-- The spacing `nextFrame` enforces on the clock readings of permitted
polls: a reading is not below the `nextFrameStart` in force, which after a
permitted poll at `a` is `max (lastFrameStart + e) a`. -/
def spacedFrom (e : Int) : Int → Int → List Int → Prop
  | _, _, [] => True
  | lastFrameStart, nextFrameStart, a :: rest =>
      nextFrameStart ≤ a ∧ spacedFrom e a (max (lastFrameStart + e) a) rest

/-- `ArduboyVeritazz::drawRect`; `w` and `h` are `uint8_t`. -/
def drawRect (safe : Bool) (x y : Int) (w h : Nat) (color : Nat) (sBuffer : Buffer) : Buffer :=
  let sBuffer1 := drawFastHLine x y w color sBuffer
  let sBuffer2 := drawFastHLine x (y + h - 1) w color sBuffer1
  let sBuffer3 := drawFastVLine safe x y h color sBuffer2
  drawFastVLine safe (x + w - 1) y h color sBuffer3

/-! ## Triangles -/

/-- The conversion `(int16_t)z` of an `int`: the value congruent to `z` modulo
`2^16` in `-32768 .. 32767`. -/
def i16 (z : Int) : Int := (z + 32768) % 65536 - 32768

/-- The division `a / b` of two `int`s in C: truncating, and without a result
(`none`) when the divisor is zero. -/
def cdiv (a b : Int) : Option Int :=
  if b = 0 then none else some (Int.tdiv a b)

/-- The ways a run of `fillTriangle`, or of one of its loops, can end. -/
inductive Outcome (α : Type) where
  /-- The code reaches its end, with a result. -/
  | returns (a : α) : Outcome α
  /-- The code evaluates a division whose divisor is zero. -/
  | dividesByZero : Outcome α
  /-- The loop has not ended after the iterations the model grants it. -/
  | runsOn : Outcome α

/-- A scanline loop of `fillTriangle`, `for (...; y <= last; y++)`, with the
number of iterations granted as first argument; it returns the final `y` and
the buffer.  Both loops of the source have this body: the first with
`(xa, dxa, dya) = (x0, dx01, dy01)`, the second with `(x1, dx12, dy12)` and
`last = y2`, and both with `(xb, dxb, dyb) = (x0, dx02, dy02)`.  The locals
`a`, `b`, `y`, `sa`, `sb` are `int16_t`: every store to them converts. -/
def fillTriangleLoop (xa dxa dya xb dxb dyb last : Int) (color : Nat) :
    Nat → Int → Int → Int → Buffer → Outcome (Int × Buffer)
  | 0, y, _, _, sBuffer =>
      if y ≤ last then Outcome.runsOn else Outcome.returns (y, sBuffer)
  | n + 1, y, sa, sb, sBuffer =>
      if y ≤ last then
        match cdiv sa dya, cdiv sb dyb with
        | some qa, some qb =>
            let a : Int := i16 (xa + qa)
            let b : Int := i16 (xb + qb)
            let a1 : Int := if a > b then b else a
            let b1 : Int := if a > b then a else b
            fillTriangleLoop xa dxa dya xb dxb dyb last color n (i16 (y + 1))
              (i16 (sa + dxa)) (i16 (sb + dxb))
              (drawFastHLine a1 y (u8 (b1 - a1 + 1)) color sBuffer)
        | _, _ => Outcome.dividesByZero
      else Outcome.returns (y, sBuffer)

/-- The body of `fillTriangle` below the three sorting steps.  The locals
`last`, `dx01`, ..., `dy12`, `sa`, `sb` are `int16_t`.  An `int16_t` counter
takes at most 65536 values, so a scanline loop that ends does so within 65536
iterations. -/
def fillTriangleSorted (x0 y0 x1 y1 x2 y2 : Int) (color : Nat) (sBuffer : Buffer) :
    Outcome Buffer :=
  if y0 = y2 then
    let a1 : Int := if x1 < x0 then x1 else x0
    let b1 : Int := if x1 < x0 then x0 else if x1 > x0 then x1 else x0
    let a2 : Int := if x2 < a1 then x2 else a1
    let b2 : Int := if x2 < a1 then b1 else if x2 > b1 then x2 else b1
    Outcome.returns (drawFastHLine a2 y0 (u8 (b2 - a2 + 1)) color sBuffer)
  else
    let dx01 : Int := i16 (x1 - x0)
    let dy01 : Int := i16 (y1 - y0)
    let dx02 : Int := i16 (x2 - x0)
    let dy02 : Int := i16 (y2 - y0)
    let dx12 : Int := i16 (x2 - x1)
    let dy12 : Int := i16 (y2 - y1)
    let last : Int := if y1 = y2 then y1 else i16 (y1 - 1)
    match fillTriangleLoop x0 dx01 dy01 x0 dx02 dy02 last color 65536 y0 0 0 sBuffer with
    | Outcome.returns (y, sBuffer1) =>
        match fillTriangleLoop x1 dx12 dy12 x0 dx02 dy02 y2 color 65536 y
            (i16 (dx12 * (y - y1))) (i16 (dx02 * (y - y0))) sBuffer1 with
        | Outcome.returns (_, sBuffer2) => Outcome.returns sBuffer2
        | Outcome.dividesByZero => Outcome.dividesByZero
        | Outcome.runsOn => Outcome.runsOn
    | Outcome.dividesByZero => Outcome.dividesByZero
    | Outcome.runsOn => Outcome.runsOn

/-- The third sorting step of `fillTriangle`, `if (y0 > y1) swap`, and the
body. -/
def fillTriangleSort3 (x0 y0 x1 y1 x2 y2 : Int) (color : Nat) (sBuffer : Buffer) :
    Outcome Buffer :=
  if y0 > y1 then fillTriangleSorted x1 y1 x0 y0 x2 y2 color sBuffer
  else fillTriangleSorted x0 y0 x1 y1 x2 y2 color sBuffer

/-- The second sorting step of `fillTriangle`, `if (y1 > y2) swap`, and what
follows it. -/
def fillTriangleSort2 (x0 y0 x1 y1 x2 y2 : Int) (color : Nat) (sBuffer : Buffer) :
    Outcome Buffer :=
  if y1 > y2 then fillTriangleSort3 x0 y0 x2 y2 x1 y1 color sBuffer
  else fillTriangleSort3 x0 y0 x1 y1 x2 y2 color sBuffer

/-- `ArduboyVeritazz::fillTriangle`: the first sorting step, `if (y0 > y1)
swap`, and what follows it.  The arguments are `int16_t` values. -/
def fillTriangle (x0 y0 x1 y1 x2 y2 : Int) (color : Nat) (sBuffer : Buffer) :
    Outcome Buffer :=
  if y0 > y1 then fillTriangleSort2 x1 y1 x0 y0 x2 y2 color sBuffer
  else fillTriangleSort2 x0 y0 x1 y1 x2 y2 color sBuffer

/-! ## Pixel sequences and circles -/

/-- The calls `drawPixel(p.1, p.2, color)` for the points `p` of a list, in
order. -/
def plot (safe : Bool) (color : Nat) : List (Int × Int) → Buffer → Buffer
  | [], sBuffer => sBuffer
  | p :: ps, sBuffer => plot safe color ps (drawPixel safe p.1 p.2 color sBuffer)

/-- The local variables `f`, `ddF_x`, `ddF_y`, `x`, `y` of the midpoint circle
recurrence shared by `drawCircle`, `drawCircleHelper` and `fillCircleHelper`. -/
structure Midpoint where
  /-- The decision variable. -/
  f : Int
  /-- The increment of `f` for a step in `x`. -/
  ddF_x : Int
  /-- The increment of `f` for a step in `y`. -/
  ddF_y : Int
  /-- The offset that grows from 0. -/
  x : Int
  /-- The offset that shrinks from `r`. -/
  y : Int
deriving DecidableEq, Repr

/-- The initial values `f = 1 - r`, `ddF_x = 1`, `ddF_y = -2 * r`, `x = 0`,
`y = r`. -/
def midpointInit (r : Nat) : Midpoint :=
  { f := 1 - r, ddF_x := 1, ddF_y := -2 * r, x := 0, y := r }

/-- One pass through the updates at the head of the loop body:
`if (f >= 0) { y--; ddF_y += 2; f += ddF_y; } x++; ddF_x += 2; f += ddF_x;`. -/
def midpointStep (s : Midpoint) : Midpoint :=
  let y1 : Int := if s.f ≥ 0 then s.y - 1 else s.y
  let ddF_y1 : Int := if s.f ≥ 0 then s.ddF_y + 2 else s.ddF_y
  let f1 : Int := if s.f ≥ 0 then s.f + ddF_y1 else s.f
  { f := f1 + (s.ddF_x + 2), ddF_x := s.ddF_x + 2, ddF_y := ddF_y1, x := s.x + 1, y := y1 }

/-- The loop `while (x < y)`: the values of the variables after the updates
of each iteration, with a bound on the number of iterations as first
argument. -/
def midpointTrace : Nat → Midpoint → List Midpoint
  | 0, _ => []
  | n + 1, s => if s.x < s.y then midpointStep s :: midpointTrace n (midpointStep s) else []

/-- The eight pixels `drawCircle` draws in one iteration, in order. -/
def circleOctants (x0 y0 : Int) (s : Midpoint) : List (Int × Int) :=
  [(x0 + s.x, y0 + s.y), (x0 - s.x, y0 + s.y), (x0 + s.x, y0 - s.y), (x0 - s.x, y0 - s.y),
   (x0 + s.y, y0 + s.x), (x0 - s.y, y0 + s.x), (x0 + s.y, y0 - s.x), (x0 - s.y, y0 - s.x)]

/-- The pixels `drawCircle` draws, in order; `r` is a `uint8_t`.  The loop
runs at most `r` times, since `x` grows from 0 and stays below `y ≤ r`. -/
def drawCirclePoints (x0 y0 : Int) (r : Nat) : List (Int × Int) :=
  [(x0, y0 + r), (x0, y0 - r), (x0 + r, y0), (x0 - r, y0)]
    ++ (midpointTrace r (midpointInit r)).flatMap (circleOctants x0 y0)

/-- `ArduboyVeritazz::drawCircle`. -/
def drawCircle (safe : Bool) (x0 y0 : Int) (r : Nat) (color : Nat) (sBuffer : Buffer) : Buffer :=
  plot safe color (drawCirclePoints x0 y0 r) sBuffer

/-- The pixels `drawCircleHelper` draws in one iteration, in order, for the
quadrant mask `cornername`. -/
def circleCorners (x0 y0 : Int) (cornername : Nat) (s : Midpoint) : List (Int × Int) :=
  (if cornername &&& 0x4 ≠ 0 then [(x0 + s.x, y0 + s.y), (x0 + s.y, y0 + s.x)] else [])
    ++ (if cornername &&& 0x2 ≠ 0 then [(x0 + s.x, y0 - s.y), (x0 + s.y, y0 - s.x)] else [])
    ++ (if cornername &&& 0x8 ≠ 0 then [(x0 - s.y, y0 + s.x), (x0 - s.x, y0 + s.y)] else [])
    ++ (if cornername &&& 0x1 ≠ 0 then [(x0 - s.y, y0 - s.x), (x0 - s.x, y0 - s.y)] else [])

/-- The pixels `drawCircleHelper` draws, in order. -/
def drawCircleHelperPoints (x0 y0 : Int) (r cornername : Nat) : List (Int × Int) :=
  (midpointTrace r (midpointInit r)).flatMap (circleCorners x0 y0 cornername)

/-- `ArduboyVeritazz::drawCircleHelper`; `r` and `cornername` are
`uint8_t`. -/
def drawCircleHelper (safe : Bool) (x0 y0 : Int) (r cornername : Nat) (color : Nat)
    (sBuffer : Buffer) : Buffer :=
  plot safe color (drawCircleHelperPoints x0 y0 r cornername) sBuffer

/-- `ArduboyVeritazz::drawRoundRect`; `w`, `h` and `r` are `uint8_t`, and the
lengths `w - 2 * r` and `h - 2 * r`, computed as `int`, are converted to the
`uint8_t` parameters of the fast lines. -/
def drawRoundRect (safe : Bool) (x y : Int) (w h r : Nat) (color : Nat) (sBuffer : Buffer) :
    Buffer :=
  let sBuffer1 := drawFastHLine (x + r) y (u8 ((w : Int) - 2 * r)) color sBuffer
  let sBuffer2 := drawFastHLine (x + r) (y + h - 1) (u8 ((w : Int) - 2 * r)) color sBuffer1
  let sBuffer3 := drawFastVLine safe x (y + r) (u8 ((h : Int) - 2 * r)) color sBuffer2
  let sBuffer4 := drawFastVLine safe (x + w - 1) (y + r) (u8 ((h : Int) - 2 * r)) color sBuffer3
  let sBuffer5 := drawCircleHelper safe (x + r) (y + r) r 1 color sBuffer4
  let sBuffer6 := drawCircleHelper safe (x + w - r - 1) (y + r) r 2 color sBuffer5
  let sBuffer7 := drawCircleHelper safe (x + w - r - 1) (y + h - r - 1) r 4 color sBuffer6
  drawCircleHelper safe (x + r) (y + h - r - 1) r 8 color sBuffer7

/-- The invariant of the midpoint recurrence for radius `r`: `f` and its
increments are the closed forms in `x` and `y`, the offsets stay in `[0, r]`,
and `x² + y² - r²` stays within `r` of zero (within `y` while the loop goes
on). -/
def MidpointInv (r : Int) (s : Midpoint) : Prop :=
  s.f = s.x ^ 2 + 2 * s.x + 1 + s.y ^ 2 - s.y - r ^ 2
  ∧ s.ddF_x = 2 * s.x + 1 ∧ s.ddF_y = -2 * s.y
  ∧ 0 ≤ s.x ∧ s.x ≤ r ∧ 0 ≤ s.y ∧ s.y ≤ r
  ∧ -r ≤ s.x ^ 2 + s.y ^ 2 - r ^ 2 ∧ s.x ^ 2 + s.y ^ 2 - r ^ 2 ≤ r
  ∧ (s.x < s.y → -s.y ≤ s.x ^ 2 + s.y ^ 2 - r ^ 2 ∧ s.x ^ 2 + s.y ^ 2 - r ^ 2 ≤ s.y)

/-! ## Pixel sequence of a line -/

/-- The pairs `(x0, y0)` that the loop of `drawLine` passes to `drawPixel`
(before the transposition of the steep case), in order; same arguments as
`drawLineLoop`. -/
def drawLineTrace (dx dy ystep : Int) : Nat → Int → Int → Int → List (Int × Int)
  | 0, _, _, _ => []
  | n + 1, x0, y0, err =>
      let err1 := err - dy
      (x0, y0) ::
        (if err1 < 0 then drawLineTrace dx dy ystep n (x0 + 1) (y0 + ystep) (err1 + dx)
         else drawLineTrace dx dy ystep n (x0 + 1) y0 err1)

/-- The arguments of the `drawPixel` calls of `drawLine`, in order. -/
def drawLinePoints (x0 y0 x1 y1 : Int) : List (Int × Int) :=
  let steep : Bool := decide ((y1 - y0).natAbs > (x1 - x0).natAbs)
  let a0 : Int := if steep then y0 else x0
  let b0 : Int := if steep then x0 else y0
  let a1 : Int := if steep then y1 else x1
  let b1 : Int := if steep then x1 else y1
  let xs : Int := if a0 > a1 then a1 else a0
  let xe : Int := if a0 > a1 then a0 else a1
  let ys : Int := if a0 > a1 then b1 else b0
  let ye : Int := if a0 > a1 then b0 else b1
  let dx : Int := xe - xs
  let dy : Int := (ye - ys).natAbs
  let err : Int := Int.tdiv dx 2
  let ystep : Int := if ys < ye then 1 else -1
  (drawLineTrace dx dy ystep (xe - xs + 1).toNat xs ys err).map
    fun p => if steep then (p.2, p.1) else p

/-- The pixels of the display that `getPixel` reports as set. -/
@[irreducible] def litPixels (sBuffer : Buffer) : Finset (Nat × Nat) :=
  (Finset.range WIDTH ×ˢ Finset.range HEIGHT).filter fun p => getPixel sBuffer p.1 p.2 = 1

/-! ## Vocabulary for the statements -/

/-- A buffer transformer that acts on every byte on its own, through a byte
function taken from the class `G`. -/
def Bytewise (G : (Nat → Nat) → Prop) (f : Buffer → Buffer) : Prop :=
  ∃ g : Nat → Nat → Nat, (∀ j, G (g j)) ∧ ∀ sBuffer j, f sBuffer j = g j (sBuffer j)

/-- The byte functions `b ↦ (b | m) mod 256`, and the identity. -/
def OrByte (g : Nat → Nat) : Prop :=
  (∀ b, g b = b) ∨ ∃ m, ∀ b, g b = (b ||| m) % 256

/-- The byte functions `b ↦ b & m`, and the identity. -/
def AndByte (g : Nat → Nat) : Prop :=
  (∀ b, g b = b) ∨ ∃ m, ∀ b, g b = b &&& m

/-- The row-group count `rows` that `drawBitmap` computes from `h`. -/
def bitmapRows (h : Nat) : Nat := if h % 8 ≠ 0 then h / 8 + 1 else h / 8

/-- The effect of one store of `blit` on one bit of the byte it stores to: the
old bit `o` and the bit `v` of the stored value, combined as `|=` does for
`WHITE`, `&= ~` for `BLACK` and `^=` for any other colour. -/
def blitBit (color : Nat) (o v : Bool) : Bool :=
  if color = WHITE then o || v else if color = BLACK then o && !v else xor o v

/-- The byte functions `b ↦ (b ^ m) mod 256`, and the identity. -/
def XorByte (g : Nat → Nat) : Prop :=
  (∀ b, g b = b) ∨ ∃ m, ∀ b, g b = (b ^^^ m) % 256

/-! ## Bit-level facts -/

theorem BV_eq (n : Nat) : _BV n = 2 ^ n := by
  unfold _BV
  exact Nat.one_shiftLeft n

theorem and_BV_shiftRight (b k : Nat) :
    (b &&& _BV k) >>> k = if b.testBit k then 1 else 0 := by
  rw [BV_eq, Nat.and_two_pow]
  cases h : b.testBit k
  · simp
  · simp [Nat.shiftRight_eq_div_pow]

theorem getPixel_eq (sBuffer : Buffer) (x y : Nat) :
    getPixel sBuffer x y
      = if (sBuffer (y / 8 * WIDTH + x)).testBit (y % 8) then 1 else 0 := by
  unfold getPixel
  exact and_BV_shiftRight _ _

theorem testBit_not8 (m k : Nat) :
    (not8 m).testBit k = (decide (k < 8) && !m.testBit k) := by
  unfold not8
  have h255 : (255 : Nat) = 2 ^ 8 - 1 := by norm_num
  have h256 : (256 : Nat) = 2 ^ 8 := by norm_num
  rw [Nat.testBit_xor, h255, Nat.testBit_two_pow_sub_one, h256, Nat.testBit_mod_two_pow]
  by_cases hk : k < 8 <;> simp [hk]

theorem testBit_mod256 (b k : Nat) :
    (b % 256).testBit k = (decide (k < 8) && b.testBit k) := by
  have h256 : (256 : Nat) = 2 ^ 8 := by norm_num
  rw [h256, Nat.testBit_mod_two_pow]

/-- The pixel index of an in-range coordinate pair determines the pair. -/
theorem pixel_index_inj {x y x' y' : Nat} (hx : x < 128) (hx' : x' < 128)
    (h : y / 8 * 128 + x = y' / 8 * 128 + x') (hbit : y % 8 = y' % 8) :
    x = x' ∧ y = y' := by
  omega

/-- Reading a pixel after `sBuffer[i] |= _BV(k)`. -/
theorem testBit_orAt_BV (sBuffer : Buffer) (i k j n : Nat) (hk : k < 8) (hn : n < 8) :
    (orAt sBuffer i (_BV k) j).testBit n
      = if j = i ∧ n = k then true else (sBuffer j).testBit n := by
  unfold orAt modify
  by_cases hj : j = i
  · subst hj
    simp only [if_true, true_and]
    rw [testBit_mod256, Nat.testBit_or, BV_eq, Nat.testBit_two_pow]
    by_cases hnk : n = k
    · subst hnk; simp [hn]
    · have : ¬ k = n := fun h => hnk h.symm
      simp [hn, hnk, this]
  · simp [hj]

/-- Reading a pixel after `sBuffer[i] &= ~_BV(k)`. -/
theorem testBit_andNotAt_BV (sBuffer : Buffer) (i k j n : Nat) (hk : k < 8) (hn : n < 8) :
    (andNotAt sBuffer i (_BV k) j).testBit n
      = if j = i ∧ n = k then false else (sBuffer j).testBit n := by
  unfold andNotAt modify
  by_cases hj : j = i
  · subst hj
    simp only [if_true, true_and]
    rw [Nat.testBit_and, testBit_not8, BV_eq, Nat.testBit_two_pow]
    by_cases hnk : n = k
    · subst hnk; simp [hn]
    · have : ¬ k = n := fun h => hnk h.symm
      simp [hn, hnk, this]
  · simp [hj]

/-- The value `drawPixel` leaves in every bit of every byte, for an in-range
target pixel. -/
theorem testBit_drawPixel (safe : Bool) (x y : Nat) (color : Nat) (sBuffer : Buffer)
    (hx : x < WIDTH) (hy : y < HEIGHT) (j n : Nat) (hn : n < 8) :
    (drawPixel safe x y color sBuffer j).testBit n
      = if j = y / 8 * WIDTH + x ∧ n = y % 8 then decide (color ≠ 0)
        else (sBuffer j).testBit n := by
  have hx' : x < 128 := hx
  have hy' : y < 64 := hy
  have hg : ¬ (safe = true ∧ ((x : Int) < 0 ∨ (x : Int) > (WIDTH : Int) - 1
      ∨ (y : Int) < 0 ∨ (y : Int) > (HEIGHT : Int) - 1)) := by
    simp only [WIDTH, HEIGHT]
    omega
  have hux : u8 (x : Int) = x := by unfold u8; omega
  have huy : u8 (y : Int) = y := by unfold u8; omega
  unfold drawPixel
  rw [if_neg hg]
  simp only [hux, huy]
  have hk : y % 8 < 8 := Nat.mod_lt _ (by norm_num)
  by_cases hc : color ≠ 0
  · rw [if_pos hc, testBit_orAt_BV _ _ _ _ _ hk hn]
    simp [hc]
  · rw [if_neg hc, testBit_andNotAt_BV _ _ _ _ _ hk hn]
    simp [hc]

/-- The value `getPixel` reads after `drawPixel`, for in-range pixels. -/
theorem getPixel_drawPixel (safe : Bool) (x y : Nat) (color : Nat) (sBuffer : Buffer)
    (hx : x < WIDTH) (hy : y < HEIGHT) (x' y' : Nat) (hx' : x' < WIDTH) :
    getPixel (drawPixel safe x y color sBuffer) x' y'
      = if x' = x ∧ y' = y then (if color ≠ 0 then 1 else 0)
        else getPixel sBuffer x' y' := by
  rw [getPixel_eq, getPixel_eq,
    testBit_drawPixel safe x y color sBuffer hx hy _ _ (Nat.mod_lt _ (by norm_num))]
  have h1 : x < 128 := hx
  have h2 : x' < 128 := hx'
  by_cases h : x' = x ∧ y' = y
  · obtain ⟨rfl, rfl⟩ := h
    by_cases hc : color ≠ 0 <;> simp [hc]
  · have : ¬ (y' / 8 * WIDTH + x' = y / 8 * WIDTH + x ∧ y' % 8 = y % 8) := by
      rintro ⟨ha, hb⟩
      exact h (pixel_index_inj h2 h1 ha hb)
    rw [if_neg this, if_neg h]

/-- `drawPixel` with an in-range target leaves every byte but the target's
untouched. -/
theorem drawPixel_other (safe : Bool) (x y : Nat) (color : Nat) (sBuffer : Buffer)
    (hx : x < WIDTH) (hy : y < HEIGHT) (j : Nat) (hj : j ≠ y / 8 * WIDTH + x) :
    drawPixel safe x y color sBuffer j = sBuffer j := by
  have hx' : x < 128 := hx
  have hy' : y < 64 := hy
  have hux : u8 (x : Int) = x := by unfold u8; omega
  have huy : u8 (y : Int) = y := by unfold u8; omega
  unfold drawPixel
  simp only [hux, huy]
  split
  · rfl
  · split <;> simp [orAt, andNotAt, modify, hj]

/-! ## Pixels: claim C1 -/

/-- C1: for every buffer and every in-range `(x, y)`, `getPixel(x, y)` is 1
after `drawPixel(x, y, c)` with `c` nonzero and 0 after `drawPixel(x, y, 0)`;
every other in-range pixel keeps its value; every byte other than byte
`(y div 8) * WIDTH + x` is unchanged and, in that byte, every bit other than
bit `y mod 8`. -/
theorem C1_drawPixel_getPixel (safe : Bool) (sBuffer : Buffer) (x y c : Nat)
    (hx : x < WIDTH) (hy : y < HEIGHT) :
    (c ≠ 0 → getPixel (drawPixel safe x y c sBuffer) x y = 1)
    ∧ getPixel (drawPixel safe x y 0 sBuffer) x y = 0
    ∧ (∀ x' y', x' < WIDTH → y' < HEIGHT → (x', y') ≠ (x, y) →
        getPixel (drawPixel safe x y c sBuffer) x' y' = getPixel sBuffer x' y')
    ∧ (∀ j, j ≠ y / 8 * WIDTH + x → drawPixel safe x y c sBuffer j = sBuffer j)
    ∧ (∀ n, n < 8 → n ≠ y % 8 →
        (drawPixel safe x y c sBuffer (y / 8 * WIDTH + x)).testBit n
          = (sBuffer (y / 8 * WIDTH + x)).testBit n) := by
  refine ⟨?_, ?_, ?_, ?_, ?_⟩
  · intro hc
    rw [getPixel_drawPixel safe x y c sBuffer hx hy x y hx]
    simp [hc]
  · rw [getPixel_drawPixel safe x y 0 sBuffer hx hy x y hx]
    simp
  · intro x' y' hx' _ hne
    rw [getPixel_drawPixel safe x y c sBuffer hx hy x' y' hx']
    have : ¬ (x' = x ∧ y' = y) := by
      rintro ⟨rfl, rfl⟩
      exact hne rfl
    rw [if_neg this]
  · intro j hj
    exact drawPixel_other safe x y c sBuffer hx hy j hj
  · intro n hn hne
    have : ¬ (y / 8 * WIDTH + x = y / 8 * WIDTH + x ∧ n = y % 8) := fun h => hne h.2
    rw [testBit_drawPixel safe x y c sBuffer hx hy _ n hn, if_neg this]

/-- Witness for C1 at pixel `(5, 10)` of the all-zero buffer. -/
theorem C1_drawPixel_getPixel_witness :
    (5 < WIDTH ∧ 10 < HEIGHT)
    ∧ ((1 ≠ 0 → getPixel (drawPixel false 5 10 1 (fun _ => 0)) 5 10 = 1)
    ∧ getPixel (drawPixel false 5 10 0 (fun _ => 0)) 5 10 = 0
    ∧ (∀ x' y', x' < WIDTH → y' < HEIGHT → (x', y') ≠ (5, 10) →
        getPixel (drawPixel false 5 10 1 (fun _ => 0)) x' y' = getPixel (fun _ => 0) x' y')
    ∧ (∀ j, j ≠ 10 / 8 * WIDTH + 5 →
        drawPixel false 5 10 1 (fun _ => 0) j = (fun _ => 0 : Buffer) j)
    ∧ (∀ n, n < 8 → n ≠ 10 % 8 →
        (drawPixel false 5 10 1 (fun _ => 0) (10 / 8 * WIDTH + 5)).testBit n
          = ((fun _ => 0 : Buffer) (10 / 8 * WIDTH + 5)).testBit n)) :=
  ⟨⟨by decide, by decide⟩, C1_drawPixel_getPixel false (fun _ => 0) 5 10 1 (by decide) (by decide)⟩

/-! ## Frame scheduler -/

theorem nextFrame_frameCount (W : Widths) (now : Int) (s : Frame) :
    (nextFrame W now s).2.frameCount
      = if s.post_render then (s.frameCount + 1) % 2 ^ W.frameCount else s.frameCount := by
  unfold nextFrame
  cases hp : s.post_render <;> by_cases hlt : now < s.nextFrameStart <;> simp [hlt]

theorem nextFrame_post_render (W : Widths) (now : Int) (s : Frame) :
    (nextFrame W now s).2.post_render = (nextFrame W now s).1 := by
  unfold nextFrame
  cases hp : s.post_render <;> by_cases hlt : now < s.nextFrameStart <;> simp [hlt, hp]

theorem nextFrame_frameCount_lt (W : Widths) (now : Int) (s : Frame)
    (h : s.frameCount < 2 ^ W.frameCount) :
    (nextFrame W now s).2.frameCount < 2 ^ W.frameCount := by
  rw [nextFrame_frameCount]
  split
  · exact Nat.mod_lt _ (Nat.pos_of_ne_zero (by positivity))
  · exact h

theorem count_true_cons (b : Bool) (l : List Bool) :
    (b :: l).count true = owed b + l.count true := by
  cases b <;> simp [owed, List.count_cons, Nat.add_comm]

theorem pollAll_ne_nil (W : Widths) (clocks : List Int) (s : Frame) (h : clocks ≠ []) :
    (pollAll W clocks s).1 ≠ [] := by
  cases clocks with
  | nil => exact absurd rfl h
  | cons now rest => simp [pollAll]

/-- After a non-empty run of polls the counter has advanced by one for the
frame pending at the start and by one for every permitted poll but the last. -/
theorem pollAll_frameCount (W : Widths) (clocks : List Int) :
    ∀ s : Frame, s.frameCount < 2 ^ W.frameCount → clocks ≠ [] →
      (pollAll W clocks s).2.frameCount
        = (s.frameCount + owed s.post_render
            + (pollAll W clocks s).1.dropLast.count true) % 2 ^ W.frameCount := by
  induction clocks with
  | nil => intro s _ h; exact absurd rfl h
  | cons now rest ih =>
    intro s hs _
    have hfc := nextFrame_frameCount W now s
    have hlt := nextFrame_frameCount_lt W now s hs
    have hstep : (nextFrame W now s).2.frameCount
        = (s.frameCount + owed s.post_render) % 2 ^ W.frameCount := by
      rw [hfc]
      cases hp : s.post_render
      · simp [owed, Nat.mod_eq_of_lt hs]
      · simp [owed]
    by_cases hrest : rest = []
    · subst hrest
      simp only [pollAll, List.dropLast_single, List.count_nil, Nat.add_zero]
      exact hstep
    · have ih' := ih (nextFrame W now s).2 hlt hrest
      have hne := pollAll_ne_nil W rest (nextFrame W now s).2 hrest
      simp only [pollAll]
      rw [ih', List.dropLast_cons_of_ne_nil hne, count_true_cons, hstep,
        nextFrame_post_render]
      rw [Nat.add_assoc, Nat.mod_add_mod, Nat.add_assoc]

/-- C5: whenever the clock has reached `nextFrameStart`, `nextFrame` permits
a frame and leaves `nextFrameStart = max (lastFrameStart + eachFrameMillis) now`,
`lastFrameStart = now` and `post_render` set; so `nextFrameStart ≥ now`
afterwards, and `nextFrameStart = now` when the previous frame used up its
whole interval. -/
theorem C5_nextFrame_clamp (W : Widths) (s : Frame) (now : Int)
    (hdue : s.nextFrameStart ≤ now) :
    (nextFrame W now s).1 = true
    ∧ (nextFrame W now s).2.nextFrameStart = max (s.lastFrameStart + s.eachFrameMillis) now
    ∧ (nextFrame W now s).2.lastFrameStart = now
    ∧ (nextFrame W now s).2.post_render = true
    ∧ now ≤ (nextFrame W now s).2.nextFrameStart
    ∧ (s.lastFrameStart + s.eachFrameMillis ≤ now →
        (nextFrame W now s).2.nextFrameStart = now) := by
  have hnot : ¬ now < s.nextFrameStart := by omega
  have hrun : nextFrame W now s
      = (true, { (if s.post_render then
          { s with
            lastFrameDurationMs :=
              ((now - s.lastFrameStart) % 2 ^ W.lastFrameDurationMs).toNat,
            frameCount := (s.frameCount + 1) % 2 ^ W.frameCount,
            post_render := false }
          else s) with
          nextFrameStart :=
            if s.lastFrameStart + s.eachFrameMillis < now then now
            else s.lastFrameStart + s.eachFrameMillis,
          lastFrameStart := now, post_render := true }) := by
    unfold nextFrame
    cases hp : s.post_render <;> simp [hnot]
  rw [hrun]
  refine ⟨rfl, ?_, rfl, rfl, ?_, ?_⟩
  · show (if s.lastFrameStart + s.eachFrameMillis < now then now
        else s.lastFrameStart + s.eachFrameMillis) = _
    split <;> omega
  · show now ≤ (if s.lastFrameStart + s.eachFrameMillis < now then now
        else s.lastFrameStart + s.eachFrameMillis)
    split <;> omega
  · intro hover
    show (if s.lastFrameStart + s.eachFrameMillis < now then now
        else s.lastFrameStart + s.eachFrameMillis) = _
    split <;> omega

/-- Witness for C5: at 60 Hz with the previous frame started at 0 and the
poll at 50, `nextFrameStart` becomes 50, not 16. -/
theorem C5_nextFrame_clamp_witness :
    (nextFrame ⟨16, 8, 8⟩ 50
      { frameRate := 60, frameCount := 0, eachFrameMillis := 16, lastFrameStart := 0,
        nextFrameStart := 16, post_render := true, lastFrameDurationMs := 0 }).2.nextFrameStart
      = 50 := by
  have h := C5_nextFrame_clamp ⟨16, 8, 8⟩
    { frameRate := 60, frameCount := 0, eachFrameMillis := 16, lastFrameStart := 0,
      nextFrameStart := 16, post_render := true, lastFrameDurationMs := 0 } 50 (by decide)
  exact h.2.2.2.2.2 (by decide)

/-- C6, evaluated: from the constructed state (60 Hz, `lastFrameStart`
initially 0) with polls at clock readings 0, 50 and 51, all three polls are
permitted, so the frames started at 50 and at 51 are 1 ms apart although
`eachFrameMillis` is 16. -/
theorem C6_consecutive_frames_one_ms_apart :
    (construct ⟨16, 8, 8⟩ 0 0).eachFrameMillis = 16
    ∧ (pollAll ⟨16, 8, 8⟩ [0, 50, 51] (construct ⟨16, 8, 8⟩ 0 0)).1 = [true, true, true]
    ∧ permittedStarts ⟨16, 8, 8⟩ [0, 50, 51] (construct ⟨16, 8, 8⟩ 0 0) = [0, 50, 51]
    ∧ permittedStarts ⟨16, 8, 8⟩ [0, 16, 17] (construct ⟨16, 8, 8⟩ 0 0) = [0, 16, 17] := by
  decide

/-- C7: every poll adds one to `frameCount` (modulo the counter width) when
the poll before it returned permitted and leaves it alone otherwise, and a
poll leaves `post_render` equal to its return value; so after any sequence of
polls from the constructed state `frameCount` is the number of permitted polls
that were followed by a later poll, modulo the counter width. -/
theorem C7_frameCount_counts_permitted (W : Widths) (lastFrameStart0 : Int)
    (lastFrameDurationMs0 : Nat) :
    (∀ (now : Int) (s : Frame),
        (nextFrame W now s).2.frameCount
          = (if s.post_render then (s.frameCount + 1) % 2 ^ W.frameCount else s.frameCount)
        ∧ (nextFrame W now s).2.post_render = (nextFrame W now s).1)
    ∧ (construct W lastFrameStart0 lastFrameDurationMs0).frameCount = 0
    ∧ (construct W lastFrameStart0 lastFrameDurationMs0).post_render = false
    ∧ ∀ clocks : List Int,
        (pollAll W clocks (construct W lastFrameStart0 lastFrameDurationMs0)).2.frameCount
          = ((pollAll W clocks (construct W lastFrameStart0 lastFrameDurationMs0)).1.dropLast.count
              true) % 2 ^ W.frameCount := by
  refine ⟨fun now s => ⟨nextFrame_frameCount W now s, nextFrame_post_render W now s⟩,
    rfl, rfl, ?_⟩
  intro clocks
  by_cases hc : clocks = []
  · subst hc
    simp [pollAll, construct, setFrameRate]
  · have hpos : 0 < 2 ^ W.frameCount := Nat.pos_of_ne_zero (by positivity)
    have h := pollAll_frameCount W clocks (construct W lastFrameStart0 lastFrameDurationMs0)
      (by simp [construct, setFrameRate]) hc
    rw [h]
    simp [construct, setFrameRate, owed]

/-! ## Screen fill -/

theorem fillScreen_zero_apply (sBuffer : Buffer) (j : Nat) (hj : j < WIDTH * HEIGHT / 8) :
    fillScreen 0 sBuffer j = 0 := by
  simp [fillScreen, memset, hj]

theorem fillScreen_nonzero_apply (sBuffer : Buffer) (c j : Nat) (hc : c ≠ 0)
    (hj : j < WIDTH * HEIGHT / 8) : fillScreen c sBuffer j = 255 := by
  simp [fillScreen, memset, hj, hc]

theorem pixel_index_lt (x y : Nat) (hx : x < WIDTH) (hy : y < HEIGHT) :
    y / 8 * WIDTH + x < WIDTH * HEIGHT / 8 := by
  have hx' : x < 128 := hx
  have hy' : y < 64 := hy
  simp only [WIDTH, HEIGHT]
  omega

/-- Every in-range pixel of a cleared buffer reads 0. -/
theorem getPixel_clear (sBuffer : Buffer) (x y : Nat) (hx : x < WIDTH) (hy : y < HEIGHT) :
    getPixel (clear sBuffer) x y = 0 := by
  unfold clear BLACK
  rw [getPixel_eq, fillScreen_zero_apply _ _ (pixel_index_lt x y hx hy)]
  simp

/-- C10: after `fillScreen(0)` and after `clear()` every one of the
`WIDTH * HEIGHT / 8` buffer bytes is `0x00` and `getPixel` reads 0 at every
in-range pixel; after `fillScreen(c)` with `c` nonzero every byte is `0xFF`
and `getPixel` reads 1. -/
theorem C10_fillScreen (sBuffer : Buffer) (c x y i : Nat) (hc : c ≠ 0)
    (hx : x < WIDTH) (hy : y < HEIGHT) (hi : i < WIDTH * HEIGHT / 8) :
    fillScreen 0 sBuffer i = 0x00
    ∧ clear sBuffer i = 0x00
    ∧ getPixel (fillScreen 0 sBuffer) x y = 0
    ∧ getPixel (clear sBuffer) x y = 0
    ∧ fillScreen c sBuffer i = 0xFF
    ∧ getPixel (fillScreen c sBuffer) x y = 1 := by
  have hy' : y < 64 := hy
  have hidx := pixel_index_lt x y hx hy
  have h0 := fillScreen_zero_apply sBuffer
  have h1 := fun j => fillScreen_nonzero_apply sBuffer c j hc
  have hbit : Nat.testBit 255 (y % 8) = true := by
    have h255 : (255 : Nat) = 2 ^ 8 - 1 := by norm_num
    rw [h255, Nat.testBit_two_pow_sub_one]
    simp
    omega
  refine ⟨h0 i hi, h0 i hi, ?_, ?_, h1 i hi, ?_⟩
  · rw [getPixel_eq, h0 _ hidx]; simp
  · exact getPixel_clear sBuffer x y hx hy
  · rw [getPixel_eq, h1 _ hidx, hbit]; simp

/-- Witness for C10 at byte 1023 and pixel `(127, 63)` of a buffer holding
`0x5A` everywhere. -/
theorem C10_fillScreen_witness :
    fillScreen 0 (fun _ => 0x5A) 1023 = 0x00
    ∧ clear (fun _ => 0x5A) 1023 = 0x00
    ∧ getPixel (fillScreen 0 (fun _ => 0x5A)) 127 63 = 0
    ∧ getPixel (clear (fun _ => 0x5A)) 127 63 = 0
    ∧ fillScreen 7 (fun _ => 0x5A) 1023 = 0xFF
    ∧ getPixel (fillScreen 7 (fun _ => 0x5A)) 127 63 = 1 :=
  C10_fillScreen (fun _ => 0x5A) 7 127 63 1023 (by decide) (by decide) (by decide) (by decide)

/-! ## Horizontal fast line -/

/-- The bytes left by the loop `while (w--) { *pBuf++ |= mask; }`. -/
theorem hlineOr_apply (mask : Nat) (w : Nat) :
    ∀ (pBuf : Nat) (sBuffer : Buffer) (j : Nat),
      hlineOr mask w pBuf sBuffer j
        = if pBuf ≤ j ∧ j < pBuf + w then (sBuffer j ||| mask) % 256 else sBuffer j := by
  induction w with
  | zero =>
    intro pBuf sBuffer j
    have : ¬ (pBuf ≤ j ∧ j < pBuf + 0) := by omega
    rw [if_neg this]
    rfl
  | succ w ih =>
    intro pBuf sBuffer j
    rw [hlineOr, ih]
    unfold orAt modify
    by_cases hj : j = pBuf
    · subst hj
      simp
    · by_cases hr : pBuf + 1 ≤ j ∧ j < pBuf + 1 + w
      · have : pBuf ≤ j ∧ j < pBuf + (w + 1) := by omega
        simp [hr, this, hj]
      · have : ¬ (pBuf ≤ j ∧ j < pBuf + (w + 1)) := by omega
        simp [hr, this, hj]

/-- C8, evaluated: on a cleared buffer `drawFastHLine(-5, 0, 3, WHITE)`, a
run lying entirely left of column 0, sets the pixels `(0, 0)` and `(127, 0)`
(in fact the whole of row 0); `drawFastHLine(129, 0, 5, WHITE)`, a run
lying entirely right of column `WIDTH - 1`, sets pixel `(1, 8)`. -/
theorem C8_drawFastHLine_offscreen_run_draws :
    getPixel (clear (fun _ => 0)) 0 0 = 0
    ∧ getPixel (drawFastHLine (-5) 0 3 WHITE (clear (fun _ => 0))) 0 0 = 1
    ∧ getPixel (drawFastHLine (-5) 0 3 WHITE (clear (fun _ => 0))) 127 0 = 1
    ∧ getPixel (drawFastHLine 129 0 5 WHITE (clear (fun _ => 0))) 1 8 = 1 := by
  have ha : drawFastHLine (-5) 0 3 WHITE (clear (fun _ => 0))
      = hlineOr 1 128 0 (clear (fun _ => 0)) := by
    simp [drawFastHLine, u8, WIDTH, HEIGHT, WHITE]
  have hb : drawFastHLine 129 0 5 WHITE (clear (fun _ => 0))
      = hlineOr 1 255 129 (clear (fun _ => 0)) := by
    simp [drawFastHLine, u8, WIDTH, HEIGHT, WHITE]
  rw [ha, hb]
  simp only [getPixel, hlineOr_apply]
  decide

/-! ## Vertical fast line and filled rectangle -/

/-- The pixels left by the loop of `drawFastVLine` when the run stays inside
the display. -/
theorem getPixel_drawFastVLineLoop (safe : Bool) (x : Nat) (color : Nat) (hx : x < WIDTH)
    (i j : Nat) (hi : i < WIDTH) (n : Nat) :
    ∀ (a : Nat) (sBuffer : Buffer), a + n ≤ HEIGHT →
      getPixel (drawFastVLineLoop safe x color n a sBuffer) i j
        = if i = x ∧ a ≤ j ∧ j < a + n then (if color ≠ 0 then 1 else 0)
          else getPixel sBuffer i j := by
  induction n with
  | zero =>
    intro a sBuffer _
    have : ¬ (i = x ∧ a ≤ j ∧ j < a + 0) := by omega
    rw [if_neg this]
    rfl
  | succ n ih =>
    intro a sBuffer ha
    have hcast : (a : Int) + 1 = ((a + 1 : Nat) : Int) := by push_cast; rfl
    have ha' : a < HEIGHT := by omega
    rw [drawFastVLineLoop, hcast, ih (a + 1) _ (by omega),
      getPixel_drawPixel safe x a color sBuffer hx ha' i j hi]
    split_ifs <;> first | rfl | omega

/-- The pixels left by `drawFastVLine` when the run stays inside the
display. -/
theorem getPixel_drawFastVLine (safe : Bool) (x y h : Nat) (color : Nat) (sBuffer : Buffer)
    (hx : x < WIDTH) (hy : y + h ≤ HEIGHT) (i j : Nat) (hi : i < WIDTH) :
    getPixel (drawFastVLine safe x y h color sBuffer) i j
      = if i = x ∧ y ≤ j ∧ j < y + h then (if color ≠ 0 then 1 else 0)
        else getPixel sBuffer i j := by
  have hH : HEIGHT = 64 := rfl
  have hs : max 0 (y : Int) = (y : Int) := by omega
  have hn : (min ((y : Int) + (h : Int)) (HEIGHT : Int) - (y : Int)).toNat = h := by
    rw [hH] at hy ⊢
    omega
  unfold drawFastVLine
  simp only [hs, hn]
  exact getPixel_drawFastVLineLoop safe x color hx i j hi h y sBuffer hy

/-- The pixels left by the column loop of `fillRect` when the box stays
inside the display. -/
theorem getPixel_fillRectLoop (safe : Bool) (y h : Nat) (color : Nat) (hy : y + h ≤ HEIGHT)
    (i j : Nat) (hi : i < WIDTH) (n : Nat) :
    ∀ (x : Nat) (sBuffer : Buffer), x + n ≤ WIDTH →
      getPixel (fillRectLoop safe y h color n x sBuffer) i j
        = if x ≤ i ∧ i < x + n ∧ y ≤ j ∧ j < y + h then (if color ≠ 0 then 1 else 0)
          else getPixel sBuffer i j := by
  induction n with
  | zero =>
    intro x sBuffer _
    have : ¬ (x ≤ i ∧ i < x + 0 ∧ y ≤ j ∧ j < y + h) := by omega
    rw [if_neg this]
    rfl
  | succ n ih =>
    intro x sBuffer hxn
    have hcast : (x : Int) + 1 = ((x + 1 : Nat) : Int) := by push_cast; rfl
    have hx : x < WIDTH := by omega
    rw [fillRectLoop, hcast, ih (x + 1) _ (by omega),
      getPixel_drawFastVLine safe x y h color sBuffer hx hy i j hi]
    split_ifs <;> first | rfl | omega

/-- The pixels left by `fillRect` when the box stays inside the display. -/
theorem getPixel_fillRect (safe : Bool) (x y w h : Nat) (color : Nat) (sBuffer : Buffer)
    (hx : x + w ≤ WIDTH) (hy : y + h ≤ HEIGHT) (i j : Nat) (hi : i < WIDTH) :
    getPixel (fillRect safe x y w h color sBuffer) i j
      = if x ≤ i ∧ i < x + w ∧ y ≤ j ∧ j < y + h then (if color ≠ 0 then 1 else 0)
        else getPixel sBuffer i j := by
  unfold fillRect
  exact getPixel_fillRectLoop safe y h color hy i j hi w x sBuffer hx

/-- C3: for every buffer, every colour `c` in `{BLACK, WHITE}` and every box
`[x, x+w) × [y, y+h)` inside the display, after `fillRect(x, y, w, h, c)` every
pixel of the box has value `c` and every in-range pixel outside it is
unchanged; on a cleared buffer `fillRect(2, 2, 4, 3, WHITE)` sets exactly the
12 pixels of `[2,6) × [2,5)`. -/
theorem C3_fillRect (safe : Bool) (sBuffer : Buffer) (c : Nat) (x y : Int) (w h : Nat)
    (hc : c = BLACK ∨ c = WHITE)
    (hx0 : 0 ≤ x) (hxw : x + w ≤ WIDTH) (hy0 : 0 ≤ y) (hyh : y + h ≤ HEIGHT)
    (i j : Nat) (hi : i < WIDTH) (hj : j < HEIGHT) :
    getPixel (fillRect safe x y w h c sBuffer) i j
        = (if x ≤ i ∧ i < x + w ∧ y ≤ j ∧ j < y + h then c else getPixel sBuffer i j)
    ∧ getPixel (fillRect safe 2 2 4 3 WHITE (clear sBuffer)) i j
        = (if 2 ≤ i ∧ i < 6 ∧ 2 ≤ j ∧ j < 5 then 1 else 0) := by
  obtain ⟨x, rfl⟩ := Int.eq_ofNat_of_zero_le hx0
  obtain ⟨y, rfl⟩ := Int.eq_ofNat_of_zero_le hy0
  have hxw' : x + w ≤ WIDTH := by exact_mod_cast hxw
  have hyh' : y + h ≤ HEIGHT := by exact_mod_cast hyh
  have hval : (if c ≠ 0 then 1 else 0) = c := by
    rcases hc with rfl | rfl <;> simp [BLACK, WHITE]
  constructor
  · rw [getPixel_fillRect safe x y w h c sBuffer hxw' hyh' i j hi, hval]
    by_cases hbox : x ≤ i ∧ i < x + w ∧ y ≤ j ∧ j < y + h
    · have : (x : Int) ≤ i ∧ (i : Int) < x + w ∧ (y : Int) ≤ j ∧ (j : Int) < y + h := by omega
      rw [if_pos hbox, if_pos this]
    · have : ¬ ((x : Int) ≤ i ∧ (i : Int) < x + w ∧ (y : Int) ≤ j ∧ (j : Int) < y + h) := by
        omega
      rw [if_neg hbox, if_neg this]
  · have h2 := getPixel_fillRect safe 2 2 4 3 WHITE (clear sBuffer) (by decide) (by decide)
      i j hi
    have hclr : getPixel (clear sBuffer) i j = 0 := getPixel_clear sBuffer i j hi hj
    rw [hclr] at h2
    simpa [WHITE] using h2

/-- Witness for C3: the corner pixel `(5, 4)` of `fillRect(2, 2, 4, 3, WHITE)`
on a cleared buffer. -/
theorem C3_fillRect_witness :
    getPixel (fillRect false 2 2 4 3 WHITE (clear (fun _ => 0))) 5 4
        = (if (2 : Int) ≤ (5 : Nat) ∧ ((5 : Nat) : Int) < 2 + (4 : Nat)
              ∧ (2 : Int) ≤ (4 : Nat) ∧ ((4 : Nat) : Int) < 2 + (3 : Nat) then WHITE
           else getPixel (clear (fun _ => 0)) 5 4)
    ∧ getPixel (fillRect false 2 2 4 3 WHITE (clear (clear (fun _ => 0)))) 5 4
        = (if 2 ≤ 5 ∧ 5 < 6 ∧ 2 ≤ 4 ∧ 4 < 5 then 1 else 0) :=
  C3_fillRect false (clear (fun _ => 0)) WHITE 2 2 4 3 (Or.inr rfl) (by decide) (by decide)
    (by decide) (by decide) 5 4 (by decide) (by decide)

/-! ## Horizontal lines drawn by `drawLine` -/

/-- The pixels left by the loop of `drawLine` in the shallow, flat case
(`steep` false, `dy = 0`, accumulator not negative): the row never changes. -/
theorem getPixel_drawLineLoop_flat (safe : Bool) (dx dy ystep : Int) (color : Nat) (y : Nat)
    (hdy : dy = 0) (hy : y < HEIGHT) (err : Int) (herr : 0 ≤ err) (i j : Nat) (hi : i < WIDTH)
    (n : Nat) :
    ∀ (x0 : Nat) (sBuffer : Buffer), x0 + n ≤ WIDTH →
      getPixel (drawLineLoop safe false dx dy ystep color n x0 y err sBuffer) i j
        = if x0 ≤ i ∧ i < x0 + n ∧ j = y then (if color ≠ 0 then 1 else 0)
          else getPixel sBuffer i j := by
  subst hdy
  induction n with
  | zero =>
    intro x0 sBuffer _
    have : ¬ (x0 ≤ i ∧ i < x0 + 0 ∧ j = y) := by omega
    rw [if_neg this]
    rfl
  | succ n ih =>
    intro x0 sBuffer hxn
    have hcast : (x0 : Int) + 1 = ((x0 + 1 : Nat) : Int) := by push_cast; rfl
    have hx0 : x0 < WIDTH := by omega
    have hnot : ¬ err - 0 < 0 := by omega
    rw [drawLineLoop]
    simp only [Bool.false_eq_true, if_false, if_neg hnot]
    rw [hcast, sub_zero, ih (x0 + 1) _ (by omega),
      getPixel_drawPixel safe x0 y color sBuffer hx0 hy i j hi]
    split_ifs <;> first | rfl | omega

/-- The pixels left by `drawLine` between two points of one row. -/
theorem getPixel_drawLine_row (safe : Bool) (x0 x1 y : Nat) (color : Nat) (sBuffer : Buffer)
    (hx0 : x0 < WIDTH) (hx1 : x1 < WIDTH) (hy : y < HEIGHT) (i j : Nat) (hi : i < WIDTH) :
    getPixel (drawLine safe x0 y x1 y color sBuffer) i j
      = if min x0 x1 ≤ i ∧ i ≤ max x0 x1 ∧ j = y then (if color ≠ 0 then 1 else 0)
        else getPixel sBuffer i j := by
  have hs : decide ((((y : Int) - y).natAbs) > ((x1 : Int) - x0).natAbs) = false := by simp
  have hdy : ((((y : Int) - y).natAbs : Nat) : Int) = 0 := by simp
  unfold drawLine
  simp only [hs, Bool.false_eq_true, if_false]
  by_cases hgt : (x0 : Int) > x1
  · simp only [if_pos hgt]
    have hfuel : ((x0 : Int) - x1 + 1).toNat = x0 - x1 + 1 := by omega
    have herr : 0 ≤ Int.tdiv ((x0 : Int) - x1) 2 := Int.tdiv_nonneg (by omega) (by norm_num)
    rw [hfuel, getPixel_drawLineLoop_flat safe _ _ _ color y hdy hy _ herr i j hi
      (x0 - x1 + 1) x1 sBuffer (by omega)]
    split_ifs <;> first | rfl | omega
  · simp only [if_neg hgt]
    have hfuel : ((x1 : Int) - x0 + 1).toNat = x1 - x0 + 1 := by omega
    have herr : 0 ≤ Int.tdiv ((x1 : Int) - x0) 2 := Int.tdiv_nonneg (by omega) (by norm_num)
    rw [hfuel, getPixel_drawLineLoop_flat safe _ _ _ color y hdy hy _ herr i j hi
      (x1 - x0 + 1) x0 sBuffer (by omega)]
    split_ifs <;> first | rfl | omega

/-- C4: for every row `y` and all columns `x0`, `x1` of the display,
`drawLine(x0, y, x1, y, WHITE)` on a cleared buffer sets exactly the pixels
`(i, y)` with `min x0 x1 ≤ i ≤ max x0 x1`; the line from `(0,0)` to `(10,0)` sets
exactly `(0,0) … (10,0)`. -/
theorem C4_drawLine_horizontal (safe : Bool) (sBuffer : Buffer) (x0 x1 y : Int)
    (hx0 : 0 ≤ x0 ∧ x0 < WIDTH) (hx1 : 0 ≤ x1 ∧ x1 < WIDTH) (hy : 0 ≤ y ∧ y < HEIGHT)
    (i j : Nat) (hi : i < WIDTH) (hj : j < HEIGHT) :
    getPixel (drawLine safe x0 y x1 y WHITE (clear sBuffer)) i j
        = (if min x0 x1 ≤ i ∧ i ≤ max x0 x1 ∧ j = y then 1 else 0)
    ∧ getPixel (drawLine safe 0 0 10 0 WHITE (clear sBuffer)) i j
        = (if i ≤ 10 ∧ j = 0 then 1 else 0) := by
  obtain ⟨x0, rfl⟩ := Int.eq_ofNat_of_zero_le hx0.1
  obtain ⟨x1, rfl⟩ := Int.eq_ofNat_of_zero_le hx1.1
  obtain ⟨y, rfl⟩ := Int.eq_ofNat_of_zero_le hy.1
  have hclr : getPixel (clear sBuffer) i j = 0 := getPixel_clear sBuffer i j hi hj
  constructor
  · rw [getPixel_drawLine_row safe x0 x1 y WHITE (clear sBuffer) (by exact_mod_cast hx0.2)
      (by exact_mod_cast hx1.2) (by exact_mod_cast hy.2) i j hi, hclr]
    simp only [WHITE]
    split_ifs <;> first | rfl | omega
  · have h := getPixel_drawLine_row safe 0 10 0 WHITE (clear sBuffer) (by decide) (by decide)
      (by decide) i j hi
    rw [hclr] at h
    rw [show ((0 : Nat) : Int) = 0 from rfl, show ((10 : Nat) : Int) = 10 from rfl] at h
    rw [h]
    simp only [WHITE]
    split_ifs <;> first | rfl | omega

/-- Witness for C4: the line from `(12, 7)` to `(3, 7)` at pixel `(3, 7)`. -/
theorem C4_drawLine_horizontal_witness :
    getPixel (drawLine false 12 7 3 7 WHITE (clear (fun _ => 0xFF))) 3 7
        = (if min (12 : Int) 3 ≤ (3 : Nat) ∧ ((3 : Nat) : Int) ≤ max (12 : Int) 3
              ∧ ((7 : Nat) : Int) = 7 then 1 else 0)
    ∧ getPixel (drawLine false 0 0 10 0 WHITE (clear (fun _ => 0xFF))) 3 7
        = (if 3 ≤ 10 ∧ 7 = 0 then 1 else 0) :=
  C4_drawLine_horizontal false (fun _ => 0xFF) 12 3 7 (by decide) (by decide) (by decide)
    3 7 (by decide) (by decide)

/-! ## Bitmaps: bytewise structure and idempotence -/

theorem bytewise_same {G : (Nat → Nat) → Prop} (hid : G fun b => b) :
    Bytewise G fun sBuffer => sBuffer :=
  ⟨fun _ b => b, fun _ => hid, fun _ _ => rfl⟩

theorem bytewise_comp {G : (Nat → Nat) → Prop}
    (hcomp : ∀ g g', G g → G g' → G fun b => g' (g b))
    {f f' : Buffer → Buffer} (hf : Bytewise G f) (hf' : Bytewise G f') :
    Bytewise G fun sBuffer => f' (f sBuffer) := by
  obtain ⟨g, hg, hfg⟩ := hf
  obtain ⟨g', hg', hfg'⟩ := hf'
  refine ⟨fun j b => g' j (g j b), fun j => hcomp _ _ (hg j) (hg' j), ?_⟩
  intro sBuffer j
  show f' (f sBuffer) j = g' j (g j (sBuffer j))
  rw [hfg', hfg]

theorem bytewise_ite {G : (Nat → Nat) → Prop} (c : Prop) [Decidable c]
    {f f' : Buffer → Buffer} (hf : Bytewise G f) (hf' : Bytewise G f') :
    Bytewise G fun sBuffer => if c then f sBuffer else f' sBuffer := by
  by_cases hc : c
  · simpa [hc] using hf
  · simpa [hc] using hf'

/-- A read-modify-write of one byte is bytewise. -/
theorem bytewise_modify {G : (Nat → Nat) → Prop} (hid : G fun b => b)
    (g0 : Nat → Nat) (h0 : G g0) (i : Nat) :
    Bytewise G fun sBuffer => modify sBuffer i g0 := by
  refine ⟨fun j b => if j = i then g0 b else b, ?_, ?_⟩
  · intro j
    by_cases hj : j = i
    · simpa [hj] using h0
    · simpa [hj] using hid
  · intro sBuffer j
    by_cases hj : j = i
    · subst hj; simp [ArduboyVeritazz.modify]
    · simp [ArduboyVeritazz.modify, hj]

/-- A bytewise transformer whose byte functions are idempotent is idempotent. -/
theorem bytewise_idem {G : (Nat → Nat) → Prop} (hidem : ∀ g, G g → ∀ b, g (g b) = g b)
    {f : Buffer → Buffer} (hf : Bytewise G f) (sBuffer : Buffer) :
    f (f sBuffer) = f sBuffer := by
  obtain ⟨g, hg, hfg⟩ := hf
  funext j
  rw [hfg (f sBuffer) j, hfg sBuffer j, hidem _ (hg j)]

theorem or_mod256_or (b m m' : Nat) :
    ((b ||| m) % 256 ||| m') % 256 = (b ||| (m ||| m')) % 256 := by
  apply Nat.eq_of_testBit_eq
  intro k
  simp only [testBit_mod256, Nat.testBit_or]
  by_cases hk : k < 8 <;> simp [hk, Bool.or_assoc]

theorem orByte_same : OrByte fun b => b := Or.inl fun _ => rfl

theorem orByte_comp (g g' : Nat → Nat) (hg : OrByte g) (hg' : OrByte g') :
    OrByte fun b => g' (g b) := by
  rcases hg with hg | ⟨m, hg⟩ <;> rcases hg' with hg' | ⟨m', hg'⟩
  · exact Or.inl fun b => by show g' (g b) = _; rw [hg', hg]
  · exact Or.inr ⟨m', fun b => by show g' (g b) = _; rw [hg', hg]⟩
  · exact Or.inr ⟨m, fun b => by show g' (g b) = _; rw [hg', hg]⟩
  · exact Or.inr ⟨m ||| m', fun b => by show g' (g b) = _; rw [hg', hg, or_mod256_or]⟩

theorem orByte_idem (g : Nat → Nat) (hg : OrByte g) (b : Nat) : g (g b) = g b := by
  rcases hg with hg | ⟨m, hg⟩
  · rw [hg, hg]
  · rw [hg, hg, or_mod256_or, Nat.or_self]

theorem andByte_same : AndByte fun b => b := Or.inl fun _ => rfl

theorem andByte_comp (g g' : Nat → Nat) (hg : AndByte g) (hg' : AndByte g') :
    AndByte fun b => g' (g b) := by
  rcases hg with hg | ⟨m, hg⟩ <;> rcases hg' with hg' | ⟨m', hg'⟩
  · exact Or.inl fun b => by show g' (g b) = _; rw [hg', hg]
  · exact Or.inr ⟨m', fun b => by show g' (g b) = _; rw [hg', hg]⟩
  · exact Or.inr ⟨m, fun b => by show g' (g b) = _; rw [hg', hg]⟩
  · exact Or.inr ⟨m &&& m', fun b => by show g' (g b) = _; rw [hg', hg, Nat.and_assoc]⟩

theorem andByte_idem (g : Nat → Nat) (hg : AndByte g) (b : Nat) : g (g b) = g b := by
  rcases hg with hg | ⟨m, hg⟩
  · rw [hg, hg]
  · rw [hg, hg, Nat.and_assoc, Nat.and_self]

/-- In `WHITE` mode one store of `drawBitmap` is an OR into one byte. -/
theorem blit_WHITE_bytewise (i v : Nat) :
    Bytewise OrByte fun sBuffer => blit WHITE sBuffer i v := by
  have h := bytewise_modify orByte_same (fun b => (b ||| v) % 256)
    (Or.inr ⟨v, fun _ => rfl⟩) i
  simpa [blit, orAt] using h

/-- In `BLACK` mode one store of `drawBitmap` is an AND into one byte. -/
theorem blit_BLACK_bytewise (i v : Nat) :
    Bytewise AndByte fun sBuffer => blit BLACK sBuffer i v := by
  have h := bytewise_modify andByte_same (fun b => b &&& not8 v)
    (Or.inr ⟨not8 v, fun _ => rfl⟩) i
  simpa [blit, andNotAt, BLACK, WHITE] using h

theorem drawBitmapCell_bytewise {G : (Nat → Nat) → Prop} (hid : G fun b => b)
    (hcomp : ∀ g g', G g → G g' → G fun b => g' (g b)) (color : Nat)
    (hblit : ∀ i v, Bytewise G fun sBuffer => blit color sBuffer i v)
    (x : Int) (bitmap : Nat → Nat) (w yOffset a : Nat) (bRow : Int) (iCol : Nat) :
    Bytewise G fun sBuffer => drawBitmapCell x bitmap w color yOffset a bRow iCol sBuffer := by
  unfold drawBitmapCell
  refine bytewise_ite _ ?_ (bytewise_same hid)
  have h1 : Bytewise G fun sBuffer =>
      if bRow ≥ 0 then
        blit color sBuffer (bRow * (WIDTH : Int) + x + iCol).toNat
          (pgm_read_byte bitmap (a * w + iCol) <<< yOffset)
      else sBuffer :=
    bytewise_ite _ (hblit _ _) (bytewise_same hid)
  exact bytewise_ite _ (bytewise_comp hcomp h1 (hblit _ _)) h1

theorem drawBitmapCols_bytewise {G : (Nat → Nat) → Prop} (hid : G fun b => b)
    (hcomp : ∀ g g', G g → G g' → G fun b => g' (g b)) (color : Nat)
    (hblit : ∀ i v, Bytewise G fun sBuffer => blit color sBuffer i v)
    (x : Int) (bitmap : Nat → Nat) (w yOffset a : Nat) (bRow : Int) (n : Nat) :
    ∀ iCol, Bytewise G fun sBuffer =>
      drawBitmapCols x bitmap w color yOffset a bRow n iCol sBuffer := by
  induction n with
  | zero => intro iCol; exact bytewise_same hid
  | succ n ih =>
    intro iCol
    simp only [drawBitmapCols]
    exact bytewise_ite _ (bytewise_same hid)
      (bytewise_comp hcomp
        (drawBitmapCell_bytewise hid hcomp color hblit x bitmap w yOffset a bRow iCol)
        (ih (iCol + 1)))

theorem drawBitmapRows_bytewise {G : (Nat → Nat) → Prop} (hid : G fun b => b)
    (hcomp : ∀ g g', G g → G g' → G fun b => g' (g b)) (color : Nat)
    (hblit : ∀ i v, Bytewise G fun sBuffer => blit color sBuffer i v)
    (x : Int) (bitmap : Nat → Nat) (w yOffset : Nat) (sRow : Int) (n : Nat) :
    ∀ a, Bytewise G fun sBuffer =>
      drawBitmapRows x bitmap w color yOffset sRow n a sBuffer := by
  induction n with
  | zero => intro a; exact bytewise_same hid
  | succ n ih =>
    intro a
    simp only [drawBitmapRows]
    exact bytewise_ite _ (bytewise_same hid)
      (bytewise_comp hcomp
        (bytewise_ite _
          (drawBitmapCols_bytewise hid hcomp color hblit x bitmap w yOffset a _ w 0)
          (bytewise_same hid))
        (ih (a + 1)))

/-- Whatever the compositing mode, `drawBitmap` acts on every byte on its
own, by a composition of that mode's byte functions. -/
theorem drawBitmap_bytewise {G : (Nat → Nat) → Prop} (hid : G fun b => b)
    (hcomp : ∀ g g', G g → G g' → G fun b => g' (g b)) (color : Nat)
    (hblit : ∀ i v, Bytewise G fun sBuffer => blit color sBuffer i v)
    (x y : Int) (bitmap : Nat → Nat) (w h : Nat) :
    Bytewise G fun sBuffer => drawBitmap x y bitmap w h color sBuffer := by
  unfold drawBitmap
  exact bytewise_ite _ (bytewise_same hid)
    (drawBitmapRows_bytewise hid hcomp color hblit x bitmap w _ _ _ 0)

/-- C9: drawing the same bitmap twice with `drawBitmap` in `WHITE` (OR) mode
gives the same buffer as drawing it once, and likewise in `BLACK`
(AND-with-complement) mode, for every buffer, bitmap, position and size. -/
theorem C9_drawBitmap_idempotent (sBuffer : Buffer) (bitmap : Nat → Nat) (x y : Int)
    (w h : Nat) :
    drawBitmap x y bitmap w h WHITE (drawBitmap x y bitmap w h WHITE sBuffer)
        = drawBitmap x y bitmap w h WHITE sBuffer
    ∧ drawBitmap x y bitmap w h BLACK (drawBitmap x y bitmap w h BLACK sBuffer)
        = drawBitmap x y bitmap w h BLACK sBuffer :=
  ⟨bytewise_idem orByte_idem
      (drawBitmap_bytewise orByte_same orByte_comp WHITE blit_WHITE_bytewise x y bitmap w h)
      sBuffer,
    bytewise_idem andByte_idem
      (drawBitmap_bytewise andByte_same andByte_comp BLACK blit_BLACK_bytewise x y bitmap w h)
      sBuffer⟩

/-! ## Bitmaps: the bytes written in `WHITE` mode, bitmap on screen -/

theorem blit_WHITE (sBuffer : Buffer) (i v j : Nat) :
    blit WHITE sBuffer i v j = if j = i then (sBuffer i ||| v) % 256 else sBuffer j := by
  simp [blit, orAt, modify]

/-- The stores of one column of one bitmap row-group, in `WHITE` mode, for a
column and a row-group inside the display. -/
theorem drawBitmapCell_WHITE (x : Nat) (bitmap : Nat → Nat) (w yOffset a bRow iCol : Nat)
    (hcol : x + iCol < WIDTH) (hrow : bRow < HEIGHT / 8) (sBuffer : Buffer)
    (r col : Nat) (hc : col < WIDTH) :
    drawBitmapCell x bitmap w WHITE yOffset a bRow iCol sBuffer (r * WIDTH + col)
      = if col = x + iCol then
          (if r = bRow then
            (sBuffer (r * WIDTH + col) ||| pgm_read_byte bitmap (a * w + iCol) <<< yOffset) % 256
          else if yOffset ≠ 0 ∧ r = bRow + 1 ∧ r < HEIGHT / 8 then
            (sBuffer (r * WIDTH + col)
              ||| pgm_read_byte bitmap (a * w + iCol) >>> (8 - yOffset)) % 256
          else sBuffer (r * WIDTH + col))
        else sBuffer (r * WIDTH + col) := by
  have hW : WIDTH = 128 := rfl
  have hH : HEIGHT = 64 := rfl
  rw [hW] at hcol hc
  rw [hH] at hrow
  have h1 : (iCol : Int) + (x : Int) ≥ 0 := by omega
  have h2 : (bRow : Int) ≥ 0 := by omega
  have i1 : ((bRow : Int) * (WIDTH : Int) + (x : Int) + (iCol : Int)).toNat
      = bRow * 128 + x + iCol := by rw [hW]; omega
  have i2 : (((bRow : Int) + 1) * (WIDTH : Int) + (x : Int) + (iCol : Int)).toNat
      = (bRow + 1) * 128 + x + iCol := by rw [hW]; omega
  have hH8 : HEIGHT / 8 = 8 := rfl
  have e1 : ∀ r', (r * 128 + col = r' * 128 + x + iCol) ↔ (col = x + iCol ∧ r = r') := by
    intro r'; omega
  unfold drawBitmapCell
  simp only [if_pos h1, if_pos h2, i1, i2]
  simp only [hH8, hW]
  by_cases hsp : yOffset ≠ 0 ∧ (bRow : Int) < (HEIGHT : Int) / 8 - 1 ∧ (bRow : Int) > -2
  · have hb7 : bRow < 7 := by rw [hH] at hsp; omega
    rw [if_pos hsp]
    simp only [blit_WHITE, e1]
    by_cases hcc : col = x + iCol
    · subst hcc
      by_cases hr : r = bRow
      · subst hr
        simp [Nat.add_assoc]
      · by_cases hr1 : r = bRow + 1
        · subst hr1
          have : bRow + 1 < 8 := by omega
          simp [hsp.1, this, Nat.add_assoc]
        · simp [hr, hr1]
    · simp [hcc]
  · rw [if_neg hsp]
    have hno : ¬ (yOffset ≠ 0 ∧ r = bRow + 1 ∧ r < 8) := by
      rw [hH] at hsp
      rintro ⟨hy, hr, hr8⟩
      exact hsp ⟨hy, by omega, by omega⟩
    simp only [blit_WHITE, e1, if_neg hno]
    by_cases hcc : col = x + iCol
    · subst hcc
      by_cases hr : r = bRow
      · subst hr
        simp [Nat.add_assoc]
      · simp [hr]
    · simp [hcc]

/-- The stores of one bitmap row-group, in `WHITE` mode, when all its
columns and its row-group lie inside the display. -/
theorem drawBitmapCols_WHITE (x : Nat) (bitmap : Nat → Nat) (w yOffset a bRow : Nat)
    (hrow : bRow < HEIGHT / 8) (r col : Nat) (hc : col < WIDTH) (n : Nat) :
    ∀ (iCol : Nat) (sBuffer : Buffer), x + iCol + n ≤ WIDTH →
      drawBitmapCols x bitmap w WHITE yOffset a bRow n iCol sBuffer (r * WIDTH + col)
        = if x + iCol ≤ col ∧ col < x + iCol + n then
            (if r = bRow then
              (sBuffer (r * WIDTH + col)
                ||| pgm_read_byte bitmap (a * w + (col - x)) <<< yOffset) % 256
            else if yOffset ≠ 0 ∧ r = bRow + 1 ∧ r < HEIGHT / 8 then
              (sBuffer (r * WIDTH + col)
                ||| pgm_read_byte bitmap (a * w + (col - x)) >>> (8 - yOffset)) % 256
            else sBuffer (r * WIDTH + col))
          else sBuffer (r * WIDTH + col) := by
  have hW : WIDTH = 128 := rfl
  induction n with
  | zero =>
    intro iCol sBuffer _
    have : ¬ (x + iCol ≤ col ∧ col < x + iCol + 0) := by omega
    rw [if_neg this]
    rfl
  | succ n ih =>
    intro iCol sBuffer hn
    have hbrk : ¬ ((iCol : Int) + (x : Int) > (WIDTH : Int) - 1) := by
      rw [hW] at hn ⊢
      omega
    rw [drawBitmapCols, if_neg hbrk, ih (iCol + 1) _ (by omega),
      drawBitmapCell_WHITE x bitmap w yOffset a bRow iCol (by omega) hrow sBuffer r col hc]
    by_cases h0 : col = x + iCol
    · have hcx : col - x = iCol := by omega
      have hA : ¬ (x + (iCol + 1) ≤ col ∧ col < x + (iCol + 1) + n) := by omega
      have hB : x + iCol ≤ col ∧ col < x + iCol + (n + 1) := by omega
      rw [if_neg hA, if_pos h0, if_pos hB, hcx]
    · rw [if_neg h0]
      by_cases hA : x + (iCol + 1) ≤ col ∧ col < x + (iCol + 1) + n
      · have hB : x + iCol ≤ col ∧ col < x + iCol + (n + 1) := by omega
        rw [if_pos hA, if_pos hB]
      · have hB : ¬ (x + iCol ≤ col ∧ col < x + iCol + (n + 1)) := by omega
        rw [if_neg hA, if_neg hB]

theorem pgm_read_byte_lt (bitmap : Nat → Nat) (i : Nat) : pgm_read_byte bitmap i < 256 :=
  Nat.mod_lt _ (by norm_num)

theorem testBit_byte_high (b k : Nat) (hb : b < 256) (hk : 8 ≤ k) : b.testBit k = false := by
  apply Nat.testBit_lt_two_pow
  calc b < 2 ^ 8 := by norm_num; exact hb
    _ ≤ 2 ^ k := Nat.pow_le_pow_right (by norm_num) hk

/-- Storing `b | v` back into a byte `b` keeps `b` and adds the low eight
bits of `v`. -/
theorem or_mod256_of_byte (b v : Nat) (hb : b < 256) : (b ||| v) % 256 = b ||| v % 256 := by
  apply Nat.eq_of_testBit_eq
  intro k
  simp only [testBit_mod256, Nat.testBit_or]
  by_cases hk : k < 8
  · simp [hk]
  · simp [hk, testBit_byte_high b k hb (by omega)]

theorem shiftRight_byte_lt (b s : Nat) (hb : b < 256) : b >>> s < 256 := by
  rw [Nat.shiftRight_eq_div_pow]
  exact lt_of_le_of_lt (Nat.div_le_self _ _) hb

theorem isBytes_of_bytewise_or {f : Buffer → Buffer} (hf : Bytewise OrByte f)
    {sBuffer : Buffer} (hB : IsBytes sBuffer) : IsBytes (f sBuffer) := by
  obtain ⟨g, hg, hfg⟩ := hf
  intro j
  rw [hfg]
  rcases hg j with h | ⟨m, h⟩
  · rw [h]; exact hB j
  · rw [h]; exact Nat.mod_lt _ (by norm_num)

/-- The bytes left by the row-group loop of `drawBitmap` in `WHITE` mode,
when every row-group it visits and every column lie inside the display. -/
theorem drawBitmapRows_WHITE (x : Nat) (bitmap : Nat → Nat) (w yOffset sRow : Nat)
    (hxw : x + w ≤ WIDTH) (r col : Nat) (hc : col < WIDTH) (m : Nat) :
    ∀ (a0 : Nat) (sBuffer : Buffer), IsBytes sBuffer → sRow + a0 + m ≤ HEIGHT / 8 →
      drawBitmapRows x bitmap w WHITE yOffset sRow m a0 sBuffer (r * WIDTH + col)
        = sBuffer (r * WIDTH + col)
          ||| (if x ≤ col ∧ col < x + w ∧ sRow + a0 ≤ r ∧ r < sRow + a0 + m then
                (pgm_read_byte bitmap ((r - sRow) * w + (col - x)) <<< yOffset) % 256
              else 0)
          ||| (if x ≤ col ∧ col < x + w ∧ yOffset ≠ 0 ∧ sRow + a0 + 1 ≤ r
                  ∧ r < sRow + a0 + m + 1 ∧ r < HEIGHT / 8 then
                pgm_read_byte bitmap ((r - sRow - 1) * w + (col - x)) >>> (8 - yOffset)
              else 0) := by
  have hH8 : HEIGHT / 8 = 8 := rfl
  have hH8' : (HEIGHT : Int) / 8 - 1 = 7 := rfl
  induction m with
  | zero =>
    intro a0 sBuffer _ _
    have h1 : ¬ (x ≤ col ∧ col < x + w ∧ sRow + a0 ≤ r ∧ r < sRow + a0 + 0) := by omega
    have h2 : ¬ (x ≤ col ∧ col < x + w ∧ yOffset ≠ 0 ∧ sRow + a0 + 1 ≤ r
        ∧ r < sRow + a0 + 0 + 1 ∧ r < HEIGHT / 8) := by omega
    rw [if_neg h1, if_neg h2]
    simp [drawBitmapRows]
  | succ m ih =>
    intro a0 sBuffer hB hm
    rw [hH8] at hm
    have hbrk : ¬ ((sRow : Int) + (a0 : Int) > (HEIGHT : Int) / 8 - 1) := by
      rw [hH8']; omega
    have hgo : (sRow : Int) + (a0 : Int) > -2 := by omega
    have hcast : (sRow : Int) + (a0 : Int) = ((sRow + a0 : Nat) : Int) := by push_cast; rfl
    have hB' : IsBytes (drawBitmapCols x bitmap w WHITE yOffset a0 ((sRow + a0 : Nat) : Int)
        w 0 sBuffer) :=
      isBytes_of_bytewise_or
        (drawBitmapCols_bytewise orByte_same orByte_comp WHITE blit_WHITE_bytewise
          x bitmap w yOffset a0 _ w 0) hB
    simp only [drawBitmapRows]
    rw [if_neg hbrk, if_pos hgo, hcast]
    rw [ih (a0 + 1) _ hB' (by rw [hH8]; omega),
      drawBitmapCols_WHITE x bitmap w yOffset a0 (sRow + a0) (by rw [hH8]; omega) r col hc w 0
        sBuffer (by omega)]
    simp only [hH8]
    have hb := hB (r * WIDTH + col)
    have hr : r < sRow + a0 ∨ r = sRow + a0 ∨ r = sRow + a0 + 1 ∨ sRow + a0 + 1 < r := by omega
    rcases hr with hr | hr | hr | hr
    · split_ifs <;> omega
    · subst hr
      have e : sRow + a0 - sRow = a0 := by omega
      split_ifs <;> first | omega | skip
      simp only [e, or_mod256_of_byte _ _ hb, Nat.or_zero]
    · subst hr
      have e : sRow + a0 + 1 - sRow - 1 = a0 := by omega
      have hv := shiftRight_byte_lt _ (8 - yOffset)
        (pgm_read_byte_lt bitmap (a0 * w + (col - x)))
      split_ifs <;> first | omega | skip
      · simp only [e, or_mod256_of_byte _ _ hb, Nat.mod_eq_of_lt hv, Nat.or_zero]
        rw [Nat.or_assoc,
          Nat.or_comm (pgm_read_byte bitmap (a0 * w + (col - x)) >>> (8 - yOffset)),
          ← Nat.or_assoc]
      · simp only [e, or_mod256_of_byte _ _ hb, Nat.mod_eq_of_lt hv, Nat.or_zero]
    · split_ifs <;> omega

theorem bitmapRows_bounds (h : Nat) : h ≤ 8 * bitmapRows h ∧ 8 * bitmapRows h < h + 8 := by
  unfold bitmapRows
  split <;> omega

/-- For a position with `x, y ≥ 0`, `drawBitmap` either rejects the call or
runs the row-group loop from row-group `y / 8` with `yOffset = y % 8`. -/
theorem drawBitmap_nonneg (x y : Nat) (bitmap : Nat → Nat) (w h : Nat) (color : Nat)
    (sBuffer : Buffer) :
    drawBitmap x y bitmap w h color sBuffer
      = if x > WIDTH - 1 ∨ y > HEIGHT - 1 then sBuffer
        else drawBitmapRows x bitmap w color (y % 8) ((y / 8 : Nat) : Int) (bitmapRows h) 0
          sBuffer := by
  have hW : WIDTH = 128 := rfl
  have hH : HEIGHT = 64 := rfl
  have e1 : (y : Int).natAbs = y := Int.natAbs_ofNat y
  have e2 : Int.tdiv (y : Int) 8 = ((y / 8 : Nat) : Int) := by
    rw [Int.tdiv_eq_ediv (by omega) (by norm_num)]
    omega
  have e3 : ¬ ((y : Int) < 0) := by omega
  unfold drawBitmap
  by_cases hrej : x > WIDTH - 1 ∨ y > HEIGHT - 1
  · have : (x : Int) + (w : Int) < 0 ∨ (x : Int) > (WIDTH : Int) - 1 ∨ (y : Int) + (h : Int) < 0
        ∨ (y : Int) > (HEIGHT : Int) - 1 := by
      rw [hW, hH] at hrej ⊢
      omega
    rw [if_pos this, if_pos hrej]
  · have : ¬ ((x : Int) + (w : Int) < 0 ∨ (x : Int) > (WIDTH : Int) - 1
        ∨ (y : Int) + (h : Int) < 0 ∨ (y : Int) > (HEIGHT : Int) - 1) := by
      rw [hW, hH] at hrej ⊢
      omega
    rw [if_neg this, if_neg hrej]
    simp only [e1, e2, if_neg e3]
    rfl

/-- The bytes left by `drawBitmap` in `WHITE` mode for a bitmap lying fully
on screen. -/
theorem drawBitmap_WHITE_onscreen (sBuffer : Buffer) (bitmap : Nat → Nat) (x y w h : Nat)
    (hB : IsBytes sBuffer) (hxw : x + w ≤ WIDTH) (hyh : y + h ≤ HEIGHT)
    (r col : Nat) (hc : col < WIDTH) :
    drawBitmap x y bitmap w h WHITE sBuffer (r * WIDTH + col)
      = sBuffer (r * WIDTH + col)
        ||| (if x ≤ col ∧ col < x + w ∧ y / 8 ≤ r ∧ r < y / 8 + bitmapRows h then
              (pgm_read_byte bitmap ((r - y / 8) * w + (col - x)) <<< (y % 8)) % 256
            else 0)
        ||| (if x ≤ col ∧ col < x + w ∧ y % 8 ≠ 0 ∧ y / 8 + 1 ≤ r
                ∧ r < y / 8 + bitmapRows h + 1 ∧ r < HEIGHT / 8 then
              pgm_read_byte bitmap ((r - y / 8 - 1) * w + (col - x)) >>> (8 - y % 8)
            else 0) := by
  have hW : WIDTH = 128 := rfl
  have hH : HEIGHT = 64 := rfl
  have hH8 : HEIGHT / 8 = 8 := rfl
  have hrb := bitmapRows_bounds h
  rw [drawBitmap_nonneg]
  by_cases hrej : x > WIDTH - 1 ∨ y > HEIGHT - 1
  · rw [if_pos hrej]
    have hrej' : x > 127 ∨ y > 63 := hrej
    have hxw' : x + w ≤ 128 := hxw
    have hyh' : y + h ≤ 64 := hyh
    have h1 : ¬ (x ≤ col ∧ col < x + w ∧ y / 8 ≤ r ∧ r < y / 8 + bitmapRows h) := by omega
    have h2 : ¬ (x ≤ col ∧ col < x + w ∧ y % 8 ≠ 0 ∧ y / 8 + 1 ≤ r
        ∧ r < y / 8 + bitmapRows h + 1 ∧ r < HEIGHT / 8) := by omega
    rw [if_neg h1, if_neg h2, Nat.or_zero, Nat.or_zero]
  · rw [if_neg hrej]
    have hyh' : y + h ≤ 64 := hyh
    have hfit : y / 8 + 0 + bitmapRows h ≤ HEIGHT / 8 := by
      rw [hH8]
      omega
    have h := drawBitmapRows_WHITE x bitmap w (y % 8) (y / 8) hxw r col hc (bitmapRows h) 0
      sBuffer hB hfit
    simpa only [Nat.add_zero] using h

theorem ite_or_bits (p q : Bool) :
    (if (p || q) = true then 1 else 0) = (if p = true then 1 else 0) ||| (if q = true then 1 else 0) := by
  cases p <;> cases q <;> rfl

theorem testBit_shiftLeft_mod256 (b o n : Nat) (hn : n < 8) :
    ((b <<< o) % 256).testBit n = (decide (o ≤ n) && b.testBit (n - o)) := by
  rw [testBit_mod256, Nat.testBit_shiftLeft]
  simp [hn]

/-- The pixels left by `drawBitmap` in `WHITE` mode for a bitmap lying fully
on screen: bit `k` of the byte at row-group `a`, column `c` is ORed into pixel
`(x + c, y + 8a + k)`. -/
theorem getPixel_drawBitmap_WHITE_onscreen (sBuffer : Buffer) (bitmap : Nat → Nat)
    (x y w h : Nat) (hB : IsBytes sBuffer) (hxw : x + w ≤ WIDTH) (hyh : y + h ≤ HEIGHT)
    (a c k : Nat) (ha : a < bitmapRows h) (hc : c < w) (hk : k < 8)
    (hon : y + 8 * a + k < HEIGHT) :
    getPixel (drawBitmap x y bitmap w h WHITE sBuffer) (x + c) (y + 8 * a + k)
      = getPixel sBuffer (x + c) (y + 8 * a + k)
        ||| (if (pgm_read_byte bitmap (a * w + c)).testBit k then 1 else 0) := by
  have hcol : x + c < WIDTH := by omega
  have hon' : y + 8 * a + k < 64 := hon
  have hH8 : HEIGHT / 8 = 8 := rfl
  have e2 : x + c - x = c := by omega
  rw [getPixel_eq, getPixel_eq,
    drawBitmap_WHITE_onscreen sBuffer bitmap x y w h hB hxw hyh _ _ hcol,
    Nat.testBit_or, Nat.testBit_or, e2, hH8]
  by_cases hok : y % 8 + k < 8
  · have hr : (y + 8 * a + k) / 8 = y / 8 + a := by omega
    have hb : (y + 8 * a + k) % 8 = y % 8 + k := by omega
    have e1 : y / 8 + a - y / 8 = a := by omega
    have hD : x ≤ x + c ∧ x + c < x + w ∧ y / 8 ≤ y / 8 + a
        ∧ y / 8 + a < y / 8 + bitmapRows h := by omega
    rw [hr, hb, if_pos hD, e1, testBit_shiftLeft_mod256 _ _ _ hok]
    have hS : (if x ≤ x + c ∧ x + c < x + w ∧ y % 8 ≠ 0 ∧ y / 8 + 1 ≤ y / 8 + a
          ∧ y / 8 + a < y / 8 + bitmapRows h + 1 ∧ y / 8 + a < 8 then
          pgm_read_byte bitmap ((a - 1) * w + c) >>> (8 - y % 8)
        else 0).testBit (y % 8 + k) = false := by
      split
      · rw [Nat.testBit_shiftRight]
        exact testBit_byte_high _ _ (pgm_read_byte_lt _ _) (by omega)
      · exact Nat.zero_testBit _
    have e3 : y % 8 + k - y % 8 = k := by omega
    have e4 : decide (y % 8 ≤ y % 8 + k) = true := by simp
    rw [hS, e3, e4, Bool.or_false, Bool.true_and]
    exact ite_or_bits _ _
  · have hr : (y + 8 * a + k) / 8 = y / 8 + a + 1 := by omega
    have hb : (y + 8 * a + k) % 8 = y % 8 + k - 8 := by omega
    have e1 : y / 8 + a + 1 - y / 8 - 1 = a := by omega
    have hS : x ≤ x + c ∧ x + c < x + w ∧ y % 8 ≠ 0 ∧ y / 8 + 1 ≤ y / 8 + a + 1
        ∧ y / 8 + a + 1 < y / 8 + bitmapRows h + 1 ∧ y / 8 + a + 1 < 8 := by omega
    rw [hr, hb, if_pos hS, e1, Nat.testBit_shiftRight]
    have hD : (if x ≤ x + c ∧ x + c < x + w ∧ y / 8 ≤ y / 8 + a + 1
          ∧ y / 8 + a + 1 < y / 8 + bitmapRows h then
          (pgm_read_byte bitmap ((y / 8 + a + 1 - y / 8) * w + c) <<< (y % 8)) % 256
        else 0).testBit (y % 8 + k - 8) = false := by
      split
      · rw [testBit_shiftLeft_mod256 _ _ _ (by omega)]
        have : ¬ (y % 8 ≤ y % 8 + k - 8) := by omega
        simp [this]
      · exact Nat.zero_testBit _
    have e3 : 8 - y % 8 + (y % 8 + k - 8) = k := by omega
    rw [hD, e3, Bool.or_false]
    exact ite_or_bits _ _

/-- C2: for every byte buffer, every row-packed bitmap and every position
`(x, y)` with the bitmap fully on screen, `drawBitmap` in `WHITE` mode with
`yOffset = y mod 8` ORs the source byte of bitmap row-group `a`, column `c` into
buffer byte (row-group `y div 8 + a`, column `x + c`) as `(b << yOffset) mod 256`
and, when `yOffset ≠ 0` and row-group `y div 8 + a + 1` exists, into buffer byte
(row-group `y div 8 + a + 1`, column `x + c`) as `b >> (8 - yOffset)`; no other
byte changes; pixel `(x + c, y + 8a + k)` becomes old OR bit `k` of `b`; an 8×8
bitmap at `y = 3` contributes `b << 3` to row-group 0 and `b >> 5` to
row-group 1. -/
theorem C2_drawBitmap_WHITE_shift (sBuffer : Buffer) (bitmap : Nat → Nat) (x y w h : Nat)
    (hB : IsBytes sBuffer) (hxw : x + w ≤ WIDTH) (hyh : y + h ≤ HEIGHT) :
    (∀ r col, col < WIDTH →
      drawBitmap x y bitmap w h WHITE sBuffer (r * WIDTH + col)
        = sBuffer (r * WIDTH + col)
          ||| (if x ≤ col ∧ col < x + w ∧ y / 8 ≤ r ∧ r < y / 8 + bitmapRows h then
                (pgm_read_byte bitmap ((r - y / 8) * w + (col - x)) <<< (y % 8)) % 256
              else 0)
          ||| (if x ≤ col ∧ col < x + w ∧ y % 8 ≠ 0 ∧ y / 8 + 1 ≤ r
                  ∧ r < y / 8 + bitmapRows h + 1 ∧ r < HEIGHT / 8 then
                pgm_read_byte bitmap ((r - y / 8 - 1) * w + (col - x)) >>> (8 - y % 8)
              else 0))
    ∧ (∀ r col, col < WIDTH →
        ¬ (x ≤ col ∧ col < x + w ∧ y / 8 ≤ r ∧ r ≤ y / 8 + bitmapRows h) →
        drawBitmap x y bitmap w h WHITE sBuffer (r * WIDTH + col) = sBuffer (r * WIDTH + col))
    ∧ (∀ a c k, a < bitmapRows h → c < w → k < 8 → y + 8 * a + k < HEIGHT →
        getPixel (drawBitmap x y bitmap w h WHITE sBuffer) (x + c) (y + 8 * a + k)
          = getPixel sBuffer (x + c) (y + 8 * a + k)
            ||| (if (pgm_read_byte bitmap (a * w + c)).testBit k then 1 else 0))
    ∧ (∀ c, c < 8 → x + 8 ≤ WIDTH →
        drawBitmap x 3 bitmap 8 8 WHITE sBuffer (0 * WIDTH + (x + c))
            = sBuffer (0 * WIDTH + (x + c)) ||| (pgm_read_byte bitmap c <<< 3) % 256
        ∧ drawBitmap x 3 bitmap 8 8 WHITE sBuffer (1 * WIDTH + (x + c))
            = sBuffer (1 * WIDTH + (x + c)) ||| pgm_read_byte bitmap c >>> 5) := by
  refine ⟨fun r col hc => drawBitmap_WHITE_onscreen sBuffer bitmap x y w h hB hxw hyh r col hc,
    ?_, fun a c k ha hc hk hon =>
      getPixel_drawBitmap_WHITE_onscreen sBuffer bitmap x y w h hB hxw hyh a c k ha hc hk hon,
    ?_⟩
  · intro r col hc hout
    have h1 : ¬ (x ≤ col ∧ col < x + w ∧ y / 8 ≤ r ∧ r < y / 8 + bitmapRows h) := by omega
    have h2 : ¬ (x ≤ col ∧ col < x + w ∧ y % 8 ≠ 0 ∧ y / 8 + 1 ≤ r
        ∧ r < y / 8 + bitmapRows h + 1 ∧ r < HEIGHT / 8) := by omega
    rw [drawBitmap_WHITE_onscreen sBuffer bitmap x y w h hB hxw hyh r col hc,
      if_neg h1, if_neg h2, Nat.or_zero, Nat.or_zero]
  · intro c hc hx8
    have hcol : x + c < WIDTH := by omega
    have hrows : bitmapRows 8 = 1 := rfl
    have e : x + c - x = c := by omega
    have h3 : ((3 : Nat) : Int) = 3 := rfl
    constructor
    · have h1 : x ≤ x + c ∧ x + c < x + 8 ∧ 3 / 8 ≤ 0 ∧ 0 < 3 / 8 + bitmapRows 8 := by
        rw [hrows]; omega
      have h2 : ¬ (x ≤ x + c ∧ x + c < x + 8 ∧ 3 % 8 ≠ 0 ∧ 3 / 8 + 1 ≤ 0
          ∧ 0 < 3 / 8 + bitmapRows 8 + 1 ∧ 0 < HEIGHT / 8) := by omega
      have key := drawBitmap_WHITE_onscreen sBuffer bitmap x 3 8 8 hB hx8 (by decide) 0 (x + c)
        hcol
      rw [h3, if_pos h1, if_neg h2, Nat.or_zero, e] at key
      rw [key]
      simp
    · have h1 : ¬ (x ≤ x + c ∧ x + c < x + 8 ∧ 3 / 8 ≤ 1 ∧ 1 < 3 / 8 + bitmapRows 8) := by
        rw [hrows]; omega
      have h2 : x ≤ x + c ∧ x + c < x + 8 ∧ 3 % 8 ≠ 0 ∧ 3 / 8 + 1 ≤ 1
          ∧ 1 < 3 / 8 + bitmapRows 8 + 1 ∧ 1 < HEIGHT / 8 := by
        rw [hrows]
        refine ⟨by omega, by omega, by decide, by decide, by decide, by decide⟩
      have key := drawBitmap_WHITE_onscreen sBuffer bitmap x 3 8 8 hB hx8 (by decide) 1 (x + c)
        hcol
      rw [h3, if_neg h1, if_pos h2, Nat.or_zero, e] at key
      rw [key]
      simp

/-- Witness for C2: an 8×8 bitmap drawn at `(10, 3)` on the all-zero buffer,
read at column 12 of row-groups 0 and 1. -/
theorem C2_drawBitmap_WHITE_shift_witness :
    IsBytes (fun _ => 0) ∧ 10 + 8 ≤ WIDTH ∧ 3 + 8 ≤ HEIGHT
    ∧ drawBitmap 10 3 (fun i => 0x81 + i) 8 8 WHITE (fun _ => 0) (0 * WIDTH + (10 + 2))
        = (fun _ => 0 : Buffer) (0 * WIDTH + (10 + 2))
          ||| (pgm_read_byte (fun i => 0x81 + i) 2 <<< 3) % 256
    ∧ drawBitmap 10 3 (fun i => 0x81 + i) 8 8 WHITE (fun _ => 0) (1 * WIDTH + (10 + 2))
        = (fun _ => 0 : Buffer) (1 * WIDTH + (10 + 2))
          ||| pgm_read_byte (fun i => 0x81 + i) 2 >>> 5 :=
  ⟨fun _ => Nat.succ_pos 255, by decide, by decide,
    (C2_drawBitmap_WHITE_shift (fun _ => 0) (fun i => 0x81 + i) 10 3 8 8
      (fun _ => Nat.succ_pos 255) (by decide) (by decide)).2.2.2 2 (by decide) (by decide)⟩

/-! ## Load metric and frame spacing -/

theorem nextFrame_eachFrameMillis (W : Widths) (now : Int) (s : Frame) :
    (nextFrame W now s).2.eachFrameMillis = s.eachFrameMillis := by
  unfold nextFrame
  cases hp : s.post_render <;> by_cases hlt : now < s.nextFrameStart <;> simp [hlt]

theorem nextFrame_permitted (W : Widths) (now : Int) (s : Frame)
    (h : (nextFrame W now s).1 = true) :
    s.nextFrameStart ≤ now
    ∧ (nextFrame W now s).2.lastFrameStart = now
    ∧ (nextFrame W now s).2.nextFrameStart = max (s.lastFrameStart + s.eachFrameMillis) now := by
  unfold nextFrame at h ⊢
  cases hp : s.post_render <;> by_cases hlt : now < s.nextFrameStart <;>
    simp [hp, hlt] at h ⊢ <;> omega

theorem nextFrame_refused (W : Widths) (now : Int) (s : Frame)
    (h : (nextFrame W now s).1 = false) :
    (nextFrame W now s).2.lastFrameStart = s.lastFrameStart
    ∧ (nextFrame W now s).2.nextFrameStart = s.nextFrameStart := by
  unfold nextFrame at h ⊢
  cases hp : s.post_render <;> by_cases hlt : now < s.nextFrameStart <;>
    simp [hp, hlt] at h ⊢

/-- The permitted polls of any run are spaced as `spacedFrom` says. -/
theorem permittedStarts_spaced (W : Widths) (clocks : List Int) :
    ∀ s : Frame, spacedFrom s.eachFrameMillis s.lastFrameStart s.nextFrameStart
      (permittedStarts W clocks s) := by
  induction clocks with
  | nil => intro s; simp [permittedStarts, spacedFrom]
  | cons now rest ih =>
    intro s
    have ih' := ih (nextFrame W now s).2
    rw [nextFrame_eachFrameMillis] at ih'
    simp only [permittedStarts]
    cases hr : (nextFrame W now s).1
    · obtain ⟨h1, h2⟩ := nextFrame_refused W now s hr
      rw [h1, h2] at ih'
      simpa using ih'
    · obtain ⟨h0, h1, h2⟩ := nextFrame_permitted W now s hr
      rw [h1, h2] at ih'
      simp only [if_true, spacedFrom]
      exact ⟨h0, ih'⟩

theorem spacedFrom_two_apart (e : Int) (L : List Int) :
    ∀ (lastFrameStart nextFrameStart : Int) (k : Nat) (a c : Int),
      spacedFrom e lastFrameStart nextFrameStart L →
      L[k]? = some a → L[k + 2]? = some c → a + e ≤ c := by
  induction L with
  | nil => intro _ _ k a c _ ha; simp at ha
  | cons x rest ih =>
    intro last next k a c hs ha hc
    obtain ⟨_, hrest⟩ := hs
    cases k with
    | zero =>
      simp only [List.getElem?_cons_zero, Option.some.injEq] at ha
      subst ha
      match rest, hrest, hc with
      | b :: c' :: _, hrest, hc =>
        simp only [List.getElem?_cons_succ, List.getElem?_cons_zero, Option.some.injEq] at hc
        subst hc
        obtain ⟨_, h2⟩ := hrest
        obtain ⟨h3, _⟩ := h2
        omega
      | [b], _, hc => simp at hc
      | [], _, hc => simp at hc
    | succ k =>
      simp only [List.getElem?_cons_succ] at ha hc
      exact ih _ _ k a c hrest ha hc

/-- C20: in every sequence of `nextFrame()` polls from any state, if `a` and
`c` are the clock readings of the `k`-th and `(k+2)`-th permitted poll, then
`c ≥ a + eachFrameMillis`: the frame after next never starts less than one
frame interval after the current one. -/
theorem C20_frame_after_next_spacing (W : Widths) (clocks : List Int) (s : Frame)
    (k : Nat) (a c : Int)
    (ha : (permittedStarts W clocks s)[k]? = some a)
    (hc : (permittedStarts W clocks s)[k + 2]? = some c) :
    a + s.eachFrameMillis ≤ c :=
  spacedFrom_two_apart s.eachFrameMillis (permittedStarts W clocks s)
    s.lastFrameStart s.nextFrameStart k a c (permittedStarts_spaced W clocks s) ha hc

/-- Witness for C20: polls at 0, 16, 17, 18, 32 from the constructed state are
permitted at 0, 16, 17 and 32; the first and third are 17 apart. -/
theorem C20_frame_after_next_spacing_witness :
    (permittedStarts ⟨16, 8, 8⟩ [0, 16, 17, 18, 32] (construct ⟨16, 8, 8⟩ 0 0))[0]? = some 0
    ∧ (permittedStarts ⟨16, 8, 8⟩ [0, 16, 17, 18, 32] (construct ⟨16, 8, 8⟩ 0 0))[0 + 2]?
        = some 17
    ∧ (0 : Int) + (construct ⟨16, 8, 8⟩ 0 0).eachFrameMillis ≤ 17 :=
  ⟨by decide, by decide,
    C20_frame_after_next_spacing ⟨16, 8, 8⟩ [0, 16, 17, 18, 32] (construct ⟨16, 8, 8⟩ 0 0)
      0 0 17 (by decide) (by decide)⟩

/-! ## Horizontal fast line inside the display, rectangle outline -/

/-- The bytes left by the loop `while (w--) { *pBuf++ &= mask; }`. -/
theorem hlineAnd_apply (mask : Nat) (w : Nat) :
    ∀ (pBuf : Nat) (sBuffer : Buffer) (j : Nat),
      hlineAnd mask w pBuf sBuffer j
        = if pBuf ≤ j ∧ j < pBuf + w then sBuffer j &&& mask else sBuffer j := by
  induction w with
  | zero =>
    intro pBuf sBuffer j
    have : ¬ (pBuf ≤ j ∧ j < pBuf + 0) := by omega
    rw [if_neg this]
    rfl
  | succ w ih =>
    intro pBuf sBuffer j
    rw [hlineAnd, ih]
    unfold andAt modify
    by_cases hj : j = pBuf
    · subst hj
      simp
    · by_cases hr : pBuf + 1 ≤ j ∧ j < pBuf + 1 + w
      · have : pBuf ≤ j ∧ j < pBuf + (w + 1) := by omega
        simp [hr, this, hj]
      · have : ¬ (pBuf ≤ j ∧ j < pBuf + (w + 1)) := by omega
        simp [hr, this, hj]

theorem testBit_or_BV_mod256 (b k n : Nat) (hn : n < 8) :
    ((b ||| _BV k) % 256).testBit n = (decide (k = n) || b.testBit n) := by
  rw [testBit_mod256, Nat.testBit_or, BV_eq, Nat.testBit_two_pow]
  simp [hn, Bool.or_comm]

theorem testBit_and_not8_BV (b k n : Nat) (hn : n < 8) :
    (b &&& not8 (_BV k)).testBit n = (!decide (k = n) && b.testBit n) := by
  rw [Nat.testBit_and, testBit_not8, BV_eq, Nat.testBit_two_pow]
  simp [hn, Bool.and_comm]

theorem shiftLeft_one_mod256 (k : Nat) (hk : k < 8) : (1 <<< k) % 256 = _BV k := by
  unfold _BV
  apply Nat.mod_eq_of_lt
  rw [Nat.one_shiftLeft]
  calc 2 ^ k < 2 ^ 8 := Nat.pow_lt_pow_right (by norm_num) hk
    _ = 256 := by norm_num

/-- The pixels left by `drawFastHLine` for a run inside the display, in
colour `BLACK` or `WHITE`. -/
theorem getPixel_drawFastHLine (x y w : Nat) (c : Nat) (sBuffer : Buffer)
    (hxw : x + w ≤ WIDTH) (hy : y < HEIGHT) (hc : c = BLACK ∨ c = WHITE)
    (i j : Nat) (hi : i < WIDTH) :
    getPixel (drawFastHLine x y w c sBuffer) i j
      = if x ≤ i ∧ i < x + w ∧ j = y then c else getPixel sBuffer i j := by
  have hW : WIDTH = 128 := rfl
  have hH : HEIGHT = 64 := rfl
  have hxw' : x + w ≤ 128 := hxw
  have hy' : y < 64 := hy
  have hi' : i < 128 := hi
  have g1 : ¬ ((y : Int) < 0 ∨ (y : Int) ≥ (HEIGHT : Int)) := by rw [hH]; omega
  have g2 : ¬ ((x : Int) < 0) := by omega
  have g3 : ¬ ((x : Int) + (w : Int) > (WIDTH : Int)) := by rw [hW]; omega
  have hp : ((y : Int) / 8 * (WIDTH : Int) + (x : Int)).toNat = y / 8 * 128 + x := by
    rw [hW]; omega
  have hk : ((y : Int) % 8).toNat = y % 8 := by omega
  have hk8 : y % 8 < 8 := Nat.mod_lt _ (by norm_num)
  have hn8 : j % 8 < 8 := Nat.mod_lt _ (by norm_num)
  unfold drawFastHLine
  rw [if_neg g1]
  simp only [if_neg g2, if_neg g3, hp, hk, shiftLeft_one_mod256 _ hk8]
  by_cases hw : w ≤ 0
  · have : ¬ (x ≤ i ∧ i < x + w ∧ j = y) := by omega
    rw [if_pos hw, if_neg this]
  · rw [if_neg hw]
    have hidx : (y / 8 * 128 + x ≤ j / 8 * WIDTH + i ∧ j / 8 * WIDTH + i < y / 8 * 128 + x + w)
        ↔ (x ≤ i ∧ i < x + w ∧ j / 8 = y / 8) := by
      rw [hW]; omega
    rcases hc with rfl | rfl
    · have hb : ¬ (BLACK = WHITE) := by decide
      rw [if_neg hb, if_pos rfl, getPixel_eq, getPixel_eq, hlineAnd_apply]
      by_cases hin : x ≤ i ∧ i < x + w ∧ j / 8 = y / 8
      · rw [if_pos (hidx.mpr hin), testBit_and_not8_BV _ _ _ hn8]
        by_cases hjy : j = y
        · subst hjy
          simp [hin.1, hin.2.1, BLACK]
        · have hne : ¬ (y % 8 = j % 8) := by omega
          have : ¬ (x ≤ i ∧ i < x + w ∧ j = y) := fun h => hjy h.2.2
          simp [hne, this]
      · rw [if_neg (fun h => hin (hidx.mp h))]
        have : ¬ (x ≤ i ∧ i < x + w ∧ j = y) := by
          rintro ⟨h1, h2, rfl⟩
          exact hin ⟨h1, h2, rfl⟩
        rw [if_neg this]
    · rw [if_pos rfl, getPixel_eq, getPixel_eq, hlineOr_apply]
      by_cases hin : x ≤ i ∧ i < x + w ∧ j / 8 = y / 8
      · rw [if_pos (hidx.mpr hin), testBit_or_BV_mod256 _ _ _ hn8]
        by_cases hjy : j = y
        · subst hjy
          simp [hin.1, hin.2.1, WHITE]
        · have hne : ¬ (y % 8 = j % 8) := by omega
          have : ¬ (x ≤ i ∧ i < x + w ∧ j = y) := fun h => hjy h.2.2
          simp [hne, this]
      · rw [if_neg (fun h => hin (hidx.mp h))]
        have : ¬ (x ≤ i ∧ i < x + w ∧ j = y) := by
          rintro ⟨h1, h2, rfl⟩
          exact hin ⟨h1, h2, rfl⟩
        rw [if_neg this]

/-- The pixels left by `drawRect` for a box inside the display with at least
one column and one row. -/
theorem getPixel_drawRect (safe : Bool) (x y w h : Nat) (c : Nat) (sBuffer : Buffer)
    (hxw : x + w ≤ WIDTH) (hyh : y + h ≤ HEIGHT) (hw : 1 ≤ w) (hh : 1 ≤ h)
    (hc : c = BLACK ∨ c = WHITE) (i j : Nat) (hi : i < WIDTH) :
    getPixel (drawRect safe x y w h c sBuffer) i j
      = if (x ≤ i ∧ i < x + w ∧ y ≤ j ∧ j < y + h)
            ∧ (i = x ∨ i = x + w - 1 ∨ j = y ∨ j = y + h - 1) then c
        else getPixel sBuffer i j := by
  have hval : (if c ≠ 0 then 1 else 0) = c := by
    rcases hc with rfl | rfl <;> simp [BLACK, WHITE]
  have e1 : (y : Int) + (h : Int) - 1 = ((y + h - 1 : Nat) : Int) := by omega
  have e2 : (x : Int) + (w : Int) - 1 = ((x + w - 1 : Nat) : Int) := by omega
  unfold drawRect
  simp only [e1, e2]
  rw [getPixel_drawFastVLine safe (x + w - 1) y h c _ (by omega) hyh i j hi,
    getPixel_drawFastVLine safe x y h c _ (by omega) hyh i j hi,
    getPixel_drawFastHLine x (y + h - 1) w c _ hxw (by omega) hc i j hi,
    getPixel_drawFastHLine x y w c _ hxw (by omega) hc i j hi, hval]
  split_ifs <;> first | rfl | omega

/-- C15, as stated, fails: with `w = 0` (or `h = 0`) `drawRect` is not a
no-op. On a cleared buffer `drawRect(1, 0, 0, 1, WHITE)` sets pixels `(0, 0)`
and `(1, 0)`, and `drawRect(1, 1, 2, 0, WHITE)` sets pixel `(1, 1)`. -/
theorem C15_drawRect_empty_box_draws :
    getPixel (clear (fun _ => 0)) 0 0 = 0
    ∧ getPixel (drawRect false 1 0 0 1 WHITE (clear (fun _ => 0))) 0 0 = 1
    ∧ getPixel (drawRect true 1 0 0 1 WHITE (clear (fun _ => 0))) 0 0 = 1
    ∧ getPixel (drawRect false 1 0 0 1 WHITE (clear (fun _ => 0))) 1 0 = 1
    ∧ getPixel (drawRect false 1 1 2 0 WHITE (clear (fun _ => 0))) 1 1 = 1 := by
  decide

/-- C15, amended: for every buffer, colour `c` in `{BLACK, WHITE}` and every box
`[x, x+w) × [y, y+h)` inside the display with `1 ≤ x`, `w ≥ 1` and `h ≥ 1`,
`drawRect(x, y, w, h, c)` sets to `c` exactly the border pixels of the box
and changes no other pixel. -/
theorem C15_drawRect_border (safe : Bool) (sBuffer : Buffer) (c : Nat) (x y : Int) (w h : Nat)
    (hc : c = BLACK ∨ c = WHITE)
    (hx1 : 1 ≤ x) (hxw : x + w ≤ WIDTH) (hy0 : 0 ≤ y) (hyh : y + h ≤ HEIGHT)
    (hw : 1 ≤ w) (hh : 1 ≤ h) (i j : Nat) (hi : i < WIDTH) (hj : j < HEIGHT) :
    getPixel (drawRect safe x y w h c sBuffer) i j
      = if (x ≤ i ∧ i < x + w ∧ y ≤ j ∧ j < y + h)
            ∧ ((i : Int) = x ∨ (i : Int) = x + w - 1 ∨ (j : Int) = y ∨ (j : Int) = y + h - 1)
        then c
        else getPixel sBuffer i j := by
  obtain ⟨x, rfl⟩ := Int.eq_ofNat_of_zero_le (le_trans (by norm_num) hx1)
  obtain ⟨y, rfl⟩ := Int.eq_ofNat_of_zero_le hy0
  have hxw' : x + w ≤ WIDTH := by exact_mod_cast hxw
  have hyh' : y + h ≤ HEIGHT := by exact_mod_cast hyh
  rw [getPixel_drawRect safe x y w h c sBuffer hxw' hyh' hw hh hc i j hi]
  have hj' : j < HEIGHT := hj
  split_ifs <;> first | rfl | omega

/-- Witness for C15 (amended): the corner `(4, 6)` of the outline drawn by
`drawRect(2, 3, 3, 4, WHITE)` on a cleared buffer. -/
theorem C15_drawRect_border_witness :
    getPixel (drawRect false 2 3 3 4 WHITE (clear (fun _ => 0))) 4 6
      = if ((2 : Int) ≤ (4 : Nat) ∧ ((4 : Nat) : Int) < 2 + (3 : Nat)
              ∧ (3 : Int) ≤ (6 : Nat) ∧ ((6 : Nat) : Int) < 3 + (4 : Nat))
            ∧ (((4 : Nat) : Int) = 2 ∨ ((4 : Nat) : Int) = 2 + (3 : Nat) - 1
              ∨ ((6 : Nat) : Int) = 3 ∨ ((6 : Nat) : Int) = 3 + (4 : Nat) - 1)
        then WHITE
        else getPixel (clear (fun _ => 0)) 4 6 :=
  C15_drawRect_border false (clear (fun _ => 0)) WHITE 2 3 3 4 (Or.inr rfl) (by decide)
    (by decide) (by decide) (by decide) (by decide) (by decide) 4 6 (by decide) (by decide)

/-! ## Filled triangles: how the scanline loops end -/

theorem i16_zero : i16 0 = 0 := by decide

/-- A value in the range of `int16_t` is kept by the conversion. -/
theorem i16_of_range (z : Int) (h1 : -32768 ≤ z) (h2 : z ≤ 32767) : i16 z = z := by
  unfold i16
  omega

/-- A difference of two `int16_t` values converts to zero only when the two
are equal. -/
theorem i16_sub_eq_zero (a b : Int) (ha : -32768 ≤ a ∧ a ≤ 32767)
    (hb : -32768 ≤ b ∧ b ≤ 32767) (h : i16 (a - b) = 0) : a = b := by
  unfold i16 at h
  omega

/-- A scanline loop whose bound is already passed returns at once. -/
theorem fillTriangleLoop_skip (xa dxa dya xb dxb dyb last : Int) (color : Nat) (n : Nat)
    (y sa sb : Int) (sBuffer : Buffer) (h : ¬ y ≤ last) :
    fillTriangleLoop xa dxa dya xb dxb dyb last color n y sa sb sBuffer
      = Outcome.returns (y, sBuffer) := by
  cases n <;> simp [fillTriangleLoop, h]

/-- A scanline loop that runs an iteration with a zero edge height divides by
zero. -/
theorem fillTriangleLoop_dividesByZero (xa dxa dya xb dxb dyb last : Int) (color : Nat)
    (n : Nat) (y sa sb : Int) (sBuffer : Buffer) (h : y ≤ last) (hz : dya = 0 ∨ dyb = 0) :
    fillTriangleLoop xa dxa dya xb dxb dyb last color (n + 1) y sa sb sBuffer
      = Outcome.dividesByZero := by
  rw [fillTriangleLoop, if_pos h]
  rcases hz with hz | hz
  · simp [cdiv, hz]
  · by_cases ha : dya = 0 <;> simp [cdiv, hz, ha]

/-- A scanline loop that returns has passed its bound. -/
theorem fillTriangleLoop_exit (xa dxa dya xb dxb dyb last : Int) (color : Nat) (n : Nat) :
    ∀ (y sa sb : Int) (sBuffer : Buffer) (r : Int × Buffer),
      fillTriangleLoop xa dxa dya xb dxb dyb last color n y sa sb sBuffer = Outcome.returns r →
      ¬ r.1 ≤ last := by
  induction n with
  | zero =>
    intro y sa sb sBuffer r h
    rw [fillTriangleLoop] at h
    by_cases hy : y ≤ last
    · rw [if_pos hy] at h
      exact absurd h (by simp)
    · rw [if_neg hy] at h
      have := Outcome.returns.inj h
      rw [← this]
      exact hy
  | succ n ih =>
    intro y sa sb sBuffer r h
    rw [fillTriangleLoop] at h
    by_cases hy : y ≤ last
    · rw [if_pos hy] at h
      by_cases ha : dya = 0
      · simp [cdiv, ha] at h
      · by_cases hb : dyb = 0
        · simp [cdiv, ha, hb] at h
        · simp only [cdiv, if_neg ha, if_neg hb] at h
          exact ih _ _ _ _ r h
    · rw [if_neg hy] at h
      have := Outcome.returns.inj h
      rw [← this]
      exact hy

/-- A scanline loop with nonzero edge heights and a bound below 32767 that is
granted more iterations than there are scanlines returns, with `y` one past
the bound. -/
theorem fillTriangleLoop_returns (xa dxa dya xb dxb dyb last : Int) (color : Nat)
    (ha : dya ≠ 0) (hb : dyb ≠ 0) (hlast : last ≤ 32766) (n : Nat) :
    ∀ (y sa sb : Int) (sBuffer : Buffer), -32768 ≤ y → y ≤ last + 1 → last + 1 - y < n →
      ∃ sBuffer1, fillTriangleLoop xa dxa dya xb dxb dyb last color n y sa sb sBuffer
        = Outcome.returns (last + 1, sBuffer1) := by
  induction n with
  | zero => intro y sa sb sBuffer _ h1 h2; omega
  | succ n ih =>
    intro y sa sb sBuffer hy0 h1 h2
    by_cases hy : y ≤ last
    · rw [fillTriangleLoop, if_pos hy]
      simp only [cdiv, if_neg ha, if_neg hb]
      have e : i16 (y + 1) = y + 1 := i16_of_range _ (by omega) (by omega)
      rw [e]
      exact ih _ _ _ _ (by omega) (by omega) (by omega)
    · have e : y = last + 1 := by omega
      rw [fillTriangleLoop_skip _ _ _ _ _ _ _ _ _ _ _ _ _ hy, e]
      exact ⟨sBuffer, rfl⟩

/-- Exchanging the two edges of a scanline loop does not change how it ends
nor what it draws: the span bounds are swapped back by the `a > b` test. -/
theorem fillTriangleLoop_swap (xa dxa dya xb dxb dyb last : Int) (color : Nat) (n : Nat) :
    ∀ (y sa sb : Int) (sBuffer : Buffer),
      fillTriangleLoop xb dxb dyb xa dxa dya last color n y sb sa sBuffer
        = fillTriangleLoop xa dxa dya xb dxb dyb last color n y sa sb sBuffer := by
  induction n with
  | zero => intro y sa sb sBuffer; rfl
  | succ n ih =>
    intro y sa sb sBuffer
    rw [fillTriangleLoop, fillTriangleLoop]
    by_cases hy : y ≤ last
    · rw [if_pos hy, if_pos hy]
      by_cases ha : dya = 0
      · by_cases hb : dyb = 0 <;> simp [cdiv, ha, hb]
      · by_cases hb : dyb = 0
        · simp [cdiv, ha, hb]
        · simp only [cdiv, if_neg ha, if_neg hb]
          have e1 : (if i16 (xb + Int.tdiv sb dyb) > i16 (xa + Int.tdiv sa dya)
                then i16 (xa + Int.tdiv sa dya) else i16 (xb + Int.tdiv sb dyb))
              = (if i16 (xa + Int.tdiv sa dya) > i16 (xb + Int.tdiv sb dyb)
                then i16 (xb + Int.tdiv sb dyb) else i16 (xa + Int.tdiv sa dya)) := by
            split_ifs <;> omega
          have e2 : (if i16 (xb + Int.tdiv sb dyb) > i16 (xa + Int.tdiv sa dya)
                then i16 (xb + Int.tdiv sb dyb) else i16 (xa + Int.tdiv sa dya))
              = (if i16 (xa + Int.tdiv sa dya) > i16 (xb + Int.tdiv sb dyb)
                then i16 (xa + Int.tdiv sa dya) else i16 (xb + Int.tdiv sb dyb)) := by
            split_ifs <;> omega
          rw [e1, e2]
          exact ih _ _ _ _
    · rw [if_neg hy, if_neg hy]

/-- A scanline loop with nonzero edge heights whose bound is 32767 or more
never ends: the `int16_t` counter `y` cannot pass the bound. -/
theorem fillTriangleLoop_runsOn (xa dxa dya xb dxb dyb last : Int) (color : Nat)
    (ha : dya ≠ 0) (hb : dyb ≠ 0) (hlast : 32767 ≤ last) (n : Nat) :
    ∀ (y sa sb : Int) (sBuffer : Buffer), y ≤ 32767 →
      fillTriangleLoop xa dxa dya xb dxb dyb last color n y sa sb sBuffer = Outcome.runsOn := by
  induction n with
  | zero =>
    intro y sa sb sBuffer hy
    rw [fillTriangleLoop, if_pos (by omega)]
  | succ n ih =>
    intro y sa sb sBuffer hy
    rw [fillTriangleLoop, if_pos (by omega)]
    simp only [cdiv, if_neg ha, if_neg hb]
    exact ih _ _ _ _ (by unfold i16; omega)
/-! ## Filled triangles: independence of the argument order -/

/-- The body of `fillTriangle` does not change when its first two vertices,
of equal `y`, are exchanged. -/
theorem fillTriangleSorted_swap01 (x0 y0 x1 y1 x2 y2 : Int) (color : Nat) (sBuffer : Buffer)
    (h : y0 = y1) :
    fillTriangleSorted x1 y1 x0 y0 x2 y2 color sBuffer
      = fillTriangleSorted x0 y0 x1 y1 x2 y2 color sBuffer := by
  subst h
  unfold fillTriangleSorted
  by_cases hall : y0 = y2
  · simp only [if_pos hall]
    have ea : (if x2 < (if x0 < x1 then x0 else x1) then x2 else (if x0 < x1 then x0 else x1))
        = (if x2 < (if x1 < x0 then x1 else x0) then x2 else (if x1 < x0 then x1 else x0)) := by
      split_ifs <;> omega
    have eb : (if x2 < (if x0 < x1 then x0 else x1) then
          (if x0 < x1 then x1 else if x0 > x1 then x0 else x1)
        else if x2 > (if x0 < x1 then x1 else if x0 > x1 then x0 else x1) then x2
        else (if x0 < x1 then x1 else if x0 > x1 then x0 else x1))
        = (if x2 < (if x1 < x0 then x1 else x0) then
          (if x1 < x0 then x0 else if x1 > x0 then x1 else x0)
        else if x2 > (if x1 < x0 then x0 else if x1 > x0 then x1 else x0) then x2
        else (if x1 < x0 then x0 else if x1 > x0 then x1 else x0)) := by
      split_ifs <;> omega
    rw [ea, eb]
  · simp only [if_neg hall, sub_self, mul_zero, i16_zero]
    by_cases hy : y0 ≤ i16 (y0 - 1)
    · rw [fillTriangleLoop_dividesByZero _ _ _ _ _ _ _ _ 65535 _ _ _ _ hy (Or.inl rfl),
        fillTriangleLoop_dividesByZero _ _ _ _ _ _ _ _ 65535 _ _ _ _ hy (Or.inl rfl)]
    · rw [fillTriangleLoop_skip _ _ _ _ _ _ _ _ _ _ _ _ _ hy,
        fillTriangleLoop_skip _ _ _ _ _ _ _ _ _ _ _ _ _ hy]
      simp only [sub_self, mul_zero, i16_zero]
      rw [fillTriangleLoop_swap]

/-- The body of `fillTriangle` does not change when its last two vertices, of
equal `y`, are exchanged. -/
theorem fillTriangleSorted_swap12 (x0 y0 x1 y1 x2 y2 : Int) (color : Nat) (sBuffer : Buffer)
    (h : y1 = y2) :
    fillTriangleSorted x0 y0 x2 y2 x1 y1 color sBuffer
      = fillTriangleSorted x0 y0 x1 y1 x2 y2 color sBuffer := by
  subst h
  unfold fillTriangleSorted
  by_cases hall : y0 = y1
  · simp only [if_pos hall]
    have ea : (if x1 < (if x2 < x0 then x2 else x0) then x1 else (if x2 < x0 then x2 else x0))
        = (if x2 < (if x1 < x0 then x1 else x0) then x2 else (if x1 < x0 then x1 else x0)) := by
      split_ifs <;> omega
    have eb : (if x1 < (if x2 < x0 then x2 else x0) then
          (if x2 < x0 then x0 else if x2 > x0 then x2 else x0)
        else if x1 > (if x2 < x0 then x0 else if x2 > x0 then x2 else x0) then x1
        else (if x2 < x0 then x0 else if x2 > x0 then x2 else x0))
        = (if x2 < (if x1 < x0 then x1 else x0) then
          (if x1 < x0 then x0 else if x1 > x0 then x1 else x0)
        else if x2 > (if x1 < x0 then x0 else if x1 > x0 then x1 else x0) then x2
        else (if x1 < x0 then x0 else if x1 > x0 then x1 else x0)) := by
      split_ifs <;> omega
    rw [ea, eb]
  · simp only [if_neg hall, if_true]
    rw [fillTriangleLoop_swap x0 (i16 (x1 - x0)) (i16 (y1 - y0)) x0 (i16 (x2 - x0))
      (i16 (y1 - y0))]
    cases hl : fillTriangleLoop x0 (i16 (x1 - x0)) (i16 (y1 - y0)) x0 (i16 (x2 - x0))
        (i16 (y1 - y0)) y1 color 65536 y0 0 0 sBuffer with
    | returns r =>
      have hexit := fillTriangleLoop_exit _ _ _ _ _ _ _ _ _ _ _ _ _ r hl
      obtain ⟨y, sBuffer1⟩ := r
      simp only
      rw [fillTriangleLoop_skip _ _ _ _ _ _ _ _ _ _ _ _ _ hexit,
        fillTriangleLoop_skip _ _ _ _ _ _ _ _ _ _ _ _ _ hexit]
    | dividesByZero => rfl
    | runsOn => rfl

/-- `fillTriangle` does not change when its first two vertices are
exchanged. -/
theorem fillTriangle_swap01 (x0 y0 x1 y1 x2 y2 : Int) (color : Nat) (sBuffer : Buffer) :
    fillTriangle x1 y1 x0 y0 x2 y2 color sBuffer
      = fillTriangle x0 y0 x1 y1 x2 y2 color sBuffer := by
  unfold fillTriangle fillTriangleSort2 fillTriangleSort3
  split_ifs <;> first
    | rfl
    | omega
    | exact fillTriangleSorted_swap01 _ _ _ _ _ _ _ _ (by omega)
    | exact fillTriangleSorted_swap12 _ _ _ _ _ _ _ _ (by omega)

/-- `fillTriangle` does not change when its last two vertices are
exchanged. -/
theorem fillTriangle_swap12 (x0 y0 x1 y1 x2 y2 : Int) (color : Nat) (sBuffer : Buffer) :
    fillTriangle x0 y0 x2 y2 x1 y1 color sBuffer
      = fillTriangle x0 y0 x1 y1 x2 y2 color sBuffer := by
  unfold fillTriangle fillTriangleSort2 fillTriangleSort3
  split_ifs <;> first
    | rfl
    | omega
    | exact fillTriangleSorted_swap01 _ _ _ _ _ _ _ _ (by omega)
    | exact fillTriangleSorted_swap12 _ _ _ _ _ _ _ _ (by omega)

/-- On vertices sorted by `y`, with every `y` strictly inside the range of
`int16_t`, the body of `fillTriangle` returns a buffer: no loop divides by
zero and both loops end. -/
theorem fillTriangleSorted_returns (x0 y0 x1 y1 x2 y2 : Int) (color : Nat) (sBuffer : Buffer)
    (h01 : y0 ≤ y1) (h12 : y1 ≤ y2) (hlo : -32768 < y0) (hhi : y2 < 32767) :
    ∃ sBuffer1, fillTriangleSorted x0 y0 x1 y1 x2 y2 color sBuffer
      = Outcome.returns sBuffer1 := by
  unfold fillTriangleSorted
  by_cases hall : y0 = y2
  · rw [if_pos hall]
    exact ⟨_, rfl⟩
  · rw [if_neg hall]
    have hd02 : i16 (y2 - y0) ≠ 0 := fun h =>
      hall (i16_sub_eq_zero y2 y0 (by omega) (by omega) h).symm
    by_cases h1 : y1 = y2
    · have hd01 : i16 (y1 - y0) ≠ 0 := fun h =>
        hall (h1 ▸ (i16_sub_eq_zero y1 y0 (by omega) (by omega) h).symm)
      obtain ⟨sBuffer1, hb1⟩ := fillTriangleLoop_returns x0 (i16 (x1 - x0)) (i16 (y1 - y0)) x0
        (i16 (x2 - x0)) (i16 (y2 - y0)) y1 color hd01 hd02 (by omega) 65536 y0 0 0 sBuffer
        (by omega) (by omega) (by omega)
      simp only [if_pos h1, hb1]
      rw [fillTriangleLoop_skip _ _ _ _ _ _ _ _ _ _ _ _ _ (by omega)]
      exact ⟨_, rfl⟩
    · have hd12 : i16 (y2 - y1) ≠ 0 := fun h =>
        h1 (i16_sub_eq_zero y2 y1 (by omega) (by omega) h).symm
      have elast : i16 (y1 - 1) = y1 - 1 := i16_of_range _ (by omega) (by omega)
      simp only [if_neg h1, elast]
      by_cases h0 : y0 = y1
      · rw [fillTriangleLoop_skip _ _ _ _ _ _ _ _ _ _ _ _ _ (by omega)]
        simp only
        obtain ⟨sBuffer2, hb2⟩ := fillTriangleLoop_returns x1 (i16 (x2 - x1)) (i16 (y2 - y1)) x0
          (i16 (x2 - x0)) (i16 (y2 - y0)) y2 color hd12 hd02 (by omega) 65536 y0
          (i16 (i16 (x2 - x1) * (y0 - y1))) (i16 (i16 (x2 - x0) * (y0 - y0))) sBuffer
          (by omega) (by omega) (by omega)
        rw [hb2]
        exact ⟨_, rfl⟩
      · have hd01 : i16 (y1 - y0) ≠ 0 := fun h =>
          h0 (i16_sub_eq_zero y1 y0 (by omega) (by omega) h).symm
        obtain ⟨sBuffer1, hb1⟩ := fillTriangleLoop_returns x0 (i16 (x1 - x0)) (i16 (y1 - y0))
          x0 (i16 (x2 - x0)) (i16 (y2 - y0)) (y1 - 1) color hd01 hd02 (by omega) 65536 y0 0 0
          sBuffer (by omega) (by omega) (by omega)
        rw [hb1]
        simp only
        obtain ⟨sBuffer2, hb2⟩ := fillTriangleLoop_returns x1 (i16 (x2 - x1)) (i16 (y2 - y1)) x0
          (i16 (x2 - x0)) (i16 (y2 - y0)) y2 color hd12 hd02 (by omega) 65536 (y1 - 1 + 1)
          (i16 (i16 (x2 - x1) * (y1 - 1 + 1 - y1))) (i16 (i16 (x2 - x0) * (y1 - 1 + 1 - y0)))
          sBuffer1 (by omega) (by omega) (by omega)
        rw [hb2]
        exact ⟨_, rfl⟩

/-- With every `y` strictly inside the range of `int16_t`, `fillTriangle`
returns a buffer. -/
theorem fillTriangle_returns (x0 y0 x1 y1 x2 y2 : Int) (color : Nat) (sBuffer : Buffer)
    (h0 : -32768 < y0 ∧ y0 < 32767) (h1 : -32768 < y1 ∧ y1 < 32767)
    (h2 : -32768 < y2 ∧ y2 < 32767) :
    ∃ sBuffer1, fillTriangle x0 y0 x1 y1 x2 y2 color sBuffer = Outcome.returns sBuffer1 := by
  unfold fillTriangle fillTriangleSort2 fillTriangleSort3
  split_ifs <;>
    exact fillTriangleSorted_returns _ _ _ _ _ _ _ _ (by omega) (by omega) (by omega) (by omega)
/-- C13, as stated, fails: `fillTriangle` divides by zero on the flat-topped
triangle with both upper vertices at `y = -32768`.  No sorting step swaps,
`dy01 = 0`, and `last = y1 - 1` stored to the `int16_t` variable `last` is
`32767`, so the first scanline loop runs and evaluates `sa / dy01`. -/
theorem C13_fillTriangle_flat_top_divides_by_zero (x0 x1 x2 : Int) (color : Nat)
    (sBuffer : Buffer) :
    i16 ((-32768 : Int) - (-32768)) = 0 ∧ i16 ((-32768 : Int) - 1) = 32767
    ∧ fillTriangle x0 (-32768) x1 (-32768) x2 0 color sBuffer = Outcome.dividesByZero := by
  refine ⟨by decide, by decide, ?_⟩
  have h1 : ¬ ((-32768 : Int) > -32768) := by decide
  have h2 : ¬ ((-32768 : Int) > 0) := by decide
  have h3 : ¬ ((-32768 : Int) = 0) := by decide
  have hl : (-32768 : Int) ≤ i16 (-32768 - 1) := by decide
  unfold fillTriangle fillTriangleSort2 fillTriangleSort3 fillTriangleSorted
  simp only [if_neg h1, if_neg h2, if_neg h3]
  rw [fillTriangleLoop_dividesByZero _ _ _ _ _ _ _ _ 65535 _ _ _ _ hl (Or.inl (by decide))]

/-- C19: for every buffer, colour and three vertices, `fillTriangle` ends the
same way and draws the same buffer for all six orderings of the three
vertices; and when every `y` is strictly inside the range of `int16_t`, in
particular for vertices inside the display, it returns a buffer. -/
theorem C19_fillTriangle_order_independent (x0 y0 x1 y1 x2 y2 : Int) (color : Nat)
    (sBuffer : Buffer) :
    (fillTriangle x0 y0 x2 y2 x1 y1 color sBuffer
        = fillTriangle x0 y0 x1 y1 x2 y2 color sBuffer
      ∧ fillTriangle x1 y1 x0 y0 x2 y2 color sBuffer
        = fillTriangle x0 y0 x1 y1 x2 y2 color sBuffer
      ∧ fillTriangle x1 y1 x2 y2 x0 y0 color sBuffer
        = fillTriangle x0 y0 x1 y1 x2 y2 color sBuffer
      ∧ fillTriangle x2 y2 x0 y0 x1 y1 color sBuffer
        = fillTriangle x0 y0 x1 y1 x2 y2 color sBuffer
      ∧ fillTriangle x2 y2 x1 y1 x0 y0 color sBuffer
        = fillTriangle x0 y0 x1 y1 x2 y2 color sBuffer)
    ∧ ((-32768 < y0 ∧ y0 < 32767) → (-32768 < y1 ∧ y1 < 32767) → (-32768 < y2 ∧ y2 < 32767) →
        ∃ sBuffer1, fillTriangle x0 y0 x1 y1 x2 y2 color sBuffer = Outcome.returns sBuffer1) := by
  refine ⟨⟨fillTriangle_swap12 .., fillTriangle_swap01 .., ?_, ?_, ?_⟩,
    fillTriangle_returns x0 y0 x1 y1 x2 y2 color sBuffer⟩
  · rw [fillTriangle_swap12 x1 y1 x0 y0 x2 y2, fillTriangle_swap01]
  · rw [fillTriangle_swap01 x0 y0 x2 y2 x1 y1, fillTriangle_swap12]
  · rw [fillTriangle_swap01 x1 y1 x2 y2 x0 y0, fillTriangle_swap12 x1 y1 x0 y0 x2 y2,
      fillTriangle_swap01]

/-- Witness for C19: the triangle `(10, 5), (40, 30), (20, 50)` inside the
display, on the all-zero buffer. -/
theorem C19_fillTriangle_order_independent_witness :
    (∃ sBuffer1, fillTriangle 10 5 40 30 20 50 WHITE (fun _ => 0) = Outcome.returns sBuffer1)
    ∧ fillTriangle 20 50 40 30 10 5 WHITE (fun _ => 0)
        = fillTriangle 10 5 40 30 20 50 WHITE (fun _ => 0) :=
  have h := C19_fillTriangle_order_independent 10 5 40 30 20 50 WHITE (fun _ => 0)
  ⟨h.2 (by decide) (by decide) (by decide), h.1.2.2.2.2⟩

/-! ## Circles: the midpoint recurrence -/

theorem midpointInit_inv (r : Nat) : MidpointInv r (midpointInit r) := by
  unfold MidpointInv midpointInit
  simp only
  refine ⟨by ring, by norm_num, trivial, le_refl _, by omega, by omega, le_refl _, ?_, ?_, ?_⟩
  · have : (0 : Int) ^ 2 + (r : Int) ^ 2 - (r : Int) ^ 2 = 0 := by ring
    omega
  · have : (0 : Int) ^ 2 + (r : Int) ^ 2 - (r : Int) ^ 2 = 0 := by ring
    omega
  · intro _
    have : (0 : Int) ^ 2 + (r : Int) ^ 2 - (r : Int) ^ 2 = 0 := by ring
    omega

theorem midpointStep_inv (r : Int) (s : Midpoint) (h : MidpointInv r s) (hlt : s.x < s.y) :
    MidpointInv r (midpointStep s) ∧ 1 ≤ (midpointStep s).x := by
  obtain ⟨hf, hdx, hdy, hx0, hxr, hy0, hyr, hlo, hhi, hloop⟩ := h
  obtain ⟨hlo', hhi'⟩ := hloop hlt
  unfold MidpointInv midpointStep
  by_cases hfz : s.f ≥ 0
  · simp only [if_pos hfz]
    have e1 : (s.x + 1) ^ 2 + (s.y - 1) ^ 2 - r ^ 2
        = (s.x ^ 2 + s.y ^ 2 - r ^ 2) + 2 * s.x + 2 - 2 * s.y := by ring
    have e3 : s.f = (s.x ^ 2 + s.y ^ 2 - r ^ 2) + 2 * s.x + 1 - s.y := by rw [hf]; ring
    refine ⟨⟨?_, ?_, ?_, by omega, by omega, by omega, by omega, ?_, ?_, ?_⟩, by omega⟩
    · linear_combination hf + hdy + hdx
    · linear_combination hdx
    · linear_combination hdy
    · rw [e1]; omega
    · rw [e1]; omega
    · intro _
      rw [e1]; omega
  · simp only [if_neg hfz]
    have e1 : (s.x + 1) ^ 2 + s.y ^ 2 - r ^ 2
        = (s.x ^ 2 + s.y ^ 2 - r ^ 2) + 2 * s.x + 1 := by ring
    have e3 : s.f = (s.x ^ 2 + s.y ^ 2 - r ^ 2) + 2 * s.x + 1 - s.y := by rw [hf]; ring
    refine ⟨⟨?_, ?_, hdy, by omega, by omega, by omega, by omega, ?_, ?_, ?_⟩, by omega⟩
    · linear_combination hf + hdx
    · linear_combination hdx
    · rw [e1]; omega
    · rw [e1]; omega
    · intro _
      rw [e1]; omega

/-- Every state the loop reaches satisfies the invariant. -/
theorem midpointTrace_inv (r : Int) (n : Nat) :
    ∀ s : Midpoint, MidpointInv r s → ∀ s' ∈ midpointTrace n s, MidpointInv r s' ∧ 1 ≤ s'.x := by
  induction n with
  | zero => intro s _ s' hs'; simp [midpointTrace] at hs'
  | succ n ih =>
    intro s hs s' hs'
    simp only [midpointTrace] at hs'
    by_cases hlt : s.x < s.y
    · rw [if_pos hlt] at hs'
      have hstep := midpointStep_inv r s hs hlt
      rcases List.mem_cons.mp hs' with rfl | hmem
      · exact hstep
      · exact ih _ hstep.1 s' hmem
    · rw [if_neg hlt] at hs'
      simp at hs'

/-- The bound `r` on the number of iterations is enough: when `y - x` is at
most the bound the loop has ended by itself, so a larger bound gives the same
trace. -/
theorem midpointTrace_fuel (n : Nat) :
    ∀ (s : Midpoint) (k : Nat), s.y - s.x ≤ n → midpointTrace (n + k) s = midpointTrace n s := by
  induction n with
  | zero =>
    intro s k h
    cases k with
    | zero => rfl
    | succ k =>
      have : ¬ s.x < s.y := by omega
      simp [midpointTrace, this]
  | succ n ih =>
    intro s k h
    have e : n + 1 + k = (n + k) + 1 := by omega
    rw [e]
    simp only [midpointTrace]
    by_cases hlt : s.x < s.y
    · rw [if_pos hlt, if_pos hlt, ih]
      unfold midpointStep
      simp only
      split <;> omega
    · rw [if_neg hlt, if_neg hlt]
theorem offsets_near_circle (r a b dx dy : Int) (ha : 0 ≤ a ∧ a ≤ r) (hb : 0 ≤ b ∧ b ≤ r)
    (hD : -r ≤ a ^ 2 + b ^ 2 - r ^ 2 ∧ a ^ 2 + b ^ 2 - r ^ 2 ≤ r)
    (hdx : dx = a ∨ dx = -a) (hdy : dy = b ∨ dy = -b) :
    |dx| ≤ r ∧ |dy| ≤ r ∧ |dx ^ 2 + dy ^ 2 - r ^ 2| ≤ r := by
  have e1 : dx ^ 2 = a ^ 2 := by rcases hdx with h | h <;> (subst h; ring)
  have e2 : dy ^ 2 = b ^ 2 := by rcases hdy with h | h <;> (subst h; ring)
  rw [e1, e2]
  refine ⟨abs_le.mpr ?_, abs_le.mpr ?_, abs_le.mpr hD⟩
  · rcases hdx with h | h <;> rw [h] <;> constructor <;> omega
  · rcases hdy with h | h <;> rw [h] <;> constructor <;> omega

/-- C18: every pixel `drawCircle` plots, at offset `(dx, dy)` from the centre,
satisfies `|dx| ≤ r`, `|dy| ≤ r` and `|dx² + dy² - r²| ≤ r`; the loop ends within
`r` iterations. -/
theorem C18_drawCircle_points_near_circle (safe : Bool) (x0 y0 : Int) (r : Nat) (color : Nat)
    (sBuffer : Buffer) (p : Int × Int) (hp : p ∈ drawCirclePoints x0 y0 r) :
    drawCircle safe x0 y0 r color sBuffer = plot safe color (drawCirclePoints x0 y0 r) sBuffer
    ∧ (∀ k, midpointTrace (r + k) (midpointInit r) = midpointTrace r (midpointInit r))
    ∧ |p.1 - x0| ≤ r ∧ |p.2 - y0| ≤ r
    ∧ |(p.1 - x0) ^ 2 + (p.2 - y0) ^ 2 - (r : Int) ^ 2| ≤ r := by
  refine ⟨rfl, fun k => midpointTrace_fuel r (midpointInit r) k (by simp [midpointInit]), ?_⟩
  have hr0 : (0 : Int) ≤ r := Int.ofNat_nonneg r
  have hD0 : -(r : Int) ≤ 0 ^ 2 + (r : Int) ^ 2 - (r : Int) ^ 2
      ∧ 0 ^ 2 + (r : Int) ^ 2 - (r : Int) ^ 2 ≤ r := by
    have : (0 : Int) ^ 2 + (r : Int) ^ 2 - (r : Int) ^ 2 = 0 := by ring
    omega
  have hD0' : -(r : Int) ≤ (r : Int) ^ 2 + 0 ^ 2 - (r : Int) ^ 2
      ∧ (r : Int) ^ 2 + 0 ^ 2 - (r : Int) ^ 2 ≤ r := by
    have : (r : Int) ^ 2 + 0 ^ 2 - (r : Int) ^ 2 = 0 := by ring
    omega
  unfold drawCirclePoints at hp
  rcases List.mem_append.mp hp with hcard | hoct
  · simp only [List.mem_cons, List.mem_singleton, List.not_mem_nil, or_false] at hcard
    rcases hcard with rfl | rfl | rfl | rfl
    · exact offsets_near_circle r 0 r _ _ ⟨le_refl _, hr0⟩ ⟨hr0, le_refl _⟩ hD0
        (Or.inl (by simp)) (Or.inl (by simp))
    · exact offsets_near_circle r 0 r _ _ ⟨le_refl _, hr0⟩ ⟨hr0, le_refl _⟩ hD0
        (Or.inl (by simp)) (Or.inr (by simp))
    · exact offsets_near_circle r r 0 _ _ ⟨hr0, le_refl _⟩ ⟨le_refl _, hr0⟩ hD0'
        (Or.inl (by simp)) (Or.inl (by simp))
    · exact offsets_near_circle r r 0 _ _ ⟨hr0, le_refl _⟩ ⟨le_refl _, hr0⟩ hD0'
        (Or.inr (by simp)) (Or.inl (by simp))
  · obtain ⟨s, hs, hps⟩ := List.mem_flatMap.mp hoct
    obtain ⟨⟨_, _, _, hx0, hxr, hy0, hyr, hlo, hhi, _⟩, _⟩ :=
      midpointTrace_inv r r (midpointInit r) (midpointInit_inv r) s hs
    have hD' : -(r : Int) ≤ s.y ^ 2 + s.x ^ 2 - (r : Int) ^ 2
        ∧ s.y ^ 2 + s.x ^ 2 - (r : Int) ^ 2 ≤ r := by
      rw [add_comm (s.y ^ 2)]
      exact ⟨hlo, hhi⟩
    simp only [circleOctants, List.mem_cons, List.mem_singleton, List.not_mem_nil, or_false]
      at hps
    rcases hps with rfl | rfl | rfl | rfl | rfl | rfl | rfl | rfl
    · exact offsets_near_circle r s.x s.y _ _ ⟨hx0, hxr⟩ ⟨hy0, hyr⟩ ⟨hlo, hhi⟩
        (Or.inl (by simp)) (Or.inl (by simp))
    · exact offsets_near_circle r s.x s.y _ _ ⟨hx0, hxr⟩ ⟨hy0, hyr⟩ ⟨hlo, hhi⟩
        (Or.inr (by simp)) (Or.inl (by simp))
    · exact offsets_near_circle r s.x s.y _ _ ⟨hx0, hxr⟩ ⟨hy0, hyr⟩ ⟨hlo, hhi⟩
        (Or.inl (by simp)) (Or.inr (by simp))
    · exact offsets_near_circle r s.x s.y _ _ ⟨hx0, hxr⟩ ⟨hy0, hyr⟩ ⟨hlo, hhi⟩
        (Or.inr (by simp)) (Or.inr (by simp))
    · exact offsets_near_circle r s.y s.x _ _ ⟨hy0, hyr⟩ ⟨hx0, hxr⟩ hD'
        (Or.inl (by simp)) (Or.inl (by simp))
    · exact offsets_near_circle r s.y s.x _ _ ⟨hy0, hyr⟩ ⟨hx0, hxr⟩ hD'
        (Or.inr (by simp)) (Or.inl (by simp))
    · exact offsets_near_circle r s.y s.x _ _ ⟨hy0, hyr⟩ ⟨hx0, hxr⟩ hD'
        (Or.inl (by simp)) (Or.inr (by simp))
    · exact offsets_near_circle r s.y s.x _ _ ⟨hy0, hyr⟩ ⟨hx0, hxr⟩ hD'
        (Or.inr (by simp)) (Or.inr (by simp))

/-- Witness for C18: the pixel `(15, 15)` of the circle of radius 7 around
`(10, 10)`, at offset `(5, 5)` with `5² + 5² - 7² = 1`. -/
theorem C18_drawCircle_points_near_circle_witness :
    ((15 : Int), (15 : Int)) ∈ drawCirclePoints 10 10 7
    ∧ |((15 : Int), (15 : Int)).1 - 10| ≤ ((7 : Nat) : Int)
    ∧ |((15 : Int), (15 : Int)).2 - 10| ≤ ((7 : Nat) : Int)
    ∧ |(((15 : Int), (15 : Int)).1 - 10) ^ 2 + (((15 : Int), (15 : Int)).2 - 10) ^ 2
        - ((7 : Nat) : Int) ^ 2| ≤ ((7 : Nat) : Int) :=
  ⟨by decide,
    (C18_drawCircle_points_near_circle false 10 10 7 WHITE (fun _ => 0) (15, 15)
      (by decide)).2.2⟩
/-! ## Pixel sequences, rounded rectangles -/

/-- The pixels left by a sequence of `drawPixel` calls inside the display. -/
theorem getPixel_plot (safe : Bool) (color : Nat) (pts : List (Int × Int)) :
    ∀ (sBuffer : Buffer),
      (∀ p ∈ pts, 0 ≤ p.1 ∧ p.1 < WIDTH ∧ 0 ≤ p.2 ∧ p.2 < HEIGHT) →
      ∀ (i j : Nat), i < WIDTH →
        getPixel (plot safe color pts sBuffer) i j
          = if ((i : Int), (j : Int)) ∈ pts then (if color ≠ 0 then 1 else 0)
            else getPixel sBuffer i j := by
  induction pts with
  | nil => intro sBuffer _ i j _; simp [plot]
  | cons p ps ih =>
    intro sBuffer hpts i j hi
    obtain ⟨hx0, hx1, hy0, hy1⟩ := hpts p (List.mem_cons_self _ _)
    obtain ⟨px, hpx⟩ := Int.eq_ofNat_of_zero_le hx0
    obtain ⟨py, hpy⟩ := Int.eq_ofNat_of_zero_le hy0
    have hp : p = ((px : Int), (py : Int)) := Prod.ext hpx hpy
    have hx1' : px < WIDTH := by rw [hpx] at hx1; exact_mod_cast hx1
    have hy1' : py < HEIGHT := by rw [hpy] at hy1; exact_mod_cast hy1
    rw [plot, ih _ (fun q hq => hpts q (List.mem_cons_of_mem _ hq)) i j hi, hpx, hpy,
      getPixel_drawPixel safe px py color sBuffer hx1' hy1' i j hi]
    by_cases hmem : ((i : Int), (j : Int)) ∈ ps
    · have : ((i : Int), (j : Int)) ∈ p :: ps := List.mem_cons_of_mem _ hmem
      rw [if_pos hmem, if_pos this]
    · rw [if_neg hmem]
      by_cases heq : i = px ∧ j = py
      · have : ((i : Int), (j : Int)) ∈ p :: ps := by
          rw [hp, heq.1, heq.2]
          exact List.mem_cons_self _ _
        rw [if_pos heq, if_pos this]
      · have : ¬ ((i : Int), (j : Int)) ∈ p :: ps := by
          intro h
          rcases List.mem_cons.mp h with h | h
          · rw [hp] at h
            have h1 := congrArg Prod.fst h
            have h2 := congrArg Prod.snd h
            simp only at h1 h2
            exact heq ⟨by exact_mod_cast h1, by exact_mod_cast h2⟩
          · exact hmem h
        rw [if_neg heq, if_neg this]

/-- A sequence of `drawPixel` calls whose points all lie in a region of the
display changes no pixel outside that region. -/
theorem getPixel_plot_outside (safe : Bool) (color : Nat) (pts : List (Int × Int))
    (sBuffer : Buffer) (R : Int → Int → Prop)
    (hpts : ∀ p ∈ pts, (0 ≤ p.1 ∧ p.1 < WIDTH ∧ 0 ≤ p.2 ∧ p.2 < HEIGHT) ∧ R p.1 p.2)
    (i j : Nat) (hi : i < WIDTH) (hout : ¬ R i j) :
    getPixel (plot safe color pts sBuffer) i j = getPixel sBuffer i j := by
  rw [getPixel_plot safe color pts sBuffer (fun p hp => (hpts p hp).1) i j hi]
  have : ¬ ((i : Int), (j : Int)) ∈ pts := fun h => hout (hpts _ h).2
  rw [if_neg this]

/-- The offsets `drawCircleHelper` uses: each pixel it draws lies in the
`r`-square of an enabled quadrant, `x0 ± a, y0 ± b` with `0 ≤ a, b ≤ r`. -/
theorem drawCircleHelperPoints_mem (x0 y0 : Int) (r cornername : Nat) (p : Int × Int)
    (hp : p ∈ drawCircleHelperPoints x0 y0 r cornername) :
    1 ≤ r ∧ ∃ a b : Int, (0 ≤ a ∧ a ≤ r) ∧ (0 ≤ b ∧ b ≤ r)
      ∧ ((cornername &&& 0x4 ≠ 0 ∧ p = (x0 + a, y0 + b))
        ∨ (cornername &&& 0x2 ≠ 0 ∧ p = (x0 + a, y0 - b))
        ∨ (cornername &&& 0x8 ≠ 0 ∧ p = (x0 - a, y0 + b))
        ∨ (cornername &&& 0x1 ≠ 0 ∧ p = (x0 - a, y0 - b))) := by
  obtain ⟨s, hs, hps⟩ := List.mem_flatMap.mp hp
  obtain ⟨⟨_, _, _, hx0, hxr, hy0, hyr, _, _, _⟩, hx1⟩ :=
    midpointTrace_inv r r (midpointInit r) (midpointInit_inv r) s hs
  refine ⟨by omega, ?_⟩
  simp only [circleCorners, List.mem_append] at hps
  rcases hps with ((h4 | h2) | h8) | h1
  · by_cases hc : cornername &&& 0x4 ≠ 0
    · rw [if_pos hc] at h4
      simp only [List.mem_cons, List.mem_singleton, List.not_mem_nil, or_false] at h4
      rcases h4 with rfl | rfl
      · exact ⟨s.x, s.y, ⟨hx0, hxr⟩, ⟨hy0, hyr⟩, Or.inl ⟨hc, rfl⟩⟩
      · exact ⟨s.y, s.x, ⟨hy0, hyr⟩, ⟨hx0, hxr⟩, Or.inl ⟨hc, rfl⟩⟩
    · rw [if_neg hc] at h4
      simp at h4
  · by_cases hc : cornername &&& 0x2 ≠ 0
    · rw [if_pos hc] at h2
      simp only [List.mem_cons, List.mem_singleton, List.not_mem_nil, or_false] at h2
      rcases h2 with rfl | rfl
      · exact ⟨s.x, s.y, ⟨hx0, hxr⟩, ⟨hy0, hyr⟩, Or.inr (Or.inl ⟨hc, rfl⟩)⟩
      · exact ⟨s.y, s.x, ⟨hy0, hyr⟩, ⟨hx0, hxr⟩, Or.inr (Or.inl ⟨hc, rfl⟩)⟩
    · rw [if_neg hc] at h2
      simp at h2
  · by_cases hc : cornername &&& 0x8 ≠ 0
    · rw [if_pos hc] at h8
      simp only [List.mem_cons, List.mem_singleton, List.not_mem_nil, or_false] at h8
      rcases h8 with rfl | rfl
      · exact ⟨s.y, s.x, ⟨hy0, hyr⟩, ⟨hx0, hxr⟩, Or.inr (Or.inr (Or.inl ⟨hc, rfl⟩))⟩
      · exact ⟨s.x, s.y, ⟨hx0, hxr⟩, ⟨hy0, hyr⟩, Or.inr (Or.inr (Or.inl ⟨hc, rfl⟩))⟩
    · rw [if_neg hc] at h8
      simp at h8
  · by_cases hc : cornername &&& 0x1 ≠ 0
    · rw [if_pos hc] at h1
      simp only [List.mem_cons, List.mem_singleton, List.not_mem_nil, or_false] at h1
      rcases h1 with rfl | rfl
      · exact ⟨s.y, s.x, ⟨hy0, hyr⟩, ⟨hx0, hxr⟩, Or.inr (Or.inr (Or.inr ⟨hc, rfl⟩))⟩
      · exact ⟨s.x, s.y, ⟨hx0, hxr⟩, ⟨hy0, hyr⟩, Or.inr (Or.inr (Or.inr ⟨hc, rfl⟩))⟩
    · rw [if_neg hc] at h1
      simp at h1
theorem drawFastHLine_other_color (x y : Int) (w c : Nat) (sBuffer : Buffer)
    (h1 : c ≠ WHITE) (h2 : c ≠ BLACK) : drawFastHLine x y w c sBuffer = sBuffer := by
  unfold drawFastHLine
  simp only [if_neg h1, if_neg h2, ite_self]

/-- A horizontal fast line inside the display changes no pixel off its run,
whatever the colour value. -/
theorem getPixel_drawFastHLine_outside (x y w : Nat) (c : Nat) (sBuffer : Buffer)
    (hxw : x + w ≤ WIDTH) (hy : y < HEIGHT) (i j : Nat) (hi : i < WIDTH)
    (hout : ¬ (x ≤ i ∧ i < x + w ∧ j = y)) :
    getPixel (drawFastHLine x y w c sBuffer) i j = getPixel sBuffer i j := by
  by_cases h1 : c = WHITE
  · rw [getPixel_drawFastHLine x y w c sBuffer hxw hy (Or.inr h1) i j hi, if_neg hout]
  · by_cases h2 : c = BLACK
    · rw [getPixel_drawFastHLine x y w c sBuffer hxw hy (Or.inl h2) i j hi, if_neg hout]
    · rw [drawFastHLine_other_color _ _ _ _ _ h1 h2]

/-- The pixels of the four corner arcs of a rounded rectangle with `2r ≤ w`
and `2r ≤ h` lie inside its box. -/
theorem roundRect_corner_inside (x y w h r : Nat) (hxw : x + w ≤ WIDTH) (hyh : y + h ≤ HEIGHT)
    (hrw : 2 * r ≤ w) (hrh : 2 * r ≤ h) (x0 y0 : Int) (cornername : Nat)
    (hcorner : (cornername = 1 ∧ x0 = (x : Int) + r ∧ y0 = (y : Int) + r)
      ∨ (cornername = 2 ∧ x0 = (x : Int) + w - r - 1 ∧ y0 = (y : Int) + r)
      ∨ (cornername = 4 ∧ x0 = (x : Int) + w - r - 1 ∧ y0 = (y : Int) + h - r - 1)
      ∨ (cornername = 8 ∧ x0 = (x : Int) + r ∧ y0 = (y : Int) + h - r - 1)) :
    ∀ p ∈ drawCircleHelperPoints x0 y0 r cornername,
      (0 ≤ p.1 ∧ p.1 < WIDTH ∧ 0 ≤ p.2 ∧ p.2 < HEIGHT)
      ∧ ((x : Int) ≤ p.1 ∧ p.1 < (x : Int) + w ∧ (y : Int) ≤ p.2 ∧ p.2 < (y : Int) + h) := by
  intro p hp
  have hxw' : x + w ≤ 128 := hxw
  have hyh' : y + h ≤ 64 := hyh
  have hW : (WIDTH : Int) = 128 := rfl
  have hH : (HEIGHT : Int) = 64 := rfl
  obtain ⟨hr1, a, b, ha, hb, hq⟩ := drawCircleHelperPoints_mem x0 y0 r cornername p hp
  rw [hW, hH]
  rcases hcorner with ⟨rfl, rfl, rfl⟩ | ⟨rfl, rfl, rfl⟩ | ⟨rfl, rfl, rfl⟩ | ⟨rfl, rfl, rfl⟩
  · rcases hq with ⟨hc, _⟩ | ⟨hc, _⟩ | ⟨hc, _⟩ | ⟨_, rfl⟩
    · exact absurd hc (by decide)
    · exact absurd hc (by decide)
    · exact absurd hc (by decide)
    · dsimp only; omega
  · rcases hq with ⟨hc, _⟩ | ⟨_, rfl⟩ | ⟨hc, _⟩ | ⟨hc, _⟩
    · exact absurd hc (by decide)
    · dsimp only; omega
    · exact absurd hc (by decide)
    · exact absurd hc (by decide)
  · rcases hq with ⟨_, rfl⟩ | ⟨hc, _⟩ | ⟨hc, _⟩ | ⟨hc, _⟩
    · dsimp only; omega
    · exact absurd hc (by decide)
    · exact absurd hc (by decide)
    · exact absurd hc (by decide)
  · rcases hq with ⟨hc, _⟩ | ⟨hc, _⟩ | ⟨_, rfl⟩ | ⟨hc, _⟩
    · exact absurd hc (by decide)
    · exact absurd hc (by decide)
    · dsimp only; omega
    · exact absurd hc (by decide)

/-- A rounded rectangle with `w, h ≥ 1`, `2r ≤ w` and `2r ≤ h` whose box lies
inside the display changes no pixel outside the box. -/
theorem getPixel_drawRoundRect_outside (safe : Bool) (x y w h r : Nat) (c : Nat)
    (sBuffer : Buffer) (hxw : x + w ≤ WIDTH) (hyh : y + h ≤ HEIGHT) (hw : 1 ≤ w) (hh : 1 ≤ h)
    (hrw : 2 * r ≤ w) (hrh : 2 * r ≤ h) (i j : Nat) (hi : i < WIDTH)
    (hout : ¬ (x ≤ i ∧ i < x + w ∧ y ≤ j ∧ j < y + h)) :
    getPixel (drawRoundRect safe x y w h r c sBuffer) i j = getPixel sBuffer i j := by
  have hxw' : x + w ≤ 128 := hxw
  have hyh' : y + h ≤ 64 := hyh
  have hout' : ¬ ((x : Int) ≤ (i : Int) ∧ (i : Int) < (x : Int) + w
      ∧ (y : Int) ≤ (j : Int) ∧ (j : Int) < (y : Int) + h) := by omega
  have ew : u8 ((w : Int) - 2 * r) = w - 2 * r := by unfold u8; omega
  have eh : u8 ((h : Int) - 2 * r) = h - 2 * r := by unfold u8; omega
  have e1 : (x : Int) + (r : Int) = ((x + r : Nat) : Int) := by omega
  have e2 : (y : Int) + (h : Int) - 1 = ((y + h - 1 : Nat) : Int) := by omega
  have e3 : (y : Int) + (r : Int) = ((y + r : Nat) : Int) := by omega
  have e4 : (x : Int) + (w : Int) - 1 = ((x + w - 1 : Nat) : Int) := by omega
  unfold drawRoundRect drawCircleHelper
  dsimp only
  rw [getPixel_plot_outside safe c _ _
      (fun a b => (x : Int) ≤ a ∧ a < (x : Int) + w ∧ (y : Int) ≤ b ∧ b < (y : Int) + h)
      (roundRect_corner_inside x y w h r hxw hyh hrw hrh _ _ 8
        (Or.inr (Or.inr (Or.inr ⟨rfl, rfl, rfl⟩)))) i j hi hout',
    getPixel_plot_outside safe c _ _
      (fun a b => (x : Int) ≤ a ∧ a < (x : Int) + w ∧ (y : Int) ≤ b ∧ b < (y : Int) + h)
      (roundRect_corner_inside x y w h r hxw hyh hrw hrh _ _ 4
        (Or.inr (Or.inr (Or.inl ⟨rfl, rfl, rfl⟩)))) i j hi hout',
    getPixel_plot_outside safe c _ _
      (fun a b => (x : Int) ≤ a ∧ a < (x : Int) + w ∧ (y : Int) ≤ b ∧ b < (y : Int) + h)
      (roundRect_corner_inside x y w h r hxw hyh hrw hrh _ _ 2
        (Or.inr (Or.inl ⟨rfl, rfl, rfl⟩))) i j hi hout',
    getPixel_plot_outside safe c _ _
      (fun a b => (x : Int) ≤ a ∧ a < (x : Int) + w ∧ (y : Int) ≤ b ∧ b < (y : Int) + h)
      (roundRect_corner_inside x y w h r hxw hyh hrw hrh _ _ 1
        (Or.inl ⟨rfl, rfl, rfl⟩)) i j hi hout']
  rw [ew, eh, e1, e2, e3, e4,
    getPixel_drawFastVLine safe (x + w - 1) (y + r) (h - 2 * r) c _ (by omega) (by omega) i j hi,
    getPixel_drawFastVLine safe x (y + r) (h - 2 * r) c _ (by omega) (by omega) i j hi,
    getPixel_drawFastHLine_outside (x + r) (y + h - 1) (w - 2 * r) c _ (by omega) (by omega)
      i j hi (by omega),
    getPixel_drawFastHLine_outside (x + r) y (w - 2 * r) c _ (by omega) (by omega)
      i j hi (by omega)]
  split_ifs <;> first | rfl | omega
/-- C16, as stated, fails for a degenerate radius: on a cleared buffer
`drawRoundRect(10, 10, 4, 4, 5, WHITE)`, whose box is `[10,14) × [10,14)`, sets
pixel `(10, 9)`, which its bottom-left corner arc (centre `(15, 8)`) reaches. -/
theorem C16_drawRoundRect_degenerate_radius_escapes :
    getPixel (clear (fun _ => 0)) 10 9 = 0
    ∧ ¬ (10 ≤ 10 ∧ 10 < 10 + 4 ∧ 10 ≤ 9 ∧ 9 < 10 + 4)
    ∧ getPixel (drawRoundRect false 10 10 4 4 5 WHITE (clear (fun _ => 0))) 10 9 = 1 := by
  refine ⟨by decide, by decide, ?_⟩
  unfold drawRoundRect drawCircleHelper
  dsimp only
  rw [getPixel_plot false WHITE _ _ (by decide) 10 9 (by decide)]
  decide

/-- C16, amended: for every buffer and every box `[x, x+w) × [y, y+h)` inside the
display with `w ≥ 1`, `h ≥ 1`, `2r ≤ w` and `2r ≤ h`, `drawRoundRect(x, y, w, h, r, c)`
changes no pixel outside the box. -/
theorem C16_drawRoundRect_inside_box (safe : Bool) (sBuffer : Buffer) (c : Nat) (x y : Int)
    (w h r : Nat) (hx0 : 0 ≤ x) (hxw : x + w ≤ WIDTH) (hy0 : 0 ≤ y) (hyh : y + h ≤ HEIGHT)
    (hw : 1 ≤ w) (hh : 1 ≤ h) (hrw : 2 * r ≤ w) (hrh : 2 * r ≤ h)
    (i j : Nat) (hi : i < WIDTH) (hj : j < HEIGHT)
    (hout : ¬ (x ≤ i ∧ i < x + w ∧ y ≤ j ∧ j < y + h)) :
    getPixel (drawRoundRect safe x y w h r c sBuffer) i j = getPixel sBuffer i j := by
  obtain ⟨x, rfl⟩ := Int.eq_ofNat_of_zero_le hx0
  obtain ⟨y, rfl⟩ := Int.eq_ofNat_of_zero_le hy0
  have hj' : j < 64 := hj
  exact getPixel_drawRoundRect_outside safe x y w h r c sBuffer (by exact_mod_cast hxw)
    (by exact_mod_cast hyh) hw hh hrw hrh i j hi (by omega)

/-- Witness for C16 (amended): `drawRoundRect(2, 2, 16, 12, 4, WHITE)` leaves the
pixel `(1, 5)`, left of its box, untouched. -/
theorem C16_drawRoundRect_inside_box_witness :
    getPixel (drawRoundRect false 2 2 16 12 4 WHITE (clear (fun _ => 0))) 1 5
      = getPixel (clear (fun _ => 0)) 1 5 :=
  C16_drawRoundRect_inside_box false (clear (fun _ => 0)) WHITE 2 2 16 12 4 (by decide)
    (by decide) (by decide) (by decide) (by decide) (by decide) (by decide) (by decide)
    1 5 (by decide) (by decide) (by decide)

/-! ## Lines of any slope -/

/-- The loop of `drawLine` is the plot of its trace. -/
theorem drawLineLoop_eq_plot (safe steep : Bool) (dx dy ystep : Int) (color : Nat) (n : Nat) :
    ∀ (x0 y0 err : Int) (sBuffer : Buffer),
      drawLineLoop safe steep dx dy ystep color n x0 y0 err sBuffer
        = plot safe color
            ((drawLineTrace dx dy ystep n x0 y0 err).map
              fun p => if steep = true then (p.2, p.1) else p) sBuffer := by
  induction n with
  | zero => intro x0 y0 err sBuffer; rfl
  | succ n ih =>
    intro x0 y0 err sBuffer
    rw [drawLineLoop, drawLineTrace]
    by_cases h : err - dy < 0
    · rw [if_pos h, if_pos h, ih, List.map_cons, plot]
      cases steep <;> rfl
    · rw [if_neg h, if_neg h, ih, List.map_cons, plot]
      cases steep <;> rfl

/-- The function `drawLine` is the plot of `drawLinePoints`. -/
theorem drawLine_eq_plot (safe : Bool) (x0 y0 x1 y1 : Int) (color : Nat) (sBuffer : Buffer) :
    drawLine safe x0 y0 x1 y1 color sBuffer
      = plot safe color (drawLinePoints x0 y0 x1 y1) sBuffer := by
  unfold drawLine drawLinePoints
  exact drawLineLoop_eq_plot _ _ _ _ _ _ _ _ _ _ _

/-- The major coordinates of the trace are consecutive. -/
theorem drawLineTrace_fst (dx dy ystep : Int) (n : Nat) :
    ∀ (x0 y0 err : Int),
      (drawLineTrace dx dy ystep n x0 y0 err).map Prod.fst
        = (List.range n).map fun k : Nat => x0 + (k : Int) := by
  induction n with
  | zero => intro x0 y0 err; rfl
  | succ n ih =>
    intro x0 y0 err
    rw [drawLineTrace, List.range_succ_eq_map]
    have hf : ((fun k : Nat => x0 + (k : Int)) ∘ Nat.succ) = fun k : Nat => x0 + 1 + (k : Int) := by
      funext k
      simp only [Function.comp, Nat.succ_eq_add_one]
      push_cast
      ring
    simp only [List.map_cons, List.map_map, hf]
    congr 1
    · simp
    · split_ifs <;> exact ih _ _ _

/-- The start of the trace. -/
theorem drawLineTrace_head (dx dy ystep : Int) (n : Nat) (x0 y0 err : Int)
    (p : Int × Int) (hp : p ∈ drawLineTrace dx dy ystep n x0 y0 err) (h1 : p.1 = x0) :
    p.2 = y0 := by
  cases n with
  | zero => simp [drawLineTrace] at hp
  | succ n =>
    rw [drawLineTrace] at hp
    rcases List.mem_cons.1 hp with h | h
    · rw [h]
    · exfalso
      have hm : p.1 ∈ (List.range n).map fun k : Nat => x0 + 1 + (k : Int) := by
        split_ifs at h
        all_goals
          rw [← drawLineTrace_fst]
          exact List.mem_map_of_mem Prod.fst h
      obtain ⟨k, _, hk⟩ := List.mem_map.1 hm
      omega

/-- Between two consecutive major coordinates the minor coordinate of the
trace stays or moves by `ystep`. -/
theorem drawLineTrace_step (dx dy ystep : Int) (n : Nat) :
    ∀ (x0 y0 err : Int) (p q : Int × Int),
      p ∈ drawLineTrace dx dy ystep n x0 y0 err →
      q ∈ drawLineTrace dx dy ystep n x0 y0 err →
      q.1 = p.1 + 1 → q.2 = p.2 ∨ q.2 = p.2 + ystep := by
  induction n with
  | zero => intro x0 y0 err p q hp; simp [drawLineTrace] at hp
  | succ n ih =>
    intro x0 y0 err p q hp hq hpq
    rw [drawLineTrace] at hp hq
    have hge : ∀ (y e : Int) (t : Int × Int),
        t ∈ drawLineTrace dx dy ystep n (x0 + 1) y e → x0 + 1 ≤ t.1 := by
      intro y e t ht
      have hm := List.mem_map_of_mem Prod.fst ht
      rw [drawLineTrace_fst] at hm
      obtain ⟨k, _, hk⟩ := List.mem_map.1 hm
      omega
    rcases List.mem_cons.1 hp with hp | hp <;> rcases List.mem_cons.1 hq with hq | hq
    · rw [hp, hq] at hpq
      simp at hpq
    · rw [hp] at hpq ⊢
      simp only at hpq ⊢
      split_ifs at hq
      · right; exact drawLineTrace_head _ _ _ _ _ _ _ _ hq hpq
      · left; exact drawLineTrace_head _ _ _ _ _ _ _ _ hq hpq
    · exfalso
      rw [hq] at hpq
      simp only at hpq
      split_ifs at hp <;> have := hge _ _ _ hp <;> omega
    · split_ifs at hp hq <;> exact ih _ _ _ _ _ hp hq hpq
/-- The accumulator invariant of the loop of `drawLine`: when the loop reaches
a point, the minor coordinate has moved `m` times and the accumulator is the
initial one minus `dy` per major step plus `dx` per minor step, in `[0, dx)`. -/
theorem drawLineTrace_inv (dx dy ystep : Int) (hdy0 : 0 ≤ dy) (hdy : dy ≤ dx) (n : Nat) :
    ∀ (x0 y0 err : Int), 0 ≤ err → (err < dx ∨ dy = 0) →
      ∀ p ∈ drawLineTrace dx dy ystep n x0 y0 err,
        ∃ m e : Int, 0 ≤ m ∧ p.2 = y0 + m * ystep ∧ e = err - (p.1 - x0) * dy + m * dx
          ∧ 0 ≤ e ∧ (e < dx ∨ dy = 0) ∧ (dy = 0 → m = 0) := by
  induction n with
  | zero => intro x0 y0 err _ _ p hp; simp [drawLineTrace] at hp
  | succ n ih =>
    intro x0 y0 err he0 he1 p hp
    rw [drawLineTrace] at hp
    rcases List.mem_cons.1 hp with hp | hp
    · subst hp
      exact ⟨0, err, le_refl _, by simp, by simp, he0, he1, fun _ => rfl⟩
    · by_cases h : err - dy < 0
      · rw [if_pos h] at hp
        obtain ⟨m, e, hm, h2, h3, h4, h5, h6⟩ :=
          ih (x0 + 1) (y0 + ystep) (err - dy + dx) (by omega) (by omega) p hp
        refine ⟨m + 1, e, by omega, ?_, ?_, h4, h5, fun h0 => by omega⟩
        · rw [h2]; ring
        · rw [h3]; ring
      · rw [if_neg h] at hp
        obtain ⟨m, e, hm, h2, h3, h4, h5, h6⟩ :=
          ih (x0 + 1) y0 (err - dy) (by omega) (by omega) p hp
        refine ⟨m, e, hm, h2, ?_, h4, h5, h6⟩
        rw [h3]; ring

/-- The minor coordinate along the whole trace of a line: it moves at most `dy`
times, and exactly `dy` times when the major coordinate has moved `dx` times. -/
theorem drawLineTrace_minor (dx dy ystep : Int) (hdy0 : 0 ≤ dy) (hdy : dy ≤ dx)
    (x0 y0 : Int) (p : Int × Int)
    (hp : p ∈ drawLineTrace dx dy ystep (dx + 1).toNat x0 y0 (Int.tdiv dx 2)) :
    x0 ≤ p.1 ∧ p.1 ≤ x0 + dx ∧
    ∃ m : Int, 0 ≤ m ∧ m ≤ dy ∧ p.2 = y0 + m * ystep ∧ (p.1 = x0 + dx → m = dy) := by
  have hdx0 : 0 ≤ dx := le_trans hdy0 hdy
  have he : Int.tdiv dx 2 = dx / 2 := Int.tdiv_eq_ediv hdx0 (by norm_num)
  rw [he] at hp
  have hm := List.mem_map_of_mem Prod.fst hp
  rw [drawLineTrace_fst] at hm
  obtain ⟨k, hk, hkp⟩ := List.mem_map.1 hm
  have hk2 : (k : Int) < dx + 1 := by
    have := List.mem_range.1 hk
    omega
  obtain ⟨m, e, hm0, h2, h3, h4, h5, h6⟩ :=
    drawLineTrace_inv dx dy ystep hdy0 hdy _ x0 y0 (dx / 2) (by omega) (by omega) p hp
  refine ⟨by omega, by omega, m, hm0, ?_, h2, ?_⟩
  · by_cases h0 : dy = 0
    · rw [h6 h0, h0]
    · have hlt : e < dx := by omega
      by_contra hcon
      have h7 : (dy + 1) * dx ≤ m * dx := mul_le_mul_of_nonneg_right (by omega) hdx0
      have h8 : (p.1 - x0) * dy ≤ dx * dy := mul_le_mul_of_nonneg_right (by omega) hdy0
      have h9 : 0 ≤ dx / 2 := by omega
      nlinarith
  · intro hlast
    by_cases h0 : dy = 0
    · rw [h6 h0, h0]
    · have hlt : e < dx := by omega
      have hk3 : p.1 - x0 = dx := by omega
      rw [hk3] at h3
      have h9 : (m - dy) * dx = e - dx / 2 := by rw [h3]; ring
      by_contra hcon
      rcases lt_or_gt_of_ne hcon with h | h
      · have : (m - dy) * dx ≤ (-1) * dx := mul_le_mul_of_nonneg_right (by omega) hdx0
        omega
      · have : 1 * dx ≤ (m - dy) * dx := mul_le_mul_of_nonneg_right (by omega) hdx0
        omega
/-- The major coordinates of a trace are pairwise different. -/
theorem drawLineTrace_fst_nodup (dx dy ystep : Int) (n : Nat) (x0 y0 err : Int) :
    ((drawLineTrace dx dy ystep n x0 y0 err).map Prod.fst).Nodup := by
  rw [drawLineTrace_fst]
  refine (List.nodup_range n).map ?_
  intro a b hab
  simp only at hab
  omega

/-- The trace of a line whose major coordinate runs from `as` up to `ae` and
whose minor coordinate goes from `bs` to `be`, not steeper than the diagonal:
what `drawLine` walks after its two swaps. -/
theorem drawLineTrace_sorted (as bs ae be : Int) (h1 : as ≤ ae)
    (h2 : ((be - bs).natAbs : Int) ≤ ae - as) (L : List (Int × Int))
    (hL : L = drawLineTrace (ae - as) ((be - bs).natAbs) (if bs < be then 1 else -1)
      (ae - as + 1).toNat as bs (Int.tdiv (ae - as) 2)) :
    (∀ p ∈ L, as ≤ p.1 ∧ p.1 ≤ ae ∧ min bs be ≤ p.2 ∧ p.2 ≤ max bs be)
    ∧ (as, bs) ∈ L ∧ (ae, be) ∈ L
    ∧ L.Nodup ∧ L.length = (ae - as + 1).toNat
    ∧ (∀ p q, p ∈ L → q ∈ L → p.1 = q.1 → p = q)
    ∧ (∀ a, as ≤ a → a ≤ ae → ∃ b, (a, b) ∈ L)
    ∧ (∀ p q, p ∈ L → q ∈ L → q.1 = p.1 + 1 → q.2 ≤ p.2 + 1 ∧ p.2 ≤ q.2 + 1) := by
  have hdy0 : (0 : Int) ≤ ((be - bs).natAbs : Int) := Int.natCast_nonneg _
  have hminor := fun p hp =>
    drawLineTrace_minor (ae - as) ((be - bs).natAbs) (if bs < be then 1 else -1) hdy0 h2 as bs p
      (hL ▸ hp)
  have hfst : L.map Prod.fst = (List.range (ae - as + 1).toNat).map fun k : Nat => as + (k : Int) := by
    rw [hL, drawLineTrace_fst]
  have hnd : (L.map Prod.fst).Nodup := by
    rw [hL]; exact drawLineTrace_fst_nodup _ _ _ _ _ _ _
  have hex : ∀ a, as ≤ a → a ≤ ae → ∃ b, (a, b) ∈ L := by
    intro a ha1 ha2
    have : a ∈ L.map Prod.fst := by
      rw [hfst]
      refine List.mem_map.2 ⟨(a - as).toNat, List.mem_range.2 ?_, ?_⟩ <;> omega
    obtain ⟨p, hp, hpa⟩ := List.mem_map.1 this
    exact ⟨p.2, by rw [← hpa]; exact hp⟩
  have hbox : ∀ p ∈ L, as ≤ p.1 ∧ p.1 ≤ ae ∧ min bs be ≤ p.2 ∧ p.2 ≤ max bs be := by
    intro p hp
    obtain ⟨ha, hb, m, hm0, hm1, hm2, _⟩ := hminor p hp
    refine ⟨ha, by omega, ?_, ?_⟩ <;> split_ifs at hm2 <;> omega
  refine ⟨hbox, ?_, ?_, List.Nodup.of_map _ hnd, ?_, ?_, hex, ?_⟩
  · obtain ⟨b, hb⟩ := hex as (le_refl _) h1
    have := drawLineTrace_head _ _ _ _ _ _ _ _ (hL ▸ hb) rfl
    simp only at this
    rw [← this]; exact hb
  · obtain ⟨b, hb⟩ := hex ae h1 (le_refl _)
    obtain ⟨_, _, m, hm0, hm1, hm2, hm3⟩ := hminor _ hb
    have hm := hm3 (by simp)
    simp only at hm2
    have : b = be := by split_ifs at hm2 <;> omega
    rw [← this]; exact hb
  · have := congrArg List.length hfst
    simpa using this
  · intro p q hp hq hpq
    exact List.inj_on_of_nodup_map hnd hp hq hpq
  · intro p q hp hq hpq
    have := drawLineTrace_step _ _ _ _ _ _ _ p q (hL ▸ hp) (hL ▸ hq) hpq
    split_ifs at this <;> omega
/-- The trace that `drawLine` walks between `(a0, b0)` and `(a1, b1)` in
major/minor coordinates, after the swap that makes the major coordinate
increase. -/
theorem drawLineTrace_line (a0 b0 a1 b1 : Int)
    (h : (b1 - b0).natAbs ≤ (a1 - a0).natAbs) (L : List (Int × Int))
    (hL : L = drawLineTrace ((if a0 > a1 then a0 else a1) - (if a0 > a1 then a1 else a0))
      (((if a0 > a1 then b0 else b1) - (if a0 > a1 then b1 else b0)).natAbs)
      (if (if a0 > a1 then b1 else b0) < (if a0 > a1 then b0 else b1) then 1 else -1)
      ((if a0 > a1 then a0 else a1) - (if a0 > a1 then a1 else a0) + 1).toNat
      (if a0 > a1 then a1 else a0) (if a0 > a1 then b1 else b0)
      (Int.tdiv ((if a0 > a1 then a0 else a1) - (if a0 > a1 then a1 else a0)) 2)) :
    (∀ p ∈ L, min a0 a1 ≤ p.1 ∧ p.1 ≤ max a0 a1 ∧ min b0 b1 ≤ p.2 ∧ p.2 ≤ max b0 b1)
    ∧ (a0, b0) ∈ L ∧ (a1, b1) ∈ L
    ∧ L.Nodup ∧ L.length = (a1 - a0).natAbs + 1
    ∧ (∀ p q, p ∈ L → q ∈ L → p.1 = q.1 → p = q)
    ∧ (∀ a, min a0 a1 ≤ a → a ≤ max a0 a1 → ∃ b, (a, b) ∈ L)
    ∧ (∀ p q, p ∈ L → q ∈ L → q.1 = p.1 + 1 → q.2 ≤ p.2 + 1 ∧ p.2 ≤ q.2 + 1) := by
  by_cases hgt : a0 > a1
  · simp only [if_pos hgt] at hL
    obtain ⟨k1, k2, k3, k4, k5, k6, k7, k8⟩ :=
      drawLineTrace_sorted a1 b1 a0 b0 (by omega) (by omega) L hL
    refine ⟨fun p hp => ?_, k3, k2, k4, by omega, k6, fun a ha1 ha2 => ?_, k8⟩
    · have := k1 p hp
      omega
    · exact k7 a (by omega) (by omega)
  · simp only [if_neg hgt] at hL
    obtain ⟨k1, k2, k3, k4, k5, k6, k7, k8⟩ :=
      drawLineTrace_sorted a0 b0 a1 b1 (by omega) (by omega) L hL
    refine ⟨fun p hp => ?_, k2, k3, k4, by omega, k6, fun a ha1 ha2 => ?_, k8⟩
    · have := k1 p hp
      omega
    · exact k7 a (by omega) (by omega)

/-- The points of a line that is not steep: the major coordinate is `x`. -/
theorem drawLinePoints_shallow (x0 y0 x1 y1 : Int)
    (h : (y1 - y0).natAbs ≤ (x1 - x0).natAbs) :
    (∀ p ∈ drawLinePoints x0 y0 x1 y1,
      min x0 x1 ≤ p.1 ∧ p.1 ≤ max x0 x1 ∧ min y0 y1 ≤ p.2 ∧ p.2 ≤ max y0 y1)
    ∧ (x0, y0) ∈ drawLinePoints x0 y0 x1 y1 ∧ (x1, y1) ∈ drawLinePoints x0 y0 x1 y1
    ∧ (drawLinePoints x0 y0 x1 y1).Nodup
    ∧ (drawLinePoints x0 y0 x1 y1).length = (x1 - x0).natAbs + 1
    ∧ (∀ i j j', (i, j) ∈ drawLinePoints x0 y0 x1 y1 →
        (i, j') ∈ drawLinePoints x0 y0 x1 y1 → j = j')
    ∧ (∀ i, min x0 x1 ≤ i → i ≤ max x0 x1 → ∃ j, (i, j) ∈ drawLinePoints x0 y0 x1 y1)
    ∧ (∀ i j j', (i, j) ∈ drawLinePoints x0 y0 x1 y1 →
        (i + 1, j') ∈ drawLinePoints x0 y0 x1 y1 → j' ≤ j + 1 ∧ j ≤ j' + 1) := by
  have hs : ¬ (y1 - y0).natAbs > (x1 - x0).natAbs := by omega
  obtain ⟨k1, k2, k3, k4, k5, k6, k7, k8⟩ :=
    drawLineTrace_line x0 y0 x1 y1 h (drawLinePoints x0 y0 x1 y1) (by
      unfold drawLinePoints
      simp only [decide_eq_false hs, Bool.false_eq_true, if_false, List.map_id'])
  refine ⟨k1, k2, k3, k4, k5, fun i j j' hj hj' => ?_, k7, fun i j j' hj hj' => ?_⟩
  · have := k6 _ _ hj hj' rfl
    exact (Prod.mk.inj this).2
  · exact k8 _ _ hj hj' rfl

/-- The points of a steep line: the major coordinate is `y`. -/
theorem drawLinePoints_steep (x0 y0 x1 y1 : Int)
    (h : (x1 - x0).natAbs < (y1 - y0).natAbs) :
    (∀ p ∈ drawLinePoints x0 y0 x1 y1,
      min x0 x1 ≤ p.1 ∧ p.1 ≤ max x0 x1 ∧ min y0 y1 ≤ p.2 ∧ p.2 ≤ max y0 y1)
    ∧ (x0, y0) ∈ drawLinePoints x0 y0 x1 y1 ∧ (x1, y1) ∈ drawLinePoints x0 y0 x1 y1
    ∧ (drawLinePoints x0 y0 x1 y1).Nodup
    ∧ (drawLinePoints x0 y0 x1 y1).length = (y1 - y0).natAbs + 1
    ∧ (∀ i i' j, (i, j) ∈ drawLinePoints x0 y0 x1 y1 →
        (i', j) ∈ drawLinePoints x0 y0 x1 y1 → i = i')
    ∧ (∀ j, min y0 y1 ≤ j → j ≤ max y0 y1 → ∃ i, (i, j) ∈ drawLinePoints x0 y0 x1 y1)
    ∧ (∀ i i' j, (i, j) ∈ drawLinePoints x0 y0 x1 y1 →
        (i', j + 1) ∈ drawLinePoints x0 y0 x1 y1 → i' ≤ i + 1 ∧ i ≤ i' + 1) := by
  have hs : (y1 - y0).natAbs > (x1 - x0).natAbs := h
  obtain ⟨L, hL⟩ : ∃ L, L = drawLineTrace
      ((if y0 > y1 then y0 else y1) - (if y0 > y1 then y1 else y0))
      (((if y0 > y1 then x0 else x1) - (if y0 > y1 then x1 else x0)).natAbs)
      (if (if y0 > y1 then x1 else x0) < (if y0 > y1 then x0 else x1) then 1 else -1)
      ((if y0 > y1 then y0 else y1) - (if y0 > y1 then y1 else y0) + 1).toNat
      (if y0 > y1 then y1 else y0) (if y0 > y1 then x1 else x0)
      (Int.tdiv ((if y0 > y1 then y0 else y1) - (if y0 > y1 then y1 else y0)) 2) := ⟨_, rfl⟩
  have hP : drawLinePoints x0 y0 x1 y1 = L.map fun p => (p.2, p.1) := by
    unfold drawLinePoints
    simp only [decide_eq_true hs, if_true]
    rw [hL]
  have hmem : ∀ i j, (i, j) ∈ drawLinePoints x0 y0 x1 y1 ↔ (j, i) ∈ L := by
    intro i j
    rw [hP, List.mem_map]
    constructor
    · rintro ⟨p, hp, hpe⟩
      have h1 := (Prod.mk.inj hpe).1
      have h2 := (Prod.mk.inj hpe).2
      rw [← h1, ← h2]; exact hp
    · intro hji
      exact ⟨(j, i), hji, rfl⟩
  obtain ⟨k1, k2, k3, k4, k5, k6, k7, k8⟩ := drawLineTrace_line y0 x0 y1 x1 (le_of_lt h) L hL
  refine ⟨fun p hp => ?_, (hmem _ _).2 k2, (hmem _ _).2 k3, ?_, ?_,
    fun i i' j hi hi' => ?_, fun j hj1 hj2 => ?_, fun i i' j hi hi' => ?_⟩
  · have := k1 (p.2, p.1) ((hmem p.1 p.2).1 hp)
    simp only at this
    omega
  · rw [hP]
    refine k4.map ?_
    intro p q hpq
    have h1 := (Prod.mk.inj hpq).1
    have h2 := (Prod.mk.inj hpq).2
    exact Prod.ext h2 h1
  · rw [hP, List.length_map]; exact k5
  · have := k6 _ _ ((hmem _ _).1 hi) ((hmem _ _).1 hi') rfl
    exact (Prod.mk.inj this).2
  · obtain ⟨i, hi⟩ := k7 j hj1 hj2
    exact ⟨i, (hmem _ _).2 hi⟩
  · exact k8 _ _ ((hmem _ _).1 hi) ((hmem _ _).1 hi') rfl
/-- The set pixels after plotting on-screen points in a non-zero colour on a
cleared buffer are the plotted points. -/
theorem mem_litPixels_plot (safe : Bool) (color : Nat) (pts : List (Int × Int))
    (sBuffer : Buffer) (hc : color ≠ 0)
    (hpts : ∀ p ∈ pts, 0 ≤ p.1 ∧ p.1 < WIDTH ∧ 0 ≤ p.2 ∧ p.2 < HEIGHT) (i j : Nat) :
    (i, j) ∈ litPixels (plot safe color pts (clear sBuffer)) ↔ ((i : Int), (j : Int)) ∈ pts := by
  unfold litPixels
  rw [Finset.mem_filter, Finset.mem_product, Finset.mem_range, Finset.mem_range]
  constructor
  · rintro ⟨⟨hi, hj⟩, hp⟩
    simp only at hi hj hp
    rw [getPixel_plot safe color pts _ hpts i j hi, getPixel_clear _ _ _ hi hj] at hp
    by_contra hcon
    rw [if_neg hcon] at hp
    exact absurd hp (by decide)
  · intro hm
    obtain ⟨h1, h2, h3, h4⟩ := hpts _ hm
    simp only at h1 h2 h3 h4
    have hi : i < WIDTH := by exact_mod_cast h2
    have hj : j < HEIGHT := by exact_mod_cast h4
    refine ⟨⟨hi, hj⟩, ?_⟩
    simp only
    rw [getPixel_plot safe color pts _ hpts i j hi, if_pos hm, if_pos hc]

/-- The number of set pixels after plotting distinct on-screen points on a
cleared buffer. -/
theorem card_litPixels_plot (safe : Bool) (color : Nat) (pts : List (Int × Int))
    (sBuffer : Buffer) (hc : color ≠ 0)
    (hpts : ∀ p ∈ pts, 0 ≤ p.1 ∧ p.1 < WIDTH ∧ 0 ≤ p.2 ∧ p.2 < HEIGHT) (hnd : pts.Nodup) :
    (litPixels (plot safe color pts (clear sBuffer))).card = pts.length := by
  rw [← List.toFinset_card_of_nodup hnd]
  refine Finset.card_bij (fun a _ => ((a.1 : Int), (a.2 : Int))) ?_ ?_ ?_
  · intro a ha
    rw [List.mem_toFinset]
    exact (mem_litPixels_plot safe color pts sBuffer hc hpts a.1 a.2).1 ha
  · intro a _ b _ hab
    have h1 := (Prod.mk.inj hab).1
    have h2 := (Prod.mk.inj hab).2
    exact Prod.ext (by exact_mod_cast h1) (by exact_mod_cast h2)
  · intro b hb
    rw [List.mem_toFinset] at hb
    obtain ⟨h1, h2, h3, h4⟩ := hpts _ hb
    obtain ⟨i, hi⟩ := Int.eq_ofNat_of_zero_le h1
    obtain ⟨j, hj⟩ := Int.eq_ofNat_of_zero_le h3
    have hbe : b = ((i : Int), (j : Int)) := Prod.ext hi hj
    refine ⟨(i, j), ?_, hbe.symm⟩
    exact (mem_litPixels_plot safe color pts sBuffer hc hpts i j).2 (hbe ▸ hb)

/-- C12: for endpoints inside the display, `drawLine` in a non-zero colour on
a cleared buffer sets both endpoint pixels and `max(|x1-x0|, |y1-y0|) + 1`
pixels in total, all inside the bounding box of the endpoints; along the major
axis (x when `|y1-y0| ≤ |x1-x0|`, else y) every coordinate between the
endpoints has exactly one set pixel, and between consecutive major coordinates
the minor coordinate changes by at most 1. -/
theorem C12_drawLine_bresenham (safe : Bool) (x0 y0 x1 y1 color : Nat) (sBuffer : Buffer)
    (hx0 : x0 < WIDTH) (hy0 : y0 < HEIGHT) (hx1 : x1 < WIDTH) (hy1 : y1 < HEIGHT)
    (hc : color ≠ 0) :
    getPixel (drawLine safe x0 y0 x1 y1 color (clear sBuffer)) x0 y0 = 1
    ∧ getPixel (drawLine safe x0 y0 x1 y1 color (clear sBuffer)) x1 y1 = 1
    ∧ (litPixels (drawLine safe x0 y0 x1 y1 color (clear sBuffer))).card
        = max ((x1 : Int) - x0).natAbs ((y1 : Int) - y0).natAbs + 1
    ∧ (∀ p ∈ litPixels (drawLine safe x0 y0 x1 y1 color (clear sBuffer)),
        min x0 x1 ≤ p.1 ∧ p.1 ≤ max x0 x1 ∧ min y0 y1 ≤ p.2 ∧ p.2 ≤ max y0 y1)
    ∧ (((y1 : Int) - y0).natAbs ≤ ((x1 : Int) - x0).natAbs →
        (∀ i, min x0 x1 ≤ i → i ≤ max x0 x1 →
          ∃! j, (i, j) ∈ litPixels (drawLine safe x0 y0 x1 y1 color (clear sBuffer)))
        ∧ ∀ i j j', (i, j) ∈ litPixels (drawLine safe x0 y0 x1 y1 color (clear sBuffer)) →
            (i + 1, j') ∈ litPixels (drawLine safe x0 y0 x1 y1 color (clear sBuffer)) →
            j' ≤ j + 1 ∧ j ≤ j' + 1)
    ∧ (((x1 : Int) - x0).natAbs < ((y1 : Int) - y0).natAbs →
        (∀ j, min y0 y1 ≤ j → j ≤ max y0 y1 →
          ∃! i, (i, j) ∈ litPixels (drawLine safe x0 y0 x1 y1 color (clear sBuffer)))
        ∧ ∀ i i' j, (i, j) ∈ litPixels (drawLine safe x0 y0 x1 y1 color (clear sBuffer)) →
            (i', j + 1) ∈ litPixels (drawLine safe x0 y0 x1 y1 color (clear sBuffer)) →
            i' ≤ i + 1 ∧ i ≤ i' + 1) := by
  have hW : WIDTH = 128 := rfl
  have hH : HEIGHT = 64 := rfl
  rw [drawLine_eq_plot]
  have hbox : ∀ p ∈ drawLinePoints x0 y0 x1 y1,
      min (x0 : Int) x1 ≤ p.1 ∧ p.1 ≤ max (x0 : Int) x1
        ∧ min (y0 : Int) y1 ≤ p.2 ∧ p.2 ≤ max (y0 : Int) y1 := by
    by_cases hs : ((y1 : Int) - y0).natAbs ≤ ((x1 : Int) - x0).natAbs
    · exact (drawLinePoints_shallow x0 y0 x1 y1 hs).1
    · exact (drawLinePoints_steep x0 y0 x1 y1 (by omega)).1
  have hpts : ∀ p ∈ drawLinePoints x0 y0 x1 y1,
      0 ≤ p.1 ∧ p.1 < WIDTH ∧ 0 ≤ p.2 ∧ p.2 < HEIGHT := by
    intro p hp
    have := hbox p hp
    omega
  have hmem := mem_litPixels_plot safe color (drawLinePoints x0 y0 x1 y1) sBuffer hc hpts
  have hend : ((x0 : Int), (y0 : Int)) ∈ drawLinePoints x0 y0 x1 y1
      ∧ ((x1 : Int), (y1 : Int)) ∈ drawLinePoints x0 y0 x1 y1 := by
    by_cases hs : ((y1 : Int) - y0).natAbs ≤ ((x1 : Int) - x0).natAbs
    · exact ⟨(drawLinePoints_shallow x0 y0 x1 y1 hs).2.1,
        (drawLinePoints_shallow x0 y0 x1 y1 hs).2.2.1⟩
    · exact ⟨(drawLinePoints_steep x0 y0 x1 y1 (by omega)).2.1,
        (drawLinePoints_steep x0 y0 x1 y1 (by omega)).2.2.1⟩
  have hnd : (drawLinePoints x0 y0 x1 y1).Nodup
      ∧ (drawLinePoints x0 y0 x1 y1).length
        = max ((x1 : Int) - x0).natAbs ((y1 : Int) - y0).natAbs + 1 := by
    by_cases hs : ((y1 : Int) - y0).natAbs ≤ ((x1 : Int) - x0).natAbs
    · obtain ⟨_, _, _, k4, k5, _⟩ := drawLinePoints_shallow x0 y0 x1 y1 hs
      exact ⟨k4, by rw [k5, max_eq_left hs]⟩
    · obtain ⟨_, _, _, k4, k5, _⟩ := drawLinePoints_steep x0 y0 x1 y1 (by omega)
      exact ⟨k4, by rw [k5, max_eq_right (by omega)]⟩
  refine ⟨?_, ?_, ?_, ?_, ?_, ?_⟩
  · rw [getPixel_plot safe color _ _ hpts x0 y0 hx0, if_pos hend.1, if_pos hc]
  · rw [getPixel_plot safe color _ _ hpts x1 y1 hx1, if_pos hend.2, if_pos hc]
  · rw [card_litPixels_plot safe color _ sBuffer hc hpts hnd.1, hnd.2]
  · intro p hp
    have := hbox _ ((hmem p.1 p.2).1 hp)
    simp only at this
    omega
  · intro hs
    obtain ⟨_, _, _, _, _, k6, k7, k8⟩ := drawLinePoints_shallow x0 y0 x1 y1 hs
    refine ⟨fun i hi1 hi2 => ?_, fun i j j' hj hj' => ?_⟩
    · obtain ⟨b, hb⟩ := k7 i (by omega) (by omega)
      obtain ⟨_, _, hb0, _⟩ := hpts _ hb
      obtain ⟨j, hj⟩ := Int.eq_ofNat_of_zero_le hb0
      simp only at hj
      rw [hj] at hb
      refine ⟨j, (hmem i j).2 hb, fun j' hj' => ?_⟩
      have := k6 _ _ _ ((hmem i j').1 hj') hb
      exact_mod_cast this
    · have h1 := (hmem i j).1 hj
      have h2 := (hmem (i + 1) j').1 hj'
      rw [Nat.cast_add, Nat.cast_one] at h2
      have := k8 _ _ _ h1 h2
      omega
  · intro hs
    obtain ⟨_, _, _, _, _, k6, k7, k8⟩ := drawLinePoints_steep x0 y0 x1 y1 hs
    refine ⟨fun j hj1 hj2 => ?_, fun i i' j hi hi' => ?_⟩
    · obtain ⟨a, ha⟩ := k7 j (by omega) (by omega)
      obtain ⟨ha0, _, _, _⟩ := hpts _ ha
      obtain ⟨i, hi⟩ := Int.eq_ofNat_of_zero_le ha0
      simp only at hi
      rw [hi] at ha
      refine ⟨i, (hmem i j).2 ha, fun i' hi' => ?_⟩
      have := k6 _ _ _ ((hmem i' j).1 hi') ha
      exact_mod_cast this
    · have h1 := (hmem i j).1 hi
      have h2 := (hmem i' (j + 1)).1 hi'
      rw [Nat.cast_add, Nat.cast_one] at h2
      have := k8 _ _ _ h1 h2
      omega

/-- Witness for C12: the line from `(2, 3)` to `(9, 6)` sets both endpoints and
8 pixels. -/
theorem C12_drawLine_bresenham_witness :
    getPixel (drawLine true 2 3 9 6 WHITE (clear fun _ => 255)) 2 3 = 1
    ∧ getPixel (drawLine true 2 3 9 6 WHITE (clear fun _ => 255)) 9 6 = 1
    ∧ (litPixels (drawLine true 2 3 9 6 WHITE (clear fun _ => 255))).card = 8 :=
  have h := C12_drawLine_bresenham true 2 3 9 6 WHITE (fun _ => 255)
    (by decide) (by decide) (by decide) (by decide) (by decide)
  ⟨h.1, h.2.1, h.2.2.1⟩

/-! ## Bitmaps: the bits written in any mode, at any position -/

theorem blitBit_false (color : Nat) (o : Bool) : blitBit color o false = o := by
  unfold blitBit
  split_ifs <;> simp

/-- One store of `drawBitmap`, read bit by bit. -/
theorem testBit_blit (color : Nat) (sBuffer : Buffer) (i v j k : Nat) (hk : k < 8) :
    (blit color sBuffer i v j).testBit k
      = if j = i then blitBit color ((sBuffer i).testBit k) (v.testBit k)
        else (sBuffer j).testBit k := by
  unfold blit blitBit orAt andNotAt xorAt modify
  by_cases hj : j = i
  · split_ifs <;> simp only [if_pos hj]
    · rw [testBit_mod256, Nat.testBit_or]; simp [hk]
    · rw [Nat.testBit_and, testBit_not8]; simp [hk]
    · rw [testBit_mod256, Nat.testBit_xor]; simp [hk]
  · split_ifs <;> simp only [if_neg hj]

/-- The stores of one column of one bitmap row-group, read bit by bit: bit `k`
of the buffer byte at row-group `r`, column `col` is pixel row `8r + k`; the
cell covers the eight pixel rows from `8·bRow + yOffset` in column
`x + iCol`. -/
theorem testBit_drawBitmapCell (x : Int) (bitmap : Nat → Nat) (w color yOffset a : Nat)
    (bRow : Int) (iCol : Nat) (sBuffer : Buffer) (r col k : Nat)
    (hr : r < 8) (hcol : col < 128) (hk : k < 8) (hy : yOffset ≤ 8)
    (hb1 : -2 < bRow) (hb2 : bRow ≤ 7) (hx2 : x + iCol ≤ 127) :
    (drawBitmapCell x bitmap w color yOffset a bRow iCol sBuffer (r * WIDTH + col)).testBit k
      = if (col : Int) = x + iCol ∧ 8 * bRow + yOffset ≤ 8 * (r : Int) + k
            ∧ 8 * (r : Int) + k < 8 * bRow + yOffset + 8 then
          blitBit color ((sBuffer (r * WIDTH + col)).testBit k)
            ((pgm_read_byte bitmap (a * w + iCol)).testBit
              (8 * (r : Int) + k - (8 * bRow + yOffset)).toNat)
        else (sBuffer (r * WIDTH + col)).testBit k := by
  have hW : WIDTH = 128 := rfl
  have hH : ((HEIGHT : Nat) : Int) / 8 - 1 = 7 := rfl
  have hWi : ((WIDTH : Nat) : Int) = 128 := rfl
  unfold drawBitmapCell
  rw [hH, hWi, hW]
  have hv := pgm_read_byte_lt bitmap (a * w + iCol)
  generalize pgm_read_byte bitmap (a * w + iCol) = v at hv ⊢
  by_cases hx1 : (iCol : Int) + x ≥ 0
  swap
  · rw [if_neg hx1, if_neg (by omega)]
  rw [if_pos hx1]
  by_cases hd : bRow ≥ 0
  · rw [if_pos hd]
    by_cases hs : yOffset ≠ 0 ∧ bRow < 7 ∧ bRow > -2
    · rw [if_pos hs, testBit_blit _ _ _ _ _ _ hk, testBit_blit _ _ _ _ _ _ hk,
        testBit_blit _ _ _ _ _ _ hk, Nat.testBit_shiftLeft, Nat.testBit_shiftRight]
      by_cases h1 : r * 128 + col = ((bRow + 1) * 128 + x + iCol).toNat
      · have h2 : ¬ ((bRow + 1) * 128 + x + iCol).toNat = (bRow * 128 + x + iCol).toNat := by
          omega
        rw [if_pos h1, if_neg h2, ← h1]
        by_cases h3 : k < yOffset
        · rw [if_pos (by omega)]
          congr 2
          omega
        · rw [if_neg (by omega), testBit_byte_high v _ hv (by omega), blitBit_false]
      · rw [if_neg h1]
        by_cases h2 : r * 128 + col = (bRow * 128 + x + iCol).toNat
        · rw [if_pos h2, ← h2]
          by_cases h3 : yOffset ≤ k
          · rw [if_pos (by omega)]
            have : decide (k ≥ yOffset) = true := by simpa using h3
            rw [this, Bool.true_and]
            congr 2
            omega
          · rw [if_neg (by omega)]
            have : decide (k ≥ yOffset) = false := by simpa using h3
            rw [this, Bool.false_and, blitBit_false]
        · rw [if_neg h2, if_neg (by omega)]
    · rw [if_neg hs, testBit_blit _ _ _ _ _ _ hk, Nat.testBit_shiftLeft]
      by_cases h2 : r * 128 + col = (bRow * 128 + x + iCol).toNat
      · rw [if_pos h2, ← h2]
        by_cases h3 : yOffset ≤ k
        · rw [if_pos (by omega)]
          have : decide (k ≥ yOffset) = true := by simpa using h3
          rw [this, Bool.true_and]
          congr 2
          omega
        · rw [if_neg (by omega)]
          have : decide (k ≥ yOffset) = false := by simpa using h3
          rw [this, Bool.false_and, blitBit_false]
      · rw [if_neg h2, if_neg (by omega)]
  · rw [if_neg hd]
    have hs : yOffset ≠ 0 ∧ bRow < 7 ∧ bRow > -2 ∨ ¬ (yOffset ≠ 0 ∧ bRow < 7 ∧ bRow > -2) :=
      Classical.em _
    rcases hs with hs | hs
    · rw [if_pos hs, testBit_blit _ _ _ _ _ _ hk, Nat.testBit_shiftRight]
      by_cases h1 : r * 128 + col = ((bRow + 1) * 128 + x + iCol).toNat
      · rw [if_pos h1, ← h1]
        by_cases h3 : k < yOffset
        · rw [if_pos (by omega)]
          congr 2
          omega
        · rw [if_neg (by omega), testBit_byte_high v _ hv (by omega), blitBit_false]
      · rw [if_neg h1, if_neg (by omega)]
    · rw [if_neg hs, if_neg (by omega)]
/-- The inner loop of `drawBitmap`, read bit by bit: the columns still to run
are `x + iCol, ..., x + iCol + n - 1`. -/
theorem testBit_drawBitmapCols (x : Int) (bitmap : Nat → Nat) (w color yOffset a : Nat)
    (bRow : Int) (r col k : Nat) (hr : r < 8) (hcol : col < 128) (hk : k < 8)
    (hy : yOffset ≤ 8) (hb1 : -2 < bRow) (hb2 : bRow ≤ 7) (n : Nat) :
    ∀ (iCol : Nat) (sBuffer : Buffer),
      (drawBitmapCols x bitmap w color yOffset a bRow n iCol sBuffer (r * WIDTH + col)).testBit k
        = if x + iCol ≤ col ∧ (col : Int) < x + iCol + n ∧ 8 * bRow + yOffset ≤ 8 * (r : Int) + k
              ∧ 8 * (r : Int) + k < 8 * bRow + yOffset + 8 then
            blitBit color ((sBuffer (r * WIDTH + col)).testBit k)
              ((pgm_read_byte bitmap (a * w + ((col : Int) - x).toNat)).testBit
                (8 * (r : Int) + k - (8 * bRow + yOffset)).toNat)
          else (sBuffer (r * WIDTH + col)).testBit k := by
  have hWi : ((WIDTH : Nat) : Int) - 1 = 127 := rfl
  induction n with
  | zero =>
    intro iCol sBuffer
    rw [drawBitmapCols, if_neg (by omega)]
  | succ n ih =>
    intro iCol sBuffer
    rw [drawBitmapCols, hWi]
    by_cases hbrk : (iCol : Int) + x > 127
    · rw [if_pos hbrk, if_neg (by omega)]
    · rw [if_neg hbrk, ih,
        testBit_drawBitmapCell x bitmap w color yOffset a bRow iCol sBuffer r col k hr hcol hk hy
          hb1 hb2 (by omega)]
      push_cast
      split_ifs with h1 h2 h3 h3 h2 h3 h3 <;>
        first
        | rfl
        | (exfalso; omega)
        | (have e : ((col : Int) - x).toNat = iCol := by omega
           rw [e])

/-- The outer loop of `drawBitmap`, read bit by bit: the bitmap row-groups
still to run are `a, ..., a + n - 1`, row-group `a` covering the pixel rows
from `8·(sRow + a) + yOffset`. -/
theorem testBit_drawBitmapRows (x : Int) (bitmap : Nat → Nat) (w color yOffset : Nat)
    (sRow : Int) (r col k : Nat) (hr : r < 8) (hcol : col < 128) (hk : k < 8)
    (hy : yOffset ≤ 8) (n : Nat) :
    ∀ (a : Nat) (sBuffer : Buffer),
      (drawBitmapRows x bitmap w color yOffset sRow n a sBuffer (r * WIDTH + col)).testBit k
        = if x ≤ col ∧ (col : Int) < x + w ∧ 8 * (sRow + a) + yOffset ≤ 8 * (r : Int) + k
              ∧ 8 * (r : Int) + k < 8 * (sRow + a + n) + yOffset then
            blitBit color ((sBuffer (r * WIDTH + col)).testBit k)
              ((pgm_read_byte bitmap
                  (((8 * (r : Int) + k - (8 * sRow + yOffset)) / 8).toNat * w
                    + ((col : Int) - x).toNat)).testBit
                ((8 * (r : Int) + k - (8 * sRow + yOffset)) % 8).toNat)
          else (sBuffer (r * WIDTH + col)).testBit k := by
  have hH : ((HEIGHT : Nat) : Int) / 8 - 1 = 7 := rfl
  induction n with
  | zero =>
    intro a sBuffer
    rw [drawBitmapRows, if_neg (by omega)]
  | succ n ih =>
    intro a sBuffer
    rw [drawBitmapRows, hH]
    dsimp only
    by_cases hbrk : sRow + (a : Int) > 7
    · rw [if_pos hbrk, if_neg (by omega)]
    · rw [if_neg hbrk, ih (a + 1)]
      by_cases hskip : sRow + (a : Int) > -2
      · rw [if_pos hskip,
          testBit_drawBitmapCols x bitmap w color yOffset a (sRow + a) r col k hr hcol hk hy
            (by omega) (by omega) w 0 sBuffer]
        push_cast
        split_ifs with h1 h2 h3 h3 h2 h3 h3 <;>
          first
          | rfl
          | (exfalso; omega)
          | (have e1 : ((8 * (r : Int) + k - (8 * sRow + yOffset)) / 8).toNat = a := by omega
             have e2 : ((8 * (r : Int) + k - (8 * sRow + yOffset)) % 8).toNat
                = (8 * (r : Int) + k - (8 * (sRow + a) + yOffset)).toNat := by omega
             rw [e1, e2])
      · rw [if_neg hskip]
        push_cast
        split_ifs with h1 h2 h2 <;> first | rfl | (exfalso; omega)
/-- The row-group `sRow` and the bit offset `yOffset` that `drawBitmap`
computes from `y` satisfy `y = 8·sRow + yOffset`, with `yOffset` in `0..7` for
`y ≥ 0` and in `1..8` for `y < 0`. -/
theorem drawBitmap_sRow_yOffset (y : Int) :
    y = 8 * (if y < 0 then Int.tdiv y 8 - 1 else Int.tdiv y 8)
          + ((if y < 0 then 8 - y.natAbs % 8 else y.natAbs % 8 : Nat) : Int)
    ∧ (if y < 0 then 8 - y.natAbs % 8 else y.natAbs % 8) ≤ 8 := by
  by_cases h : y < 0
  · have h1 : Int.tdiv (-y) 8 = (-y) / 8 := Int.tdiv_eq_ediv (by omega) (by norm_num)
    have h2 : Int.tdiv y 8 = -((-y) / 8) := by rw [← h1, Int.neg_tdiv, neg_neg]
    rw [if_pos h, if_pos h, h2]
    omega
  · have h2 : Int.tdiv y 8 = y / 8 := Int.tdiv_eq_ediv (by omega) (by norm_num)
    rw [if_neg h, if_neg h, h2]
    omega

/-- The buffer after `drawBitmap`, read bit by bit, in every mode and at every
position: unless the call returns at once, pixel `(i, j)` of the display with
`x ≤ i < x + w` and `y ≤ j < y + 8·rows` takes bit `(j - y) mod 8` of bitmap
byte `((j - y) div 8)·w + (i - x)`, combined as the mode says; every other
pixel keeps its bit. -/
theorem testBit_drawBitmap (x y : Int) (bitmap : Nat → Nat) (w h color : Nat)
    (sBuffer : Buffer) (i j : Nat) (hi : i < WIDTH) (hj : j < HEIGHT) :
    (drawBitmap x y bitmap w h color sBuffer (j / 8 * WIDTH + i)).testBit (j % 8)
      = if 0 ≤ y + h ∧ x ≤ i ∧ (i : Int) < x + w ∧ y ≤ j ∧ (j : Int) < y + 8 * bitmapRows h then
          blitBit color ((sBuffer (j / 8 * WIDTH + i)).testBit (j % 8))
            ((pgm_read_byte bitmap ((((j : Int) - y) / 8).toNat * w
                + ((i : Int) - x).toNat)).testBit (((j : Int) - y) % 8).toNat)
        else (sBuffer (j / 8 * WIDTH + i)).testBit (j % 8) := by
  have hW : WIDTH = 128 := rfl
  have hH : HEIGHT = 64 := rfl
  have hWi : ((WIDTH : Nat) : Int) - 1 = 127 := rfl
  have hHi : ((HEIGHT : Nat) : Int) - 1 = 63 := rfl
  unfold drawBitmap
  rw [hWi, hHi]
  by_cases hg : x + (w : Int) < 0 ∨ x > 127 ∨ y + (h : Int) < 0 ∨ y > 63
  · rw [if_pos hg, if_neg (by omega)]
  · rw [if_neg hg]
    obtain ⟨hy1, hy2⟩ := drawBitmap_sRow_yOffset y
    rw [testBit_drawBitmapRows x bitmap w color _ _ (j / 8) i (j % 8) (by omega) (by omega)
      (by omega) hy2]
    have hrows : (if h % 8 ≠ 0 then h / 8 + 1 else h / 8) = bitmapRows h := rfl
    rw [hrows]
    generalize (if y < 0 then Int.tdiv y 8 - 1 else Int.tdiv y 8) = sRow at hy1
    generalize (if y < 0 then 8 - y.natAbs % 8 else y.natAbs % 8) = yOffset at hy1 hy2
    have e : 8 * ((j / 8 : Nat) : Int) + ((j % 8 : Nat) : Int) - (8 * sRow + yOffset)
        = (j : Int) - y := by omega
    rw [e]
    by_cases hc : 0 ≤ y + h ∧ x ≤ i ∧ (i : Int) < x + w ∧ y ≤ j
        ∧ (j : Int) < y + 8 * bitmapRows h
    · rw [if_pos hc, if_pos (by push_cast; omega)]
    · rw [if_neg hc, if_neg (by push_cast; omega)]

/-- The pixels after `drawBitmap`, in every mode and at every position. -/
theorem getPixel_drawBitmap (x y : Int) (bitmap : Nat → Nat) (w h color : Nat)
    (sBuffer : Buffer) (i j : Nat) (hi : i < WIDTH) (hj : j < HEIGHT) :
    getPixel (drawBitmap x y bitmap w h color sBuffer) i j
      = if 0 ≤ y + h ∧ x ≤ i ∧ (i : Int) < x + w ∧ y ≤ j ∧ (j : Int) < y + 8 * bitmapRows h then
          (if blitBit color (decide (getPixel sBuffer i j = 1))
            ((pgm_read_byte bitmap ((((j : Int) - y) / 8).toNat * w
                + ((i : Int) - x).toNat)).testBit (((j : Int) - y) % 8).toNat) then 1 else 0)
        else getPixel sBuffer i j := by
  rw [getPixel_eq, getPixel_eq, testBit_drawBitmap x y bitmap w h color sBuffer i j hi hj]
  have hd : decide ((if (sBuffer (j / 8 * WIDTH + i)).testBit (j % 8) = true then 1 else 0) = 1)
      = (sBuffer (j / 8 * WIDTH + i)).testBit (j % 8) := by
    cases (sBuffer (j / 8 * WIDTH + i)).testBit (j % 8) <;> rfl
  rw [hd]
  split_ifs <;> rfl
/-! ## Bitmaps anchored above row 0 -/

theorem ite_or_pixel (g : Nat) (hg : g = 0 ∨ g = 1) (v : Bool) :
    (if (decide (g = 1) || v) = true then 1 else 0) = g ||| (if v = true then 1 else 0) := by
  rcases hg with h | h <;> subst h <;> cases v <;> rfl

theorem getPixel_bit (sBuffer : Buffer) (x y : Nat) :
    getPixel sBuffer x y = 0 ∨ getPixel sBuffer x y = 1 := by
  rw [getPixel_eq]
  split_ifs
  · exact Or.inr rfl
  · exact Or.inl rfl

/-- C14, as stated, fails: a 1×5 bitmap at `y = -6` satisfies `y < 0` and
`-8·ceil(h/8) < y`, and bit 6 of its byte would land on pixel `(0, 0)`, but
`drawBitmap` returns at once because `y + h < 0`, so the pixel stays clear. -/
theorem C14_drawBitmap_above_top_rejected :
    (-6 : Int) < 0 ∧ -8 * (bitmapRows 5 : Int) < -6 ∧ 6 < 8 * bitmapRows 5
    ∧ (pgm_read_byte (fun _ => 0xFF) (6 / 8 * 1 + 0)).testBit (6 % 8) = true
    ∧ getPixel (fun _ => 0) 0 0 = 0
    ∧ getPixel (drawBitmap 0 (-6) (fun _ => 0xFF) 1 5 WHITE fun _ => 0)
        ((0 : Int) + (0 : Nat)).toNat ((-6 : Int) + (6 : Nat)).toNat = 0 := by
  decide

/-- C14 (amended): for every buffer, every row-packed bitmap and every
position with `y < 0` and `0 ≤ y + h` (the call is not rejected as off screen),
`drawBitmap` in `WHITE` mode is pixel-exact: every on-screen pixel
`(x + c, y + j)` with `c < w` and `j < 8·ceil(h/8)` becomes old OR bit `j mod 8`
of bitmap byte `(j div 8)·w + c`, and every other pixel is unchanged. -/
theorem C14_drawBitmap_WHITE_above_top (sBuffer : Buffer) (bitmap : Nat → Nat) (x y : Int)
    (w h : Nat) (hy : y < 0) (hyh : 0 ≤ y + h) :
    (∀ c j : Nat, c < w → j < 8 * bitmapRows h →
      0 ≤ x + c → x + c < WIDTH → 0 ≤ y + j → y + j < HEIGHT →
      getPixel (drawBitmap x y bitmap w h WHITE sBuffer) (x + c).toNat (y + j).toNat
        = getPixel sBuffer (x + c).toNat (y + j).toNat
          ||| (if (pgm_read_byte bitmap (j / 8 * w + c)).testBit (j % 8) then 1 else 0))
    ∧ (∀ i j : Nat, i < WIDTH → j < HEIGHT →
        ¬ (x ≤ i ∧ (i : Int) < x + w ∧ (j : Int) < y + 8 * bitmapRows h) →
        getPixel (drawBitmap x y bitmap w h WHITE sBuffer) i j = getPixel sBuffer i j) := by
  have hW : WIDTH = 128 := rfl
  have hH : HEIGHT = 64 := rfl
  constructor
  · intro c j hc hj hx0 hx1 hy0 hy1
    obtain ⟨i, hi⟩ := Int.eq_ofNat_of_zero_le hx0
    obtain ⟨jj, hjj⟩ := Int.eq_ofNat_of_zero_le hy0
    rw [hi, hjj, Int.toNat_ofNat, Int.toNat_ofNat,
      getPixel_drawBitmap x y bitmap w h WHITE sBuffer i jj (by omega) (by omega),
      if_pos (by omega)]
    have e1 : (((jj : Int) - y) / 8).toNat = j / 8 := by omega
    have e2 : (((jj : Int) - y) % 8).toNat = j % 8 := by omega
    have e3 : ((i : Int) - x).toNat = c := by omega
    rw [e1, e2, e3]
    unfold blitBit
    rw [if_pos rfl]
    exact ite_or_pixel _ (getPixel_bit _ _ _) _
  · intro i j hi hj hout
    rw [getPixel_drawBitmap x y bitmap w h WHITE sBuffer i j hi hj, if_neg (by omega)]

/-- Witness for C14 (amended): a 2×8 bitmap at `(-1, -3)`; bit 5 of its byte 1
lands on pixel `(0, 2)`. -/
theorem C14_drawBitmap_WHITE_above_top_witness :
    getPixel (drawBitmap (-1) (-3) (fun _ => 0xA5) 2 8 WHITE fun _ => 0)
        ((-1 : Int) + (1 : Nat)).toNat ((-3 : Int) + (5 : Nat)).toNat
      = getPixel (fun _ => 0) ((-1 : Int) + (1 : Nat)).toNat ((-3 : Int) + (5 : Nat)).toNat
        ||| (if (pgm_read_byte (fun _ => 0xA5) (5 / 8 * 2 + 1)).testBit (5 % 8) then 1 else 0) :=
  (C14_drawBitmap_WHITE_above_top (fun _ => 0) (fun _ => 0xA5) (-1) (-3) 2 8
    (by decide) (by decide)).1 1 5 (by decide) (by decide) (by decide) (by decide)
    (by decide) (by decide)

/-! ## Bitmaps: the invert mode -/

theorem xor_mod256_xor (b m m' : Nat) :
    ((b ^^^ m) % 256 ^^^ m') % 256 = (b ^^^ (m ^^^ m')) % 256 := by
  apply Nat.eq_of_testBit_eq
  intro k
  simp only [testBit_mod256, Nat.testBit_xor]
  by_cases hk : k < 8 <;> simp [hk]

theorem xorByte_same : XorByte fun b => b := Or.inl fun _ => rfl

theorem xorByte_comp (g g' : Nat → Nat) (hg : XorByte g) (hg' : XorByte g') :
    XorByte fun b => g' (g b) := by
  rcases hg with hg | ⟨m, hg⟩ <;> rcases hg' with hg' | ⟨m', hg'⟩
  · exact Or.inl fun b => by show g' (g b) = _; rw [hg', hg]
  · exact Or.inr ⟨m', fun b => by show g' (g b) = _; rw [hg', hg]⟩
  · exact Or.inr ⟨m, fun b => by show g' (g b) = _; rw [hg', hg]⟩
  · exact Or.inr ⟨m ^^^ m', fun b => by show g' (g b) = _; rw [hg', hg, xor_mod256_xor]⟩

/-- On a byte, XOR with a fixed mask is its own inverse. -/
theorem xorByte_invol (g : Nat → Nat) (hg : XorByte g) (b : Nat) (hb : b < 256) :
    g (g b) = b := by
  rcases hg with hg | ⟨m, hg⟩
  · rw [hg, hg]
  · rw [hg, hg, xor_mod256_xor, Nat.xor_self, Nat.xor_zero, Nat.mod_eq_of_lt hb]

/-- In invert mode one store of `drawBitmap` is an XOR into one byte. -/
theorem blit_XOR_bytewise (color : Nat) (hW : color ≠ WHITE) (hB : color ≠ BLACK) (i v : Nat) :
    Bytewise XorByte fun sBuffer => blit color sBuffer i v := by
  have h := bytewise_modify xorByte_same (fun b => (b ^^^ v) % 256)
    (Or.inr ⟨v, fun _ => rfl⟩) i
  simpa [blit, xorAt, hW, hB] using h

/-- A bytewise transformer whose byte functions are their own inverses on
bytes undoes itself on a buffer of bytes. -/
theorem bytewise_invol {G : (Nat → Nat) → Prop}
    (hinv : ∀ g, G g → ∀ b, b < 256 → g (g b) = b)
    {f : Buffer → Buffer} (hf : Bytewise G f) (sBuffer : Buffer) (hB : IsBytes sBuffer) :
    f (f sBuffer) = sBuffer := by
  obtain ⟨g, hg, hfg⟩ := hf
  funext j
  rw [hfg (f sBuffer) j, hfg sBuffer j, hinv _ (hg j) _ (hB j)]

/-- Drawing a bitmap twice in invert mode restores a buffer of bytes. -/
theorem drawBitmap_XOR_twice (sBuffer : Buffer) (hB : IsBytes sBuffer) (bitmap : Nat → Nat)
    (x y : Int) (w h color : Nat) (hcW : color ≠ WHITE) (hcB : color ≠ BLACK) :
    drawBitmap x y bitmap w h color (drawBitmap x y bitmap w h color sBuffer) = sBuffer :=
  bytewise_invol xorByte_invol
    (drawBitmap_bytewise xorByte_same xorByte_comp color (blit_XOR_bytewise color hcW hcB)
      x y bitmap w h)
    sBuffer hB

/-- In invert mode a single draw flips every display pixel that a set bit of
the bitmap's row-groups lands on, unless the call returns at once. -/
theorem drawBitmap_XOR_once_differs (sBuffer : Buffer) (bitmap : Nat → Nat) (x y : Int)
    (w h color : Nat) (hcW : color ≠ WHITE) (hcB : color ≠ BLACK) (c j : Nat)
    (hc : c < w) (hj : j < 8 * bitmapRows h) (hyh : 0 ≤ y + h)
    (hbit : (pgm_read_byte bitmap (j / 8 * w + c)).testBit (j % 8) = true)
    (hx0 : 0 ≤ x + c) (hx1 : x + c < WIDTH) (hy0 : 0 ≤ y + j) (hy1 : y + j < HEIGHT) :
    sBuffer ≠ drawBitmap x y bitmap w h color sBuffer := by
  have hW : WIDTH = 128 := rfl
  have hH : HEIGHT = 64 := rfl
  intro heq
  obtain ⟨i, hi⟩ := Int.eq_ofNat_of_zero_le hx0
  obtain ⟨jj, hjj⟩ := Int.eq_ofNat_of_zero_le hy0
  have hpix := getPixel_drawBitmap x y bitmap w h color sBuffer i jj (by omega) (by omega)
  have e1 : (((jj : Int) - y) / 8).toNat = j / 8 := by omega
  have e2 : (((jj : Int) - y) % 8).toNat = j % 8 := by omega
  have e3 : ((i : Int) - x).toNat = c := by omega
  rw [← heq, if_pos (by omega), e1, e2, e3, hbit] at hpix
  unfold blitBit at hpix
  rw [if_neg hcW, if_neg hcB] at hpix
  rcases getPixel_bit sBuffer i jj with h0 | h0 <;> rw [h0] at hpix <;> revert hpix <;> decide

/-- C17: for every buffer of bytes, bitmap, position and size, drawing the
same bitmap twice with `drawBitmap` in invert (XOR) mode, that is with any
colour other than `WHITE` and `BLACK`, restores the buffer exactly; and the
result differs from that of a single draw whenever a set bit of the `w`×`h`
bitmap lands on a pixel of the display, and also whenever a set bit of the
padding rows `h ≤ j < 8·ceil(h/8)` does, provided `0 ≤ y + h`. -/
theorem C17_drawBitmap_xor_self_inverse (sBuffer : Buffer) (hB : IsBytes sBuffer)
    (bitmap : Nat → Nat) (x y : Int) (w h color : Nat)
    (hcW : color ≠ WHITE) (hcB : color ≠ BLACK) :
    drawBitmap x y bitmap w h color (drawBitmap x y bitmap w h color sBuffer) = sBuffer
    ∧ (∀ c j : Nat, c < w → j < h →
        (pgm_read_byte bitmap (j / 8 * w + c)).testBit (j % 8) = true →
        0 ≤ x + c → x + c < WIDTH → 0 ≤ y + j → y + j < HEIGHT →
        drawBitmap x y bitmap w h color (drawBitmap x y bitmap w h color sBuffer)
          ≠ drawBitmap x y bitmap w h color sBuffer)
    ∧ (∀ c j : Nat, c < w → j < 8 * bitmapRows h → 0 ≤ y + h →
        (pgm_read_byte bitmap (j / 8 * w + c)).testBit (j % 8) = true →
        0 ≤ x + c → x + c < WIDTH → 0 ≤ y + j → y + j < HEIGHT →
        drawBitmap x y bitmap w h color (drawBitmap x y bitmap w h color sBuffer)
          ≠ drawBitmap x y bitmap w h color sBuffer) := by
  have htwice := drawBitmap_XOR_twice sBuffer hB bitmap x y w h color hcW hcB
  have hrows := (bitmapRows_bounds h).1
  refine ⟨htwice, ?_, ?_⟩
  · intro c j hc hj hbit hx0 hx1 hy0 hy1
    rw [htwice]
    exact drawBitmap_XOR_once_differs sBuffer bitmap x y w h color hcW hcB c j hc (by omega)
      (by omega) hbit hx0 hx1 hy0 hy1
  · intro c j hc hj hyh hbit hx0 hx1 hy0 hy1
    rw [htwice]
    exact drawBitmap_XOR_once_differs sBuffer bitmap x y w h color hcW hcB c j hc hj hyh hbit
      hx0 hx1 hy0 hy1

/-- Witness for C17: a 2×8 bitmap of set bits at `(3, 5)` in colour 2 on the
all-zero buffer. -/
theorem C17_drawBitmap_xor_self_inverse_witness :
    drawBitmap 3 5 (fun _ => 0xFF) 2 8 2 (drawBitmap 3 5 (fun _ => 0xFF) 2 8 2 fun _ => 0)
        = (fun _ => 0)
    ∧ drawBitmap 3 5 (fun _ => 0xFF) 2 8 2 (drawBitmap 3 5 (fun _ => 0xFF) 2 8 2 fun _ => 0)
        ≠ drawBitmap 3 5 (fun _ => 0xFF) 2 8 2 fun _ => 0 :=
  have h := C17_drawBitmap_xor_self_inverse (fun _ => 0) (fun _ => Nat.succ_pos 255)
    (fun _ => 0xFF) 3 5 2 8 2 (by decide) (by decide)
  ⟨h.1, h.2.1 1 4 (by decide) (by decide) (by decide) (by decide) (by decide) (by decide)
    (by decide)⟩

end ArduboyVeritazz
